import Mathlib

/-!
# robo.go : L0 framing, L0 client, control loop, L1 connection and transports, drive simulation

A shallow embedding of the parts of `robotalks/robo.go` that the checked
properties are about, followed by the theorems.

Conventions.
* A Go `byte` is a `Nat`; where the source relies on wrap-around the
  embedding reduces modulo `256` explicitly.
* A Go pointer that may be `nil` is an `Option`.
* A Go run-time panic (nil dereference, index out of range) is the `none`
  result of a function returning `Option`.
* A Go slice of bytes is a `List Nat`; a `nil` slice and an empty slice are
  both `[]`.
* A Go `float64` is a rational number with exact operations; a `time.Time` is
  an integer number of nanoseconds.
-/

namespace L0

/-! ## `pkg/l0/comm/packet.go` -/

/-- The type `PacketSeq` of `packet.go` is a byte. `Next` adds one with byte
wrap-around and maps `0` and everything from `0xf0` on to `1`. -/
def PacketSeq.Next (s : Nat) : Nat :=
  let n := (s + 1) % 256
  if n = 0 ∨ n ≥ 0xf0 then 1 else n

/-- The method `PacketSeq.IsValid` of `packet.go`. -/
def PacketSeq.IsValid (s : Nat) : Bool :=
  decide (s > 0) && decide (s < 0xf0)

/-- The struct `Packet` of `packet.go`. -/
structure Packet where
  Seq : Nat
  Code : Nat
  Data : List Nat
  deriving DecidableEq, Repr

/-- The method `Packet.Bytes` of `packet.go`. The length is narrowed to a
byte (`l := byte(len(p.Data))`) before it is compared with `7`; in the short
form the buffer is cut to `l+2` bytes, so `copy` moves only `l` data bytes. -/
def Packet.Bytes (p : Packet) : List Nat :=
  let l := p.Data.length % 256
  if l ≥ 7 then
    [p.Seq, (p.Code &&& 0x8f) ||| 0x70, l] ++ p.Data
  else
    [p.Seq, (p.Code &&& 0x8f) ||| (((l <<< 4) % 256) &&& 0x70)] ++ p.Data.take l

/-! ## `pkg/l0/comm/parser.go` -/

/-- The constants `SyncStateSyncing`, `SyncStateReady`, `SyncStateReceiving`. -/
def SyncStateSyncing : Nat := 0
def SyncStateReady : Nat := 0x01
def SyncStateReceiving : Nat := 0x02

/-- The enumeration `parseState` of `parser.go`, in `iota` order. -/
inductive parseState where
  | stateSyncAck
  | stateSyncReqSeq
  | stateSyncAckSeq
  | stateMsgSeq
  | stateMsgAckSeq
  | stateMsgCode
  | stateMsgLen
  | stateMsgData
  deriving DecidableEq, Repr

open parseState

/-- The `iota` value of a `parseState`. -/
def parseState.toNat : parseState → Nat
  | stateSyncAck => 0
  | stateSyncReqSeq => 1
  | stateSyncAckSeq => 2
  | stateMsgSeq => 3
  | stateMsgAckSeq => 4
  | stateMsgCode => 5
  | stateMsgLen => 6
  | stateMsgData => 7

def syncREQ : Nat := 0xff
def syncACK : Nat := 0xfe

/-- The struct `Parser` of `parser.go`; `packet` is the pointer field. -/
structure Parser where
  peerSeq : Nat
  state : parseState
  packet : Option Packet
  recvLen : Nat
  deriving DecidableEq, Repr

/-- The zero value `var parser Parser`. -/
def Parser.zero : Parser :=
  { peerSeq := 0, state := stateSyncAck, packet := none, recvLen := 0 }

/-- The struct `ParseResult` of `parser.go`. -/
structure ParseResult where
  Sync : Nat
  State : Nat
  Packet : Option Packet
  deriving DecidableEq, Repr

/-- The method `Parser.State`. -/
def Parser.State (p : Parser) : Nat :=
  if p.state = stateSyncAck then SyncStateSyncing
  else if p.state = stateMsgSeq then SyncStateReady
  else if p.state.toNat > stateMsgSeq.toNat then SyncStateReady ||| SyncStateReceiving
  else SyncStateSyncing ||| SyncStateReceiving

/-- The method `Parser.resync`: enter `stateSyncAck`, answer `syncREQ`. -/
def Parser.resync (p : Parser) : Parser × Nat × Option Packet :=
  ({ p with state := stateSyncAck }, syncREQ, none)

/-- The method `Parser.packetReady`: hand out the pending packet. -/
def Parser.packetReady (p : Parser) : Parser × Nat × Option Packet :=
  ({ p with state := stateMsgSeq, packet := none }, 0, p.packet)

/-- The method `Parser.parseByte`. The result is `none` where the Go code
would panic: a write through the nil `p.packet`, or an index past the end of
`p.packet.Data`. -/
def Parser.parseByte (p : Parser) (b : Nat) : Option (Parser × Nat × Option Packet) :=
  match p.state with
  | stateSyncAck =>
    if b = syncREQ then some ({ p with state := stateSyncReqSeq }, 0, none)
    else if b = syncACK then some ({ p with state := stateSyncAckSeq }, 0, none)
    else some (p, 0, none)
  | stateSyncReqSeq =>
    if PacketSeq.IsValid b then
      some ({ p with peerSeq := b, state := stateMsgSeq }, syncACK, none)
    else some p.resync
  | stateSyncAckSeq =>
    if PacketSeq.IsValid b then
      some ({ p with peerSeq := b, state := stateMsgSeq }, 0, none)
    else some p.resync
  | stateMsgSeq =>
    if b = syncREQ then some ({ p with state := stateSyncReqSeq }, 0, none)
    else if b = syncACK then some ({ p with state := stateMsgAckSeq }, 0, none)
    else if b ≠ p.peerSeq then some p.resync
    else
      some ({ p with packet := some { Seq := p.peerSeq, Code := 0, Data := [] },
                     peerSeq := PacketSeq.Next p.peerSeq,
                     state := stateMsgCode }, 0, none)
  | stateMsgAckSeq =>
    if b ≠ p.peerSeq then some p.resync
    else some ({ p with state := stateMsgSeq }, 0, none)
  | stateMsgCode =>
    match p.packet with
    | none => none
    | some pk =>
      let pk1 : Packet := { pk with Code := b &&& 0x8f }
      let dataLen := (b >>> 4) &&& 7
      if dataLen = 0 then
        some (Parser.packetReady { p with packet := some pk1 })
      else if dataLen = 7 then
        some ({ p with packet := some pk1, state := stateMsgLen }, 0, none)
      else
        some ({ p with packet := some { pk1 with Data := List.replicate dataLen 0 },
                       recvLen := 0, state := stateMsgData }, 0, none)
  | stateMsgLen =>
    if b ≥ 0x80 then some p.resync
    else if b = 0 then some p.packetReady
    else
      match p.packet with
      | none => none
      | some pk =>
        some ({ p with packet := some { pk with Data := List.replicate b 0 },
                       recvLen := 0, state := stateMsgData }, 0, none)
  | stateMsgData =>
    match p.packet with
    | none => none
    | some pk =>
      if p.recvLen < pk.Data.length then
        let p1 : Parser :=
          { p with packet := some { pk with Data := pk.Data.set p.recvLen b },
                   recvLen := (p.recvLen + 1) % 256 }
        if p1.recvLen ≥ pk.Data.length % 256 then some p1.packetReady
        else some (p1, 0, none)
      else none

/-- The method `Parser.Reset`. -/
def Parser.Reset (p : Parser) : Parser × ParseResult :=
  let r := Parser.resync { p with packet := none }
  (r.1, { Sync := r.2.1, State := r.1.State, Packet := r.2.2 })

/-- The method `Parser.Parse`; `none` is a panic inside `parseByte`. -/
def Parser.Parse (p : Parser) (b : Nat) : Option (Parser × ParseResult) :=
  match p.parseByte b with
  | none => none
  | some r => some (r.1, { Sync := r.2.1, State := r.1.State, Packet := r.2.2 })

/-- The method `Parser.Timeout`. -/
def Parser.Timeout (p : Parser) : Parser × ParseResult :=
  if p.state ≠ stateMsgSeq then
    let r := p.resync
    (r.1, { Sync := r.2.1, State := r.1.State, Packet := r.2.2 })
  else (p, { Sync := 0, State := p.State, Packet := none })

/-- One call on a `Parser` as a driver makes it: `FIFO.Run` starts with
`Reset` and then calls `Parse` for each byte read and `Timeout` when the
timer fires. -/
inductive ParserCall where
  | reset
  | parse (b : Nat)
  | timeout
  deriving DecidableEq, Repr

/-- Perform one call; `none` is a panic. -/
def Parser.call (p : Parser) : ParserCall → Option (Parser × ParseResult)
  | ParserCall.reset => some p.Reset
  | ParserCall.parse b => p.Parse b
  | ParserCall.timeout => some p.Timeout

/-- Perform the calls in order and collect the `ParseResult` of each. -/
def Parser.run (p : Parser) : List ParserCall → Option (Parser × List ParseResult)
  | [] => some (p, [])
  | c :: cs =>
    match p.call c with
    | none => none
    | some (p1, r) =>
      match Parser.run p1 cs with
      | none => none
      | some (p2, rs) => some (p2, r :: rs)

/-- Feed bytes one at a time to `Parse`. -/
def Parser.feed (p : Parser) (bs : List Nat) : Option (Parser × List ParseResult) :=
  p.run (bs.map ParserCall.parse)

/-- The result of a byte that is taken into a packet without completing it:
no sync command, state `Ready|Receiving`, no packet. -/
def midResult : ParseResult := { Sync := 0, State := 3, Packet := none }

end L0

namespace L0
open parseState

/-- The public state as the specification derives it from the internal one:
`SyncAck` gives Syncing, `MsgSeq` gives Ready, the states past `MsgSeq` give
Ready|Receiving, the other two sync states give Syncing|Receiving. -/
def derivedState : parseState → Nat
  | stateSyncAck => SyncStateSyncing
  | stateMsgSeq => SyncStateReady
  | stateMsgAckSeq => SyncStateReady ||| SyncStateReceiving
  | stateMsgCode => SyncStateReady ||| SyncStateReceiving
  | stateMsgLen => SyncStateReady ||| SyncStateReceiving
  | stateMsgData => SyncStateReady ||| SyncStateReceiving
  | stateSyncReqSeq => SyncStateSyncing ||| SyncStateReceiving
  | stateSyncAckSeq => SyncStateSyncing ||| SyncStateReceiving

/-- What `parseByte` relies on without checking: in `stateMsgCode` and
`stateMsgLen` a pending packet exists; in `stateMsgData` it exists, its
buffer has between 1 and 127 bytes and `recvLen` is an index into it. -/
def Parser.Inv (p : Parser) : Prop :=
  match p.state with
  | stateMsgCode => p.packet.isSome = true
  | stateMsgLen => p.packet.isSome = true
  | stateMsgData =>
    ∃ pk, p.packet = some pk ∧ p.recvLen < pk.Data.length ∧
      1 ≤ pk.Data.length ∧ pk.Data.length ≤ 127
  | _ => True

end L0

namespace L0
open parseState

/-- The wire format of one packet (`[seq][code_and_len]([len])[data…]`):
`frame` is the byte sequence of `pkt` with code byte `cb` when it starts
with `pkt.Seq` and `cb`, `pkt.Code` is `cb & 0x8f`, and either the length
field in bits 4-6 of `cb` is at most 6 and is the number of data bytes that
follow, or the field is 7 and a length byte below `0x80` follows that is the
number of data bytes after it. -/
def IsFrameOf (frame : List Nat) (pkt : Packet) : Prop :=
  ∃ cb, pkt.Code = cb &&& 0x8f ∧
    ((frame = pkt.Seq :: cb :: pkt.Data ∧ (cb >>> 4) &&& 7 = pkt.Data.length ∧
        pkt.Data.length ≤ 6) ∨
     (frame = pkt.Seq :: cb :: pkt.Data.length :: pkt.Data ∧ (cb >>> 4) &&& 7 = 7 ∧
        pkt.Data.length < 0x80))

/-- How the pending packet of a parser relates to the calls `h` made so far:
inside a packet the calls end with the bytes of that packet received up to
now, and the buffer has the length those bytes announce. -/
def Parser.Hist (h : List ParserCall) (p : Parser) : Prop :=
  match p.state with
  | stateMsgCode =>
    ∃ pre s c0, p.packet = some ⟨s, c0, []⟩ ∧ h = pre ++ [ParserCall.parse s]
  | stateMsgLen =>
    ∃ pre s cb, p.packet = some ⟨s, cb &&& 0x8f, []⟩ ∧ (cb >>> 4) &&& 7 = 7 ∧
      h = pre ++ [ParserCall.parse s, ParserCall.parse cb]
  | stateMsgData =>
    ∃ pre s cb buf, p.packet = some ⟨s, cb &&& 0x8f, buf⟩ ∧
      p.recvLen < buf.length ∧ buf.length < 0x80 ∧
      (((cb >>> 4) &&& 7 = buf.length ∧ buf.length ≤ 6 ∧
          h = pre ++ (s :: cb :: buf.take p.recvLen).map ParserCall.parse) ∨
       ((cb >>> 4) &&& 7 = 7 ∧
          h = pre ++ (s :: cb :: buf.length :: buf.take p.recvLen).map ParserCall.parse))
  | _ => True

/-- What the result `r` of call `c`, made after the calls `h`, must satisfy
when it carries a packet: the call is a `Parse`, the result says Ready with
no sync command, and the calls up to and including `c` end with a complete
frame of that packet. -/
def EmitsWhole (h : List ParserCall) (c : ParserCall) (r : ParseResult) : Prop :=
  ∀ pkt, r.Packet = some pkt →
    (∃ b, c = ParserCall.parse b) ∧ r.State = SyncStateReady ∧ r.Sync = 0 ∧
    ∃ pre frame, h ++ [c] = pre ++ frame.map ParserCall.parse ∧ IsFrameOf frame pkt

end L0

/-! ## `pkg/l0/comm/errors.go`, `fifo.go` (sending side), `client.go` -/

namespace L0

/-- The error values that reach a caller of the L0 client: `ErrNotReady`,
`ErrNoReply`, `*CommandError` (`errors.go`) and an error of the underlying
`io.Writer`. -/
inductive Error where
  | ErrNotReady
  | ErrNoReply
  | CommandError (Code : Nat)
  | io
  deriving DecidableEq, Repr

/-- The `io.Writer` behind a FIFO, as far as the sender can observe it: the
bytes accepted so far, and how many more it accepts before `Write` fails
(`none`: it never fails). -/
structure Writer where
  written : List Nat
  room : Option Nat
  deriving DecidableEq, Repr

/-- The method `Write` of the writer: number of bytes taken and the error. -/
def Writer.Write (w : Writer) (p : List Nat) : Writer × Nat × Option Error :=
  match w.room with
  | none => ({ w with written := w.written ++ p }, p.length, none)
  | some k =>
    if p.length ≤ k then
      ({ written := w.written ++ p, room := some (k - p.length) }, p.length, none)
    else
      ({ written := w.written ++ p.take k, room := some 0 }, k, some Error.io)

/-- The method `Packet.WriteTo` of `packet.go`: the header is written first,
then `p.Data[:l]` with `l := byte(len(p.Data))` when `l > 0`. -/
def Packet.WriteTo (p : Packet) (w : Writer) : Writer × Nat × Option Error :=
  let l := p.Data.length % 256
  let head :=
    if l < 7 then [p.Seq, (p.Code &&& 0x8f) ||| (((l <<< 4) % 256) &&& 0x70)]
    else [p.Seq, (p.Code &&& 0x8f) ||| 0x70, l]
  match w.Write head with
  | (w1, n, some e) => (w1, n, some e)
  | (w1, n, none) =>
    if l > 0 then
      match w1.Write (p.Data.take l) with
      | (w2, n1, err) => (w2, n + n1, err)
    else (w1, n, none)

/-- The fields of the struct `FIFO` of `fifo.go` that `Send` uses. -/
structure FIFO where
  ReadWriter : Writer
  seq : Nat
  state : Nat
  deriving DecidableEq, Repr

/-- The function `NewFIFO`: `seq` is `NewPacketSeq()`, which is `Next` of the
low byte `t` of the clock. -/
def NewFIFO (rw : Writer) (t : Nat) : FIFO :=
  { ReadWriter := rw, seq := PacketSeq.Next (t % 256), state := SyncStateSyncing }

/-- The method `FIFO.Send`: the packet (passed by pointer) is returned with
the sequence stamped on it. -/
def FIFO.Send (f : FIFO) (pkt : Packet) : FIFO × Packet × Option Error :=
  if f.state &&& SyncStateReady = 0 then (f, pkt, some Error.ErrNotReady)
  else
    let pkt1 : Packet := { pkt with Seq := f.seq }
    match pkt1.WriteTo f.ReadWriter with
    | (w, _, some e) => ({ f with ReadWriter := w }, pkt1, some e)
    | (w, _, none) => ({ f with ReadWriter := w, seq := PacketSeq.Next f.seq }, pkt1, none)

/-- The struct `Result` of `client.go`; `Err = none` is the nil error. -/
structure Result where
  Err : Option Error
  Code : Nat
  Data : List Nat
  deriving DecidableEq, Repr

/-- The struct `Command` of `client.go`. `resultCh` names the channel; the
`next` pointer is the order of the pending list below. -/
structure Command where
  requestSeq : Nat
  resultCh : Nat
  deriving DecidableEq, Repr

/-- One channel send made by the client: a packet on `eventCh`, or a result
on the `resultCh` of a command. -/
inductive Delivery where
  | event (pkt : Packet)
  | result (cmd : Command) (r : Result)
  deriving DecidableEq, Repr

/-- The struct `Client` of `client.go`. The singly linked list from
`cmdsHead` to `cmdsTail` is the list `cmds`, head first. -/
structure Client where
  fifo : FIFO
  cmds : List Command
  deriving DecidableEq, Repr

/-- The function `NewClient`. -/
def NewClient (fifo : FIFO) : Client := { fifo := fifo, cmds := [] }

/-- The method `Client.DoWith`: returns the stamped packet, the command and
the sends made (the send error, when `Send` fails). -/
def Client.DoWith (c : Client) (pkt : Packet) (ch : Nat) :
    Client × Packet × Command × List Delivery :=
  match c.fifo.Send pkt with
  | (f, pkt1, some e) =>
    let cmd : Command := { requestSeq := pkt1.Seq, resultCh := ch }
    ({ c with fifo := f }, pkt1, cmd, [Delivery.result cmd { Err := some e, Code := 0, Data := [] }])
  | (f, pkt1, none) =>
    let cmd : Command := { requestSeq := pkt1.Seq, resultCh := ch }
    ({ fifo := f, cmds := c.cmds ++ [cmd] }, pkt1, cmd, [])

/-- The search loop of `Client.HandlePacket` (`for ; curr != nil; curr =
curr.next`): the commands ahead of the first one whose `requestSeq` is `seq`,
that command, and the commands behind it (the new `cmdsHead`). -/
def Client.search (seq : Nat) : List Command → Option (List Command × Command × List Command)
  | [] => none
  | x :: xs =>
    if x.requestSeq = seq then some ([], x, xs)
    else
      match Client.search seq xs with
      | none => none
      | some (ahead, curr, behind) => some (x :: ahead, curr, behind)

/-- The result sent to the matched command (`client.go`, lines 131-135). -/
def replyResult (pkt : Packet) : Result :=
  if pkt.Code &&& 1 ≠ 0 then
    { Err := some (Error.CommandError (pkt.Code &&& 0x7e)), Code := 0, Data := [] }
  else { Err := none, Code := pkt.Code &&& 0x7e, Data := pkt.Data.drop 1 }

/-- The method `Client.HandlePacket`: the client afterwards and the channel
sends in the order they are made. -/
def Client.HandlePacket (c : Client) (pkt : Packet) : Client × List Delivery :=
  if pkt.Code &&& 0x80 ≠ 0 then (c, [Delivery.event pkt])
  else
    match pkt.Data with
    | [] => (c, [])
    | seq :: _ =>
      if ¬ PacketSeq.IsValid seq then (c, [])
      else
        match Client.search seq c.cmds with
        | none => (c, [])
        | some (ahead, curr, behind) =>
          ({ c with cmds := behind },
            ahead.map (fun h => Delivery.result h { Err := some Error.ErrNoReply, Code := 0, Data := [] })
              ++ [Delivery.result curr (replyResult pkt)])

/-- The state a client built by `NewClient(NewFIFO(rw))` keeps: the own
sequence and the request sequence of every pending command are valid. -/
def Client.SeqsValid (c : Client) : Prop :=
  PacketSeq.IsValid c.fifo.seq = true ∧ ∀ x ∈ c.cmds, PacketSeq.IsValid x.requestSeq = true

end L0

/-! ## `pkg/framework/loop.go`: the message lists

The lists of `loop.go` are singly linked through `messageItem.next` and are
re-linked in place, so the embedding keeps the items in a heap: an address is
a `Nat`, a `*messageItem` is an `Option Nat`. -/

namespace Framework

/-- A `Message` of `types.go` is an opaque interface value; it is named by a
number here. -/
abbrev Message := Nat

/-- All `messageItem` objects allocated so far: addresses `0 .. size-1`, the
`msg` field and the `next` field of each. -/
structure Heap where
  size : Nat
  msg : Nat → Message
  next : Nat → Option Nat

/-- No item allocated. -/
def Heap.empty : Heap := { size := 0, msg := fun _ => 0, next := fun _ => none }

/-- The allocation `&messageItem{msg: m}`: a fresh item with a nil `next`. -/
def Heap.alloc (h : Heap) (m : Message) : Heap × Nat :=
  ({ size := h.size + 1,
     msg := fun x => if x = h.size then m else h.msg x,
     next := fun x => if x = h.size then none else h.next x }, h.size)

/-- The assignment `a.next = v`. -/
def Heap.setNext (h : Heap) (a : Nat) (v : Option Nat) : Heap :=
  { h with next := fun x => if x = a then v else h.next x }

/-- The struct `messageList`. -/
structure messageList where
  head : Option Nat
  tail : Option Nat
  deriving DecidableEq, Repr

/-- The zero value `var l messageList`. -/
def messageList.zero : messageList := { head := none, tail := none }

/-- The method `messageList.append`; `none` is the nil dereference of
`l.tail`. -/
def messageList.append (h : Heap) (l : messageList) (item : Nat) :
    Option (Heap × messageList) :=
  match l.head with
  | none => some (h, { head := some item, tail := some item })
  | some hd =>
    match l.tail with
    | none => none
    | some t => some (h.setNext t (some item), { head := some hd, tail := some item })

/-- The method `messageList.splice`: `(l, src)` afterwards. The tail of `src`
is left as it was. -/
def messageList.splice (src : messageList) : messageList × messageList :=
  ({ head := src.head, tail := src.tail }, { head := none, tail := src.tail })

/-- The method `messageList.concat`; `none` is the nil dereference of
`l.tail`. -/
def messageList.concat (h : Heap) (l lst : messageList) : Option (Heap × messageList) :=
  let linked : Option (Heap × messageList) :=
    match l.head with
    | none => some (h, { head := lst.head, tail := l.tail })
    | some hd =>
      match l.tail with
      | none => none
      | some t => some (h.setNext t lst.head, { head := some hd, tail := l.tail })
  match linked with
  | none => none
  | some (h1, l1) =>
    match lst.head with
    | some _ => some (h1, { head := l1.head, tail := lst.tail })
    | none => some (h1, l1)

/-- The method `loopIteration.AddMessages` on the list `t.messages`: one
fresh item per message, appended in order. -/
def AddMessages (h : Heap) (l : messageList) : List Message → Option (Heap × messageList)
  | [] => some (h, l)
  | m :: ms =>
    match messageList.append (h.alloc m).1 l (h.alloc m).2 with
    | none => none
    | some (h1, l1) => AddMessages h1 l1 ms

/-- What a `MessageProcessor` does in one `ProcessMessage` call, as the store
sees it: whether it called `MessageTaken`, whether it called
`StopProcessing`, and the messages it passed to `AddMessages`, in call
order. -/
structure Verdict where
  taken : Bool
  stop : Bool
  added : List Message
  deriving DecidableEq, Repr

/-- A `MessageProcessor` with private state `σ`: from its state and
`CurrentMessage()` to its next state and what it did. -/
abbrev Processor (σ : Type) := σ → Message → σ × Verdict

/-- The outcome of running code that may loop: a result, a panic, or no
result within the allowed number of loop rounds. -/
inductive Res (α : Type) where
  | ok (a : α)
  | panic
  | outOfFuel

/-- The state of `ProcessMessages` between two rounds of its loop. -/
structure PassState (σ : Type) where
  heap : Heap
  msgs : messageList
  remains : messageList
  tmsgs : messageList
  st : σ
  calls : List Message

/-- One round of the `for msgs.head != nil` loop of `ProcessMessages`, for
the item `item` at the head of `msgs`; `none` is a panic. -/
def passRound {σ : Type} (proc : Processor σ) (s : PassState σ) (item : Nat) :
    Option (PassState σ) :=
  let msgs1 : messageList := { head := s.heap.next item, tail := s.msgs.tail }
  let h1 := s.heap.setNext item none
  let r := proc s.st (h1.msg item)
  match AddMessages h1 s.tmsgs r.2.added with
  | none => none
  | some (h2, tm2) =>
    let kept : Option (Heap × messageList) :=
      if r.2.taken then some (h2, s.remains) else messageList.append h2 s.remains item
    match kept with
    | none => none
    | some (h3, rem3) =>
      let stopped : Option (Heap × messageList) :=
        if r.2.stop then messageList.concat h3 rem3 msgs1 else some (h3, rem3)
      match stopped with
      | none => none
      | some (h4, rem4) =>
        some { heap := h4, msgs := msgs1, remains := rem4, tmsgs := tm2, st := r.1,
               calls := s.calls ++ [h1.msg item] }

/-- The loop of `ProcessMessages`, at most `fuel` rounds. -/
def passLoop {σ : Type} (proc : Processor σ) : Nat → PassState σ → Res (PassState σ)
  | 0, s =>
    match s.msgs.head with
    | none => Res.ok s
    | some _ => Res.outOfFuel
  | fuel + 1, s =>
    match s.msgs.head with
    | none => Res.ok s
    | some item =>
      match passRound proc s item with
      | none => Res.panic
      | some s1 => passLoop proc fuel s1

/-- What `ProcessMessages` leaves behind: the heap, `t.messages`, the state
of the processor, and the messages the processor was invoked on, in order. -/
structure PassResult (σ : Type) where
  heap : Heap
  messages : messageList
  st : σ
  calls : List Message

/-- The method `loopIteration.ProcessMessages` on the list `t.messages`, the
loop limited to `fuel` rounds. -/
def ProcessMessages {σ : Type} (proc : Processor σ) (fuel : Nat) (h : Heap)
    (tmessages : messageList) (st : σ) : Res (PassResult σ) :=
  let sp := messageList.splice tmessages
  match passLoop proc fuel
      { heap := h, msgs := sp.1, remains := messageList.zero, tmsgs := sp.2, st := st,
        calls := [] } with
  | Res.panic => Res.panic
  | Res.outOfFuel => Res.outOfFuel
  | Res.ok s =>
    match messageList.concat s.heap s.remains s.tmsgs with
    | none => Res.panic
    | some (h1, rem1) => Res.ok { heap := h1, messages := rem1, st := s.st, calls := s.calls }

/-- Read a list off the heap: the messages met when `next` is followed from
`a`, at most `fuel` of them. -/
def Heap.read (h : Heap) : Nat → Option Nat → List Message
  | 0, _ => []
  | _ + 1, none => []
  | fuel + 1, some a => h.msg a :: Heap.read h fuel (h.next a)

end Framework

namespace Framework

/-- `Seg h a xs b`: following `next` in heap `h` from pointer `a` meets the
allocated items `xs`, in order, and then the pointer `b`. -/
def Seg (h : Heap) : Option Nat → List Nat → Option Nat → Prop
  | a, [], b => a = b
  | a, x :: xs, b => a = some x ∧ x < h.size ∧ Seg h (h.next x) xs b

/-- `IsList h l xs`: in heap `h`, `l.head` starts a nil-terminated chain
through the distinct items `xs`, and when there are items `l.tail` is the
last one. (With no item `l.tail` may be stale, as `splice` leaves it.) -/
def IsList (h : Heap) (l : messageList) (xs : List Nat) : Prop :=
  Seg h l.head xs none ∧ xs.Nodup ∧ (xs ≠ [] → l.tail = xs.getLast?)

/-- The messages a list holds, head first, when its items are `xs`. -/
def Heap.msgs (h : Heap) (xs : List Nat) : List Message := xs.map h.msg

/-- What one pass of a processor over the messages `ms` amounts to when it
is invoked once on each, in order. -/
structure PassSpec (σ : Type) where
  st : σ
  kept : List Message
  added : List Message

/-- The reference for one pass: the messages not marked `MessageTaken`, in
order, and the messages passed to `AddMessages`, in call order. -/
def passSpec {σ : Type} (proc : Processor σ) : σ → List Message → PassSpec σ
  | s, [] => { st := s, kept := [], added := [] }
  | s, m :: ms =>
    let r := proc s m
    let rest := passSpec proc r.1 ms
    { st := rest.st,
      kept := if r.2.taken then rest.kept else m :: rest.kept,
      added := r.2.added ++ rest.added }

end Framework

namespace Framework

/-- A store of three items holding the messages 10, 20, 30, as three
`PostMessage` calls leave it. -/
def store3 : Heap × messageList :=
  ({ size := 3,
     msg := fun x => if x = 0 then 10 else if x = 1 then 20 else 30,
     next := fun x => if x = 0 then some 1 else if x = 1 then some 2 else none },
   { head := some 0, tail := some 2 })

/-- A processor that takes message 20, adds message 99 when it sees message
10, and never calls `StopProcessing`. -/
def takes20 : Processor Unit :=
  fun s m => (s, { taken := decide (m = 20), stop := false,
                   added := if m = 10 then [99] else [] })

/-- A processor that only looks at the messages. -/
def looksOn : Processor Unit :=
  fun s _ => (s, { taken := false, stop := false, added := [] })

end Framework

namespace Framework

/-- A processor that calls `StopProcessing` when it handles message `m0` and
does nothing else. -/
def stopsAt (m0 : Message) : Processor Unit :=
  fun s m => (s, { taken := false, stop := decide (m = m0), added := [] })

/-- What a caller can observe of a `ProcessMessages` outcome: the messages
the processor was invoked on, and the messages in the store afterwards (read
off the heap from `messages.head`). -/
def observe {σ : Type} : Res (PassResult σ) → Res (List Message × List Message)
  | Res.ok r => Res.ok (r.calls, r.heap.read r.heap.size r.messages.head)
  | Res.panic => Res.panic
  | Res.outOfFuel => Res.outOfFuel

end Framework

/-! ## `pkg/framework/loop.go`: the loop and its iterations -/

namespace Framework

/-- The constant `PriorityLevels` of `types.go`. -/
def PriorityLevels : Nat := 16

/-- The struct `controllerList`. A `Controller` is named by a number; what
it does when called is given by a `Program` below. -/
structure controllerList where
  preHooks : List Nat
  controllers : List Nat
  postHooks : List Nat
  deriving DecidableEq, Repr

/-- The fields of the struct `Loop` that an iteration uses: the array
`controllers` (indices `0 .. 15`), the pending list `messages`, and the heap
its items live in. -/
structure Loop where
  controllers : Nat → controllerList
  heap : Heap
  messages : messageList

/-- The function `NewLoop`: no controller, no hook, no message. -/
def NewLoop : Loop :=
  { controllers := fun _ => { preHooks := [], controllers := [], postHooks := [] },
    heap := Heap.empty, messages := messageList.zero }

/-- One call a controller makes on its `ControlContext` during `Control`:
`Messages().ProcessMessages(proc)` with a processor in state `st`,
`Messages().AddMessages(ms...)`, `PostMessage(m)`, `PreRunAt(level,
hooks...)`, `PostRunAt(level, hooks...)`, `PostRun(hooks...)`,
`TriggerNext()`. -/
inductive Call where
  | processMessages (proc : Processor Nat) (st : Nat)
  | addMessages (ms : List Message)
  | postMessage (m : Message)
  | preRunAt (level : Nat) (hooks : List Nat)
  | postRunAt (level : Nat) (hooks : List Nat)
  | postRun (hooks : List Nat)
  | triggerNext

/-- What the `Control` method of each controller does, given the
`PriorityLevel()` it sees: the calls it makes, in order, and whether it
returns a non-nil error. -/
abbrev Program := Nat → Nat → List Call × Bool

/-- The struct `loopIteration`; `loop` is the loop it points to. `log` is
not in the source: it records each `Control` invocation, as the controller
and the `PriorityLevel()` it was given. -/
structure loopIteration where
  loop : Loop
  priorityLevel : Nat
  messages : messageList
  log : List (Nat × Nat)

/-- Sequencing of outcomes. -/
def Res.bind {α β : Type} (r : Res α) (f : α → Res β) : Res β :=
  match r with
  | Res.ok a => f a
  | Res.panic => Res.panic
  | Res.outOfFuel => Res.outOfFuel

/-- Append `hooks` to the pre-hooks of level `i` (the `append` in
`PreRunAt`). -/
def addPre (cs : Nat → controllerList) (i : Nat) (hooks : List Nat) : Nat → controllerList :=
  fun j => if j = i then { cs j with preHooks := (cs j).preHooks ++ hooks } else cs j

/-- Append `hooks` to the post-hooks of level `i` (the `append` in
`PostRunAt`). -/
def addPost (cs : Nat → controllerList) (i : Nat) (hooks : List Nat) : Nat → controllerList :=
  fun j => if j = i then { cs j with postHooks := (cs j).postHooks ++ hooks } else cs j

/-- The method `Loop.AddController` for one controller; `none` is the index
out of range. -/
def Loop.AddController (l : Loop) (priorityLevel : Nat) (ctl : Nat) : Option Loop :=
  if priorityLevel < PriorityLevels then
    some { l with controllers := fun i =>
      if i = priorityLevel then
        { l.controllers i with controllers := (l.controllers i).controllers ++ [ctl] }
      else l.controllers i }
  else none

/-- The method `Loop.PreRunAt`; `none` is the index out of range. -/
def Loop.PreRunAt (l : Loop) (priorityLevel : Nat) (hooks : List Nat) : Option Loop :=
  if priorityLevel < PriorityLevels then
    some { l with controllers := addPre l.controllers priorityLevel hooks }
  else none

/-- The method `Loop.PostRunAt`; `none` is the index out of range. -/
def Loop.PostRunAt (l : Loop) (priorityLevel : Nat) (hooks : List Nat) : Option Loop :=
  if priorityLevel < PriorityLevels then
    some { l with controllers := addPost l.controllers priorityLevel hooks }
  else none

/-- The method `Loop.PostMessage`: a fresh item appended to `l.messages`. -/
def Loop.PostMessage (l : Loop) (msg : Message) : Option Loop :=
  match messageList.append (l.heap.alloc msg).1 l.messages (l.heap.alloc msg).2 with
  | none => none
  | some (h, ml) => some { l with heap := h, messages := ml }

/-- Lift a step that can only return or panic. -/
def Res.ofOption {α : Type} : Option α → Res α
  | some a => Res.ok a
  | none => Res.panic

/-- Perform one call of a controller on the iteration `t`. -/
def loopIteration.doCall (fuel : Nat) (t : loopIteration) : Call → Res loopIteration
  | Call.processMessages proc st =>
    (ProcessMessages proc fuel t.loop.heap t.messages st).bind fun r =>
      Res.ok { t with loop := { t.loop with heap := r.heap }, messages := r.messages }
  | Call.addMessages ms =>
    (Res.ofOption (AddMessages t.loop.heap t.messages ms)).bind fun r =>
      Res.ok { t with loop := { t.loop with heap := r.1 }, messages := r.2 }
  | Call.postMessage m =>
    (Res.ofOption (t.loop.PostMessage m)).bind fun l => Res.ok { t with loop := l }
  | Call.preRunAt level hooks =>
    (Res.ofOption (t.loop.PreRunAt level hooks)).bind fun l => Res.ok { t with loop := l }
  | Call.postRunAt level hooks =>
    (Res.ofOption (t.loop.PostRunAt level hooks)).bind fun l => Res.ok { t with loop := l }
  | Call.postRun hooks =>
    (Res.ofOption (t.loop.PostRunAt t.priorityLevel hooks)).bind fun l =>
      Res.ok { t with loop := l }
  | Call.triggerNext => Res.ok t

/-- The calls of one `Control` invocation, in order. -/
def loopIteration.doCalls (fuel : Nat) (t : loopIteration) : List Call → Res loopIteration
  | [] => Res.ok t
  | c :: cs => (t.doCall fuel c).bind fun t1 => loopIteration.doCalls fuel t1 cs

/-- The function `runControllers`: `Control` of each controller in turn; a
returned error is logged by `glog` and changes nothing. -/
def runControllers (prog : Program) (fuel : Nat) (iter : loopIteration) :
    List Nat → Res loopIteration
  | [] => Res.ok iter
  | ctl :: ctls =>
    (loopIteration.doCalls fuel
        { iter with log := iter.log ++ [(ctl, iter.priorityLevel)] }
        (prog ctl iter.priorityLevel).1).bind fun t1 =>
      runControllers prog fuel t1 ctls

/-- Replace the entry of level `i` in the array of controller lists. -/
def setLevel (cs : Nat → controllerList) (i : Nat) (c : controllerList) :
    Nat → controllerList :=
  fun j => if j = i then c else cs j

/-- The step `ctls := c.preHooks; c.preHooks = nil` of `controllerList.run`
for the list of level `i`: the iteration with the pre-hooks cleared. -/
def loopIteration.takePre (iter : loopIteration) (i : Nat) : loopIteration :=
  { iter with loop := { iter.loop with
      controllers := setLevel iter.loop.controllers i
        { iter.loop.controllers i with preHooks := [] } } }

/-- The step `ctls, c.postHooks = c.postHooks, nil` of `controllerList.run`
for the list of level `i`: the iteration with the post-hooks cleared. -/
def loopIteration.takePost (iter : loopIteration) (i : Nat) : loopIteration :=
  { iter with loop := { iter.loop with
      controllers := setLevel iter.loop.controllers i
        { iter.loop.controllers i with postHooks := [] } } }

/-- The method `controllerList.run` for the list of level
`iter.priorityLevel`: take and clear the pre-hooks and run them, run the
controllers, take and clear the post-hooks and run them. -/
def controllerList.run (prog : Program) (fuel : Nat) (iter : loopIteration) :
    Res loopIteration :=
  let i := iter.priorityLevel
  (runControllers prog fuel (iter.takePre i) (iter.loop.controllers i).preHooks).bind fun t1 =>
    (runControllers prog fuel t1 (t1.loop.controllers i).controllers).bind fun t2 =>
      runControllers prog fuel (t2.takePost i) (t2.loop.controllers i).postHooks

/-- The loop `for i := 0; i < PriorityLevels; i++` of `runIteration`, from
level `i` for `n` levels. -/
def runLevels (prog : Program) (fuel : Nat) : Nat → Nat → loopIteration → Res loopIteration
  | 0, _, iter => Res.ok iter
  | n + 1, i, iter =>
    (controllerList.run prog fuel { iter with priorityLevel := i }).bind fun t1 =>
      runLevels prog fuel n (i + 1) t1

/-- The start of `Loop.runIteration`: a new `loopIteration` whose store is
spliced out of `l.messages`. -/
def Loop.beginIteration (l : Loop) : loopIteration :=
  let sp := messageList.splice l.messages
  { loop := { l with messages := sp.2 }, priorityLevel := 0, messages := sp.1, log := [] }

/-- The method `Loop.runIteration`. The result is the iteration as it is
when the method returns (its `loop` field is the loop afterwards); the
iteration object itself is then dropped. -/
def Loop.runIteration (prog : Program) (fuel : Nat) (l : Loop) : Res loopIteration :=
  runLevels prog fuel PriorityLevels 0 l.beginIteration

end Framework

/-! ## The iteration on plain lists

A reference for what an iteration does to the messages, written on lists of
messages instead of linked items. It is what the heap-level code above is
shown to compute when no processor calls `StopProcessing` and every hook is
registered at a level below `PriorityLevels`. -/

namespace Framework

/-- The iteration state on lists: `store` are the messages of the
iteration's store, `pending` those of the loop's pending list; `peak` is the
largest number of messages a `ProcessMessages` call has met so far, which is
the number of loop rounds the heap-level code needs. -/
structure AbsIter where
  controllers : Nat → controllerList
  pending : List Message
  store : List Message
  priorityLevel : Nat
  log : List (Nat × Nat)
  peak : Nat

/-- One call of a controller, on lists. -/
def AbsIter.doCall (a : AbsIter) : Call → AbsIter
  | Call.processMessages proc st =>
    { a with store := (passSpec proc st a.store).kept ++ (passSpec proc st a.store).added,
             peak := max a.peak a.store.length }
  | Call.addMessages ms => { a with store := a.store ++ ms }
  | Call.postMessage m => { a with pending := a.pending ++ [m] }
  | Call.preRunAt level hooks => { a with controllers := addPre a.controllers level hooks }
  | Call.postRunAt level hooks => { a with controllers := addPost a.controllers level hooks }
  | Call.postRun hooks =>
    { a with controllers := addPost a.controllers a.priorityLevel hooks }
  | Call.triggerNext => a

/-- The calls of one `Control` invocation, on lists. -/
def AbsIter.doCalls (a : AbsIter) : List Call → AbsIter
  | [] => a
  | c :: cs => AbsIter.doCalls (a.doCall c) cs

/-- `runControllers`, on lists. -/
def AbsIter.runControllers (prog : Program) (a : AbsIter) : List Nat → AbsIter
  | [] => a
  | ctl :: ctls =>
    AbsIter.runControllers prog
      (AbsIter.doCalls { a with log := a.log ++ [(ctl, a.priorityLevel)] }
        (prog ctl a.priorityLevel).1) ctls

/-- The pre-hooks of level `i` cleared, on lists. -/
def AbsIter.takePre (a : AbsIter) (i : Nat) : AbsIter :=
  { a with controllers := setLevel a.controllers i { a.controllers i with preHooks := [] } }

/-- The post-hooks of level `i` cleared, on lists. -/
def AbsIter.takePost (a : AbsIter) (i : Nat) : AbsIter :=
  { a with controllers := setLevel a.controllers i { a.controllers i with postHooks := [] } }

/-- `controllerList.run` for level `a.priorityLevel`, on lists. -/
def AbsIter.runLevel (prog : Program) (a : AbsIter) : AbsIter :=
  let i := a.priorityLevel
  let a1 := AbsIter.runControllers prog (a.takePre i) (a.controllers i).preHooks
  let a2 := AbsIter.runControllers prog a1 (a1.controllers i).controllers
  AbsIter.runControllers prog (a2.takePost i) (a2.controllers i).postHooks

/-- The loop over the levels, on lists. -/
def AbsIter.runLevels (prog : Program) : Nat → Nat → AbsIter → AbsIter
  | 0, _, a => a
  | n + 1, i, a =>
    AbsIter.runLevels prog n (i + 1) (AbsIter.runLevel prog { a with priorityLevel := i })

/-- `runIteration`, on lists: the store starts as the pending messages. -/
def AbsIter.runIteration (prog : Program) (controllers : Nat → controllerList)
    (pending : List Message) : AbsIter :=
  AbsIter.runLevels prog PriorityLevels 0
    { controllers := controllers, pending := [], store := pending, priorityLevel := 0,
      log := [], peak := 0 }

/-- What the refinement asks of a call: a processor passed to
`ProcessMessages` never calls `StopProcessing`, and a level passed to
`PreRunAt` or `PostRunAt` is an index of the array. -/
def Call.Ok : Call → Prop
  | Call.processMessages proc _ => ∀ s m, (proc s m).2.stop = false
  | Call.preRunAt level _ => level < PriorityLevels
  | Call.postRunAt level _ => level < PriorityLevels
  | _ => True

/-- Every call of every controller is `Ok`. -/
def Program.Ok (prog : Program) : Prop :=
  ∀ ctl lvl, ∀ c ∈ (prog ctl lvl).1, c.Ok

/-- The heap-level iteration `t` stands for the list-level iteration `a`:
same controller lists, level and log; `t.messages` and the loop's pending
list are well-formed lists without a common item and hold the messages of
`a.store` and `a.pending`. -/
def Rep (t : loopIteration) (a : AbsIter) : Prop :=
  t.loop.controllers = a.controllers ∧ t.priorityLevel = a.priorityLevel ∧ t.log = a.log ∧
  ∃ ys ps, IsList t.loop.heap t.messages ys ∧ t.loop.heap.msgs ys = a.store ∧
    IsList t.loop.heap t.loop.messages ps ∧ t.loop.heap.msgs ps = a.pending ∧
    (∀ x ∈ ys, x ∉ ps)

end Framework

namespace Framework

/-- Whether a call registers hooks (`PreRunAt`, `PostRunAt`, `PostRun`). -/
def Call.registers : Call → Bool
  | Call.preRunAt _ _ => true
  | Call.postRunAt _ _ => true
  | Call.postRun _ => true
  | _ => false

/-- No controller registers a hook while it runs. -/
def Program.Static (prog : Program) : Prop :=
  ∀ ctl lvl, ∀ c ∈ (prog ctl lvl).1, c.registers = false

/-- The order of level `i`: its pre-hooks, then its controllers in
registration order, then its post-hooks, each paired with the level. -/
def levelOrder (cs : Nat → controllerList) (i : Nat) : List (Nat × Nat) :=
  ((cs i).preHooks ++ (cs i).controllers ++ (cs i).postHooks).map (fun c => (c, i))

/-- The order of the `n` levels from level `i` on, ascending. -/
def orderFrom (cs : Nat → controllerList) : Nat → Nat → List (Nat × Nat)
  | 0, _ => []
  | n + 1, i => levelOrder cs i ++ orderFrom cs n (i + 1)

/-- The order of one iteration: levels `0` to `15`, ascending. -/
def iterationOrder (cs : Nat → controllerList) : List (Nat × Nat) :=
  orderFrom cs PriorityLevels 0

/-- The controller lists once their hooks have been taken. -/
def hooksTaken (cs : Nat → controllerList) : Nat → controllerList :=
  fun j => { preHooks := [], controllers := (cs j).controllers, postHooks := [] }

end Framework

namespace Framework

/-- A processor that takes every message. -/
def takesAll : Processor Nat :=
  fun s _ => (s, { taken := true, stop := false, added := [] })

/-- A loop with controller 1 at level 4 (Sense), controller 2 at level 8
(Control), controller 3 at level 12 (Actuate), a pre-hook 7 at level 8, a
post-hook 9 at level 4, and the messages 10, 20, 30 pending. -/
def demoLoop : Loop :=
  { controllers := fun i =>
      if i = 4 then { preHooks := [], controllers := [1], postHooks := [9] }
      else if i = 8 then { preHooks := [7], controllers := [2], postHooks := [] }
      else if i = 12 then { preHooks := [], controllers := [3], postHooks := [] }
      else { preHooks := [], controllers := [], postHooks := [] },
    heap := store3.1, messages := store3.2 }

/-- Controller 1 adds message 5 to the store and returns an error;
controller 2 takes every message; the others do nothing. -/
def demoProg : Program :=
  fun ctl _ =>
    if ctl = 1 then ([Call.addMessages [5]], true)
    else if ctl = 2 then ([Call.processMessages takesAll 0], false)
    else ([], false)

end Framework

namespace Framework

/-- `Grow cs cs'`: from `cs` to `cs'` hooks have only been registered: at
every level the controllers are the same and each hook list has only gained
hooks at its end. -/
def Grow (cs cs' : Nat → controllerList) : Prop :=
  ∀ j, (cs' j).controllers = (cs j).controllers ∧
    (∃ more, (cs' j).preHooks = (cs j).preHooks ++ more) ∧
    (∃ more, (cs' j).postHooks = (cs j).postHooks ++ more)

end Framework

namespace Framework

/-- No processor of any controller marks message `m` with `MessageTaken`. -/
def Program.NeverTakes (prog : Program) (m : Message) : Prop :=
  ∀ ctl lvl proc st, Call.processMessages proc st ∈ (prog ctl lvl).1 →
    ∀ s, (proc s m).2.taken = false

/-- Some controller calls `PostMessage(m)`. -/
def Program.Posts (prog : Program) (m : Message) : Prop :=
  ∃ ctl lvl, Call.postMessage m ∈ (prog ctl lvl).1

/-- A loop without controllers or hooks, the messages 10, 20, 30 pending. -/
def quietLoop : Loop :=
  { controllers := fun _ => { preHooks := [], controllers := [], postHooks := [] },
    heap := store3.1, messages := store3.2 }

/-- Controllers that do nothing. -/
def idleProg : Program := fun _ _ => ([], false)

/-- The messages in the store of an iteration, read off the heap. -/
def loopIteration.stored (t : loopIteration) : List Message :=
  t.loop.heap.read t.loop.heap.size t.messages.head

end Framework

namespace Framework

/-- A processor that takes message 20 and nothing else. -/
def takesOnly20 : Processor Nat :=
  fun s m => (s, { taken := decide (m = 20), stop := false, added := [] })

/-- Controller 1 adds message 5 to the store and posts message 6;
controller 2 runs a pass that takes message 20; the others do nothing. -/
def calmProg : Program :=
  fun ctl _ =>
    if ctl = 1 then ([Call.addMessages [5], Call.postMessage 6], true)
    else if ctl = 2 then ([Call.processMessages takesOnly20 0], false)
    else ([], false)

end Framework

/-! ## `pkg/l1/msgs/typed.go`, `pkg/l1/comm/controllerconn.go` -/

namespace L1

/-- The constants `TypeIDMaskKind` and `TypeIDKindEvent` of `typed.go`. -/
def TypeIDMaskKind : Nat := 0x80000000
def TypeIDKindCommand : Nat := 0x00000000
def TypeIDKindEvent : Nat := 0x80000000

/-- The fields of `Typed` that the connection reads. -/
structure Typed where
  TypeId : Nat
  Sequence : Nat
  deriving DecidableEq, Repr

/-- The method `Typed.Kind`. -/
def Typed.Kind (p : Typed) : Nat := p.TypeId &&& TypeIDMaskKind

/-- The method `Typed.IsEvent`. -/
def Typed.IsEvent (p : Typed) : Bool := decide (p.Kind = TypeIDKindEvent)

/-- A decoded `fx.Message`, as far as the connection tells messages apart:
a `*msgs.CommandErr` or a message of another type. -/
inductive Message where
  | commandErr (text : Nat)
  | other (body : Nat)
  deriving DecidableEq, Repr

/-- The error values the connection puts in a `Result`: the error of
`SendCommandMsg`, the `*CommandErr` that came as reply, and
`context.DeadlineExceeded`. -/
inductive Error where
  | send (e : Nat)
  | commandErr (text : Nat)
  | DeadlineExceeded
  deriving DecidableEq, Repr

/-- The struct `l1.Result`; `none` is nil. -/
structure Result where
  Msg : Option Message
  Err : Option Error
  deriving DecidableEq, Repr

/-- The struct `commandFuture`. `id` names the object (and so its `result`
channel and its `elem` in the list); times are in nanoseconds. -/
structure commandFuture where
  id : Nat
  seq : Nat
  expireAt : Int
  deriving DecidableEq, Repr

/-- What an operation of the connection does to the outside: a send on the
`result` channel of a future, the close of that channel, `PostMessage` and
`TriggerNext` on the loop. -/
inductive Effect where
  | send (future : Nat) (r : Result)
  | close (future : Nat)
  | postMessage (msg : Message)
  | triggerNext
  deriving DecidableEq, Repr

/-- The struct `ControllerConn`: `commands` is the `list.List`, front
first; `seqMap` is the Go map; `nextId` is the next unused object name. -/
structure ControllerConn where
  Expiration : Int
  seq : Nat
  commands : List commandFuture
  seqMap : Nat → Option commandFuture
  nextId : Nat

/-- The connection after `Init`, with the given `Expiration`. -/
def ControllerConn.Init (expiration : Int) : ControllerConn :=
  { Expiration := expiration, seq := 0, commands := [], seqMap := fun _ => none, nextId := 0 }

/-- The statement `delete(m, k)`. -/
def mapDelete (m : Nat → Option commandFuture) (k : Nat) : Nat → Option commandFuture :=
  fun s => if s = k then none else m s

/-- The statement `m[k] = f`. -/
def mapStore (m : Nat → Option commandFuture) (k : Nat) (f : commandFuture) :
    Nat → Option commandFuture :=
  fun s => if s = k then some f else m s

/-- The call `l.Remove(f.elem)`: the element of future `f` leaves the list. -/
def listRemove (l : List commandFuture) (f : commandFuture) : List commandFuture :=
  l.filter (fun g => decide (g.id ≠ f.id))

/-- The sequence `DoCommand` assigns after `seq`: add one in `uint32`, and
once more when that gives 0. -/
def nextSeq (seq : Nat) : Nat :=
  if (seq + 1) % 2 ^ 32 = 0 then ((seq + 1) % 2 ^ 32 + 1) % 2 ^ 32 else (seq + 1) % 2 ^ 32

/-- The method `ControllerConn.DoCommand` at time `now`; `sendErr` is what
`pipe.SendCommandMsg` returns. The result is the connection, the future
returned and the channel sends made. -/
def ControllerConn.DoCommand (c : ControllerConn) (now : Int) (sendErr : Option Nat) :
    ControllerConn × commandFuture × List Effect :=
  let f : commandFuture :=
    { id := c.nextId, seq := nextSeq c.seq, expireAt := now + c.Expiration }
  match sendErr with
  | some e =>
    ({ c with seq := nextSeq c.seq, nextId := c.nextId + 1 }, f,
      [Effect.send f.id { Msg := none, Err := some (Error.send e) }])
  | none =>
    ({ c with seq := nextSeq c.seq, nextId := c.nextId + 1,
              commands := c.commands ++ [f], seqMap := mapStore c.seqMap f.seq f }, f, [])

/-- The result `handleTypedMsg` builds for `msg`. -/
def replyResult (msg : Message) : Result :=
  match msg with
  | Message.commandErr text => { Msg := some msg, Err := some (Error.commandErr text) }
  | Message.other _ => { Msg := some msg, Err := none }

/-- The method `ControllerConn.handleTypedMsg`. -/
def ControllerConn.handleTypedMsg (c : ControllerConn) (msg : Message) (typed : Typed) :
    ControllerConn × List Effect :=
  if typed.IsEvent then (c, [Effect.postMessage msg, Effect.triggerNext])
  else
    match c.seqMap typed.Sequence with
    | none => (c, [])
    | some f =>
      ({ c with commands := listRemove c.commands f,
                seqMap := mapDelete c.seqMap typed.Sequence },
        [Effect.send f.id (replyResult msg), Effect.close f.id])

/-- The loop of `purgeExpired` over the list, front first. -/
def purgeLoop (now : Int) :
    List commandFuture → (Nat → Option commandFuture) →
      List commandFuture × (Nat → Option commandFuture) × List Effect
  | [], m => ([], m, [])
  | f :: rest, m =>
    if f.expireAt > now then (f :: rest, m, [])
    else
      let r := purgeLoop now rest (mapDelete m f.seq)
      (r.1, r.2.1,
        [Effect.send f.id { Msg := none, Err := some Error.DeadlineExceeded },
         Effect.close f.id] ++ r.2.2)

/-- The method `ControllerConn.purgeExpired` at time `now`. -/
def ControllerConn.purgeExpired (c : ControllerConn) (now : Int) :
    ControllerConn × List Effect :=
  let r := purgeLoop now c.commands c.seqMap
  ({ c with commands := r.1, seqMap := r.2.1 }, r.2.2)

/-- One operation on the connection. -/
inductive Op where
  | doCommand (now : Int) (sendErr : Option Nat)
  | inbound (msg : Message) (typed : Typed)
  | sweep (now : Int)
  deriving DecidableEq, Repr

/-- Perform one operation. -/
def ControllerConn.step (c : ControllerConn) : Op → ControllerConn × List Effect
  | Op.doCommand now sendErr => ((c.DoCommand now sendErr).1, (c.DoCommand now sendErr).2.2)
  | Op.inbound msg typed => c.handleTypedMsg msg typed
  | Op.sweep now => c.purgeExpired now

/-- Perform operations in order; the effects of all of them, in order. -/
def ControllerConn.run (c : ControllerConn) : List Op → ControllerConn × List Effect
  | [] => (c, [])
  | op :: ops =>
    let r := c.step op
    let r2 := ControllerConn.run r.1 ops
    (r2.1, r.2 ++ r2.2)

/-- The futures that have been sent a result, one entry per send. -/
def resolved : List Effect → List Nat
  | [] => []
  | Effect.send f _ :: es => f :: resolved es
  | _ :: es => resolved es

/-- Whether an operation is a `DoCommand`. -/
def Op.isDoCommand : Op → Bool
  | Op.doCommand _ _ => true
  | _ => false

end L1

namespace L1

/-- What holds of the two structures after any operations, `res` being the
futures resolved so far: a future the map holds is in the list under its own
sequence; the futures in the list are distinct objects allocated earlier; a
resolved future is allocated, is not in the list, and was resolved once. -/
def Sound (commands : List commandFuture) (seqMap : Nat → Option commandFuture)
    (nextId : Nat) (res : List Nat) : Prop :=
  (∀ s g, seqMap s = some g → g ∈ commands ∧ g.seq = s) ∧
  (commands.map (fun g => g.id)).Nodup ∧
  (∀ g ∈ commands, g.id < nextId) ∧
  (∀ i ∈ res, i < nextId ∧ ∀ g ∈ commands, g.id ≠ i) ∧
  res.Nodup

/-- What holds in addition while no sequence number has been reused: the
futures in the list have distinct sequences, none above `seq`, and the map
holds each of them under its sequence. -/
def Complete (commands : List commandFuture) (seqMap : Nat → Option commandFuture)
    (seq : Nat) : Prop :=
  (∀ g ∈ commands, g.seq ≤ seq) ∧
  (commands.map (fun g => g.seq)).Nodup ∧
  (∀ g ∈ commands, seqMap g.seq = some g)

/-- The number of `DoCommand` calls among the operations. -/
def commandCount (ops : List Op) : Nat := ops.countP Op.isDoCommand

end L1

namespace L1

/-- Operations that use every sequence number once and then one again: a
command that is sent and stays pending, `2^32 - 2` commands whose send fails,
and one more command that is sent. -/
def wrapOps : List Op :=
  [Op.doCommand 0 none] ++ List.replicate (2 ^ 32 - 2) (Op.doCommand 0 (some 0)) ++
    [Op.doCommand 0 none]

/-- A reply of another type than `CommandErr`. -/
def okReply : Message := Message.other 0

/-- The envelope of a reply for sequence `seq`: kind command. -/
def replyFor (seq : Nat) : Typed := { TypeId := 0x8000, Sequence := seq }

/-- Three commands, the second not sent; a reply to the first, a reply for an
unknown sequence, an event, a sweep after the third has expired, and a fourth
command, which stays pending. -/
def sampleOps : List Op :=
  [Op.doCommand 0 none, Op.doCommand 1 (some 7), Op.doCommand 2 none,
   Op.inbound okReply (replyFor 1), Op.inbound (Message.commandErr 4) (replyFor 9),
   Op.inbound okReply { TypeId := 0x80000001, Sequence := 3 }, Op.sweep 5000000000,
   Op.doCommand 6000000000 none]

end L1

namespace L1

/-- What `purgeExpired` does to one expired future: the result with
`context.DeadlineExceeded` is sent, then the channel is closed. -/
def expiry (f : commandFuture) : List Effect :=
  [Effect.send f.id { Msg := none, Err := some Error.DeadlineExceeded }, Effect.close f.id]

/-- A connection with three pending futures, the deadlines 5, 5 and 9. -/
def sweepConn : ControllerConn :=
  { Expiration := 5, seq := 3,
    commands := [⟨0, 1, 5⟩, ⟨1, 2, 5⟩, ⟨2, 3, 9⟩],
    seqMap := mapStore (mapStore (mapStore (fun _ => none) 1 ⟨0, 1, 5⟩) 2 ⟨1, 2, 5⟩) 3 ⟨2, 3, 9⟩,
    nextId := 3 }

end L1

namespace L0

/-- A packet with 263 data bytes: `byte(len(p.Data))` is 7. -/
def longPacket : Packet := { Seq := 1, Code := 2, Data := List.replicate 263 0 }

/-- A writer that has nothing written yet and accepts all bytes. -/
def openWriter : Writer := { written := [], room := none }

end L0

namespace L0

/-- Calls of `FIFO.Send`, one per packet, in order: the FIFO afterwards, and
for each call the packet as `Send` leaves it and the error returned. -/
def FIFO.sendAll (f : FIFO) : List Packet → FIFO × List (Packet × Option Error)
  | [] => (f, [])
  | pkt :: pkts =>
    let r := f.Send pkt
    let rest := FIFO.sendAll r.1 pkts
    (rest.1, (r.2.1, r.2.2) :: rest.2)

/-- The sends that returned a nil error. -/
def sentOk (rs : List (Packet × Option Error)) : List Packet :=
  (rs.filter (fun r => r.2.isNone)).map (fun r => r.1)

/-- The FIFO of the 'sync and send' case of `fifo_test.go` once it is Ready:
own sequence 1, a writer that accepts all bytes. -/
def readyFIFO : FIFO := { ReadWriter := openWriter, seq := 1, state := SyncStateReady }

end L0

namespace Framework

/-- Calls of `Loop.PostMessage`, one per message, in order; `none` is a
panic. -/
def Loop.postAll (l : Loop) : List Message → Option Loop
  | [] => some l
  | m :: ms =>
    match l.PostMessage m with
    | none => none
    | some l1 => Loop.postAll l1 ms

/-- The message a call posts with `PostMessage`, if it is one. -/
def Call.posted : Call → List Message
  | Call.postMessage m => [m]
  | _ => []

/-- The messages that the `Control` invocations recorded in `log` post, in
the order of the invocations and of the calls inside each. -/
def postedIn (prog : Program) (log : List (Nat × Nat)) : List Message :=
  log.flatMap (fun e => (prog e.1 e.2).1.flatMap Call.posted)

/-- Controller 1 (level 4) posts 41 and 42, controller 3 (level 12) posts 43;
controller 2 (level 8) runs a pass that takes every message. -/
def postingProg : Program :=
  fun ctl _ =>
    if ctl = 1 then ([Call.postMessage 41, Call.postMessage 42], false)
    else if ctl = 2 then ([Call.processMessages takesAll 0], false)
    else if ctl = 3 then ([Call.postMessage 43], false)
    else ([], false)

/-- A loop with controllers 1, 2, 3 at the levels 4, 8, 12 and nothing
posted yet. -/
def freshLoop : Loop :=
  { controllers := fun i =>
      if i = 4 then { preHooks := [], controllers := [1], postHooks := [] }
      else if i = 8 then { preHooks := [], controllers := [2], postHooks := [] }
      else if i = 12 then { preHooks := [], controllers := [3], postHooks := [] }
      else { preHooks := [], controllers := [], postHooks := [] },
    heap := Heap.empty, messages := messageList.zero }

end Framework

namespace L1

/-- The constants `TypeIDMaskGroup`, `TypeIDMaskID` and `TypeIDMaskReply` of
`typed.go`. -/
def TypeIDMaskGroup : Nat := 0x7fff0000
def TypeIDMaskID : Nat := 0x0000ffff
def TypeIDMaskReply : Nat := 0x00008000

end L1

/-! ## `pkg/l1/comm/mqtt/pubsub.go`: topic matching -/

namespace Mqtt

/-- The call `strings.Split(s, "/")` on the characters of `s`: the segments
between the slashes; there is always at least one segment. -/
def splitChars : List Char → List (List Char)
  | [] => [[]]
  | c :: cs =>
    if c = '/' then [] :: splitChars cs
    else
      match splitChars cs with
      | seg :: rest => (c :: seg) :: rest
      | [] => [[c]]

/-- The call `strings.Split(s, "/")`. -/
def Split (s : String) : List String := (splitChars s.toList).map String.mk

/-- The loop `for i, token := range tokensP` of `MatchTopic`, from index `i`
on, `n` being `len(tokensP)`; `none` is the index `tokensT[i]` out of range. -/
def matchLoop (tokensT : List String) (n : Nat) : Nat → List String → Option Bool
  | _, [] => some true
  | i, token :: rest =>
    if token = "+" then matchLoop tokensT n (i + 1) rest
    else if token = "#" ∧ i + 1 = n then some true
    else
      match tokensT[i]? with
      | none => none
      | some t => if token ≠ t then some false else matchLoop tokensT n (i + 1) rest

/-- The body of `MatchTopic` after the two `strings.Split` calls. -/
def matchTokens (tokensT tokensP : List String) : Option Bool :=
  if tokensP.length > tokensT.length then some false
  else matchLoop tokensT tokensP.length 0 tokensP

/-- The function `MatchTopic` of `pubsub.go`. -/
def MatchTopic (topic pattern : String) : Option Bool :=
  matchTokens (Split topic) (Split pattern)

end Mqtt

/-! ## `pkg/l1/comm/stream/readwriter.go` -/

namespace Stream

/-- The four bytes `binary.Write(p, binary.LittleEndian, size)` writes for a
`uint32`. -/
def le32 (size : Nat) : List Nat :=
  [size % 256, size / 256 % 256, size / 65536 % 256, size / 16777216 % 256]

/-- The `uint32` that `binary.Read(p, binary.LittleEndian, &size)` makes of
four bytes. -/
def fromLe32 (a b c d : Nat) : Nat := a + 256 * b + 65536 * c + 16777216 * d

/-- The errors of `io.ReadFull`. -/
inductive ReadErr where
  | EOF
  | ErrUnexpectedEOF
  deriving DecidableEq, Repr

/-- The method `ReadWriter.WritePacket` on a stream that accepts all bytes:
`s` is what has been written and not yet read. -/
def WritePacket (s : List Nat) (pkt : List Nat) : List Nat :=
  let size := pkt.length % 2 ^ 32
  s ++ le32 size ++ pkt.take size

/-- The call `io.ReadFull(p, pkt)` for a buffer of `size` bytes on a stream
that holds `s` and then ends: the stream afterwards, the buffer, the error. -/
def readFull (s : List Nat) (size : Nat) : List Nat × List Nat × Option ReadErr :=
  if size ≤ s.length then (s.drop size, s.take size, none)
  else if s = [] then ([], List.replicate size 0, some ReadErr.EOF)
  else ([], s ++ List.replicate (size - s.length) 0, some ReadErr.ErrUnexpectedEOF)

/-- The method `ReadWriter.ReadPacket` on a stream that holds `s` and then
ends: the stream afterwards, the packet returned, the error. -/
def ReadPacket (s : List Nat) : List Nat × List Nat × Option ReadErr :=
  match s with
  | a :: b :: c :: d :: rest => readFull rest (fromLe32 a b c d)
  | [] => ([], [], some ReadErr.EOF)
  | _ => ([], [], some ReadErr.ErrUnexpectedEOF)

/-- Calls of `WritePacket`, one per packet, in order. -/
def writeAll (s : List Nat) : List (List Nat) → List Nat
  | [] => s
  | pkt :: pkts => writeAll (WritePacket s pkt) pkts

/-- `n` calls of `ReadPacket`, stopping at the first error: the packets read
without error, the stream afterwards, the error. -/
def readN : Nat → List Nat → List (List Nat) × List Nat × Option ReadErr
  | 0, s => ([], s, none)
  | n + 1, s =>
    match ReadPacket s with
    | (s1, _, some e) => ([], s1, some e)
    | (s1, pkt, none) =>
      let r := readN n s1
      (pkt :: r.1, r.2.1, r.2.2)

end Stream

namespace Framework

/-- The state in which `ProcessMessages` enters its loop: `msgs` spliced out
of `t.messages`, `remains` empty. -/
def passStart {σ : Type} (h : Heap) (tmessages : messageList) (st : σ) : PassState σ :=
  { heap := h, msgs := (messageList.splice tmessages).1, remains := messageList.zero,
    tmsgs := (messageList.splice tmessages).2, st := st, calls := [] }

/-- The first `n` rounds of the loop of `ProcessMessages` (fewer when the
loop ends before); `none` is a panic. -/
def passRounds {σ : Type} (proc : Processor σ) : Nat → PassState σ → Option (PassState σ)
  | 0, s => some s
  | n + 1, s =>
    match s.msgs.head with
    | none => some s
    | some item =>
      match passRound proc s item with
      | none => none
      | some s1 => passRounds proc n s1

end Framework

/-! ## `pkg/sim/physics/nav/drive.go`

A `float64` is a rational number here and its operations are exact; a
`time.Time` is the number of nanoseconds since the zero `time.Time`. -/

namespace Nav

/-- The struct `sim.Pose2D`, the `Orientation` kept as the cosine and sine
that `Angle.Project` multiplies the distance with. -/
structure Pose2D where
  X : ℚ
  Y : ℚ
  cos : ℚ
  sin : ℚ
  deriving DecidableEq

/-- The statement `pose.Pos2D.OffsetBy(pose.Orientation.Project(dist))`. -/
def Pose2D.advance (p : Pose2D) (dist : ℚ) : Pose2D :=
  { p with X := p.X + dist * p.cos, Y := p.Y + dist * p.sin }

/-- The struct `driveState`. -/
structure driveState where
  startPose : Pose2D
  startTime : Int
  lastEstimateTime : Int
  desiredSpeed : ℚ
  currentSpeed : ℚ
  accelStartSpeed : ℚ
  accelEndTime : Int
  accel : ℚ
  deriving DecidableEq

/-- The method `Duration.Seconds` of a duration of `d` nanoseconds. -/
def seconds (d : Int) : ℚ := (d : ℚ) / 1000000000

/-- The function `newDriveState`; `old` is the previous state when it is a
non-nil `*driveState`, `speed` and `accelation` are the fields of the
`Nav2DDrive` message. The result `none` is the nil state. -/
def newDriveState (old : Option driveState) (pose : Pose2D) (now : Int)
    (speed accelation : ℚ) : Option driveState :=
  let s0 : driveState :=
    { startPose := pose, startTime := now, lastEstimateTime := now, desiredSpeed := speed,
      currentSpeed := 0, accelStartSpeed := 0, accelEndTime := 0, accel := |accelation| }
  let s1 : driveState :=
    match old with
    | some ds => { s0 with currentSpeed := ds.currentSpeed }
    | none => s0
  let s2 : driveState :=
    if s1.accel ≠ 0 then
      let sA : driveState := { s1 with accelStartSpeed := s1.currentSpeed }
      let speedDiff := |sA.desiredSpeed - sA.currentSpeed|
      let sB : driveState :=
        if speedDiff > 0 then
          { sA with accelEndTime := sA.startTime + ⌊speedDiff * 1000000 / sA.accel⌋ * 1000 }
        else sA
      if sB.currentSpeed > sB.desiredSpeed then { sB with accel := -sB.accel } else sB
    else { s1 with currentSpeed := s1.desiredSpeed }
  if s2.desiredSpeed = 0 ∧ s2.currentSpeed = s2.desiredSpeed then none else some s2

/-- The end of `driveState.estimate`, after the acceleration: the pose, the
state as the method leaves it, and whether the state returned is `s` (and
not nil). -/
def driveState.coast (s : driveState) (pose : Pose2D) (now : Int) :
    Pose2D × driveState × Bool :=
  if s.currentSpeed ≠ 0 then
    (pose.advance (seconds (now - s.startTime) * s.currentSpeed),
      { s with lastEstimateTime := now }, true)
  else (pose, { s with lastEstimateTime := now }, false)

/-- The method `driveState.estimate`: the pose, the state as the method
leaves it (it is changed in place), and whether the state returned is `s`
(and not nil). -/
def driveState.estimate (s : driveState) (now : Int) : Pose2D × driveState × Bool :=
  let pose := s.startPose
  if s.lastEstimateTime < s.accelEndTime then
    let nowAccel := if now > s.accelEndTime then s.accelEndTime else now
    let secs := seconds (nowAccel - s.startTime)
    let pose1 := pose.advance (secs * s.accelStartSpeed + s.accel * secs * secs / 2)
    let speedIncr := secs * s.accel
    let s1 : driveState :=
      { s with
        currentSpeed :=
          if s.accelStartSpeed < s.desiredSpeed then s.accelStartSpeed + speedIncr
          else s.accelStartSpeed - speedIncr,
        lastEstimateTime := nowAccel }
    if s1.accelEndTime > nowAccel then (pose1, s1, true)
    else
      let s2 : driveState :=
        { s1 with startPose := pose1, startTime := s1.accelEndTime,
                  currentSpeed := s1.desiredSpeed }
      if ¬ now > nowAccel then (pose1, s2, true)
      else s2.coast pose1 now
  else s.coast pose now

/-- The pose `sim.Pose2D{}`: at the origin, orientation 0. -/
def origin : Pose2D := { X := 0, Y := 0, cos := 1, sin := 0 }

/-- The state `&driveState{currentSpeed: 2}` of `drive_test.go`. -/
def moving2 : driveState :=
  { startPose := origin, startTime := 0, lastEstimateTime := 0, desiredSpeed := 0,
    currentSpeed := 2, accelStartSpeed := 0, accelEndTime := 0, accel := 0 }

end Nav

namespace Framework

/-- The hooks a call registers as pre-hooks of level `j` (`PreRunAt`). -/
def Call.preRegs (j : Nat) : Call → List Nat
  | Call.preRunAt level hooks => if j = level then hooks else []
  | _ => []

/-- The hooks a call made at level `lvl` registers as post-hooks of level `j`
(`PostRunAt`, and `PostRun` for the level of the caller). -/
def Call.postRegs (lvl j : Nat) : Call → List Nat
  | Call.postRunAt level hooks => if j = level then hooks else []
  | Call.postRun hooks => if j = lvl then hooks else []
  | _ => []

/-- The hooks that the `Control` invocations recorded in `log` register as
pre-hooks of level `j`, in the order they are registered. -/
def preRegs (prog : Program) (j : Nat) (log : List (Nat × Nat)) : List Nat :=
  log.flatMap (fun e => (prog e.1 e.2).1.flatMap (Call.preRegs j))

/-- The hooks that the `Control` invocations recorded in `log` register as
post-hooks of level `j`, in the order they are registered. -/
def postRegs (prog : Program) (j : Nat) (log : List (Nat × Nat)) : List Nat :=
  log.flatMap (fun e => (prog e.1 e.2).1.flatMap (Call.postRegs e.2 j))

/-- Controller 1 registers hook 19 with `PostRun`, hook 17 as a pre-hook of
level 8 and hook 16 as a pre-hook of level 2; hook 19 registers hook 15 with
`PostRun`; the others do nothing. -/
def hookProg : Program :=
  fun ctl _ =>
    if ctl = 1 then
      ([Call.postRun [19], Call.preRunAt 8 [17], Call.preRunAt 2 [16]], false)
    else if ctl = 19 then ([Call.postRun [15]], false)
    else ([], false)

end Framework

namespace Framework

/-- The lists that `controllerList.run` runs for level `i` when the level
starts with the lists `cs`: the pre-hooks and the controllers of the level,
and its post-hooks followed by the hooks that these pre-hooks and controllers
register as post-hooks of the level. -/
def ranLevel (prog : Program) (cs : Nat → controllerList) (i : Nat) : controllerList :=
  ⟨(cs i).preHooks, (cs i).controllers,
    (cs i).postHooks ++
      postRegs prog i (((cs i).preHooks ++ (cs i).controllers).map (fun c => (c, i)))⟩

end Framework

/-! # Theorems -/

/-! ## L0 parser: round trip -/

namespace L0
open parseState

theorem Parser.run_cons_some {p p1 : Parser} {c : ParserCall} {r : ParseResult}
    (h : p.call c = some (p1, r)) (cs : List ParserCall) :
    p.run (c :: cs) = (Parser.run p1 cs).map (fun x => (x.1, r :: x.2)) := by
  simp only [Parser.run, h]
  cases Parser.run p1 cs <;> rfl

theorem take_set_succ (buf : List Nat) (k b : Nat) (hk : k < buf.length) :
    (buf.set k b).take (k + 1) = buf.take k ++ [b] := by
  induction buf generalizing k with
  | nil => simp at hk
  | cons x xs ih =>
    cases k with
    | zero => simp
    | succ k =>
      simp only [List.length_cons, Nat.add_lt_add_iff_right] at hk
      simp [List.set, ih k hk]

theorem Parser.feed_data (q s c : Nat) :
    ∀ (ds buf : List Nat) (k : Nat), ds ≠ [] → k + ds.length = buf.length →
      buf.length ≤ 127 →
      Parser.feed { peerSeq := q, state := stateMsgData,
                    packet := some { Seq := s, Code := c, Data := buf }, recvLen := k } ds
        = some ({ peerSeq := q, state := stateMsgSeq, packet := none,
                  recvLen := buf.length },
                List.replicate (ds.length - 1) midResult ++
                  [{ Sync := 0, State := SyncStateReady,
                     Packet := some { Seq := s, Code := c, Data := buf.take k ++ ds } }]) := by
  intro ds
  induction ds with
  | nil => intro _ _ h; exact absurd rfl h
  | cons b rest ih =>
    intro buf k _ hlen hbuf
    simp only [List.length_cons] at hlen
    have hk : k < buf.length := by omega
    cases rest with
    | nil =>
      simp only [List.length_nil] at hlen
      have hbl : buf.length = k + 1 := by omega
      have h1 : (k + 1) % 256 = k + 1 := Nat.mod_eq_of_lt (by omega)
      have hset : buf.set k b = buf.take k ++ [b] := by
        have := take_set_succ buf k b hk
        rw [← this, List.take_of_length_le]
        simp; omega
      simp [Parser.feed, Parser.run, Parser.call, Parser.Parse, Parser.parseByte, hbl, h1,
        Parser.packetReady, Parser.State, SyncStateReady, hset]
    | cons b2 rest2 =>
      simp only [List.length_cons] at hlen
      have h1 : (k + 1) % 256 = k + 1 := Nat.mod_eq_of_lt (by omega)
      have h2 : buf.length % 256 = buf.length := Nat.mod_eq_of_lt (by omega)
      have hnot : ¬ (k + 1 ≥ buf.length) := by omega
      have hstep : Parser.call ⟨q, stateMsgData, some ⟨s, c, buf⟩, k⟩ (ParserCall.parse b)
          = some (⟨q, stateMsgData, some ⟨s, c, buf.set k b⟩, k + 1⟩, midResult) := by
        simp [Parser.call, Parser.Parse, Parser.parseByte, hk, h1, h2, hnot, midResult,
          Parser.State, parseState.toNat, SyncStateReady, SyncStateReceiving]
      have ih2 := ih (buf.set k b) (k + 1) (by simp) (by simp; omega) (by simpa using hbuf)
      simp only [Parser.feed] at ih2 ⊢
      rw [List.map_cons, Parser.run_cons_some hstep, ih2]
      simp [take_set_succ buf k b hk, List.replicate_succ]
set_option maxRecDepth 1000000 in
theorem bits_short : ∀ c < 256, ∀ l < 7, c &&& 0x70 = 0 →
    (((c &&& 0x8f) ||| (((l <<< 4) % 256) &&& 0x70)) &&& 0x8f = c ∧
     (((c &&& 0x8f) ||| (((l <<< 4) % 256) &&& 0x70)) >>> 4) &&& 7 = l) := by decide

set_option maxRecDepth 1000000 in
theorem bits_long : ∀ c < 256, c &&& 0x70 = 0 →
    (((c &&& 0x8f) ||| 0x70) &&& 0x8f = c ∧ (((c &&& 0x8f) ||| 0x70) >>> 4) &&& 7 = 7) := by
  decide

theorem Parser.State_ready_iff (p : Parser) : p.State = SyncStateReady ↔ p.state = stateMsgSeq := by
  cases p with
  | mk q st pk rl => cases st <;> simp [Parser.State, SyncStateReady, SyncStateSyncing,
      SyncStateReceiving, parseState.toNat]

theorem Parser.call_seq (q : Nat) (pk : Option Packet) (rl : Nat)
    (hq : PacketSeq.IsValid q = true) :
    Parser.call ⟨q, stateMsgSeq, pk, rl⟩ (ParserCall.parse q)
      = some (⟨PacketSeq.Next q, stateMsgCode, some ⟨q, 0, []⟩, rl⟩, midResult) := by
  simp only [PacketSeq.IsValid, Bool.and_eq_true, decide_eq_true_eq] at hq
  have h1 : q ≠ syncREQ := by simp [syncREQ]; omega
  have h2 : q ≠ syncACK := by simp [syncACK]; omega
  simp [Parser.call, Parser.Parse, Parser.parseByte, h1, h2, midResult, Parser.State,
    parseState.toNat, SyncStateReady, SyncStateReceiving]

/-- C1: for a packet `P` with a valid `Seq`, a `Code` byte whose bits 4-6 are
clear and at most 127 data bytes, feeding `P.Bytes` byte by byte to a parser
that is Ready and expects `P.Seq` succeeds; there is one result per byte, no
result but the last carries a packet, the last carries exactly `P`, and the
parser is Ready again and expects `P.Seq.Next`. -/
theorem parse_bytes_roundtrip (P : Packet) (p : Parser)
    (hseq : PacketSeq.IsValid P.Seq = true) (hcode : P.Code < 256)
    (hbits : P.Code &&& 0x70 = 0) (hlen : P.Data.length ≤ 127)
    (hready : p.State = SyncStateReady) (hpeer : p.peerSeq = P.Seq) :
    ∃ (p' : Parser) (rs : List ParseResult) (r : ParseResult),
      p.feed P.Bytes = some (p', rs ++ [r]) ∧
      rs.length + 1 = P.Bytes.length ∧
      (∀ x ∈ rs, x.Packet = none) ∧
      r.Packet = some P ∧
      p'.State = SyncStateReady ∧
      p'.peerSeq = PacketSeq.Next P.Seq := by
  obtain ⟨s, c, data⟩ := P
  obtain ⟨q, st, pk, rl⟩ := p
  simp only at hseq hcode hbits hlen hpeer
  have hst : st = stateMsgSeq := (Parser.State_ready_iff _).1 hready
  subst hst; subst hpeer
  have hmod : data.length % 256 = data.length := Nat.mod_eq_of_lt (by omega)
  by_cases h7 : data.length ≥ 7
  · -- long form: seq, code, length, data
    obtain ⟨hc1, hc2⟩ := bits_long c hcode hbits
    have hne : data ≠ [] := by intro h; simp [h] at h7
    have hb : Packet.Bytes ⟨q, c, data⟩
        = q :: ((c &&& 0x8f) ||| 0x70) :: data.length :: data := by
      simp [Packet.Bytes, hmod, h7]
    have hcodeStep : Parser.call ⟨PacketSeq.Next q, stateMsgCode, some ⟨q, 0, []⟩, rl⟩
          (ParserCall.parse ((c &&& 0x8f) ||| 0x70))
        = some (⟨PacketSeq.Next q, stateMsgLen, some ⟨q, c, []⟩, rl⟩, midResult) := by
      simp [Parser.call, Parser.Parse, Parser.parseByte, hc1, hc2, midResult, Parser.State,
        parseState.toNat, SyncStateReady, SyncStateReceiving]
    have hl0 : data.length ≠ 0 := by omega
    have hl1 : ¬ (data.length ≥ 0x80) := by omega
    have hlenStep : Parser.call ⟨PacketSeq.Next q, stateMsgLen, some ⟨q, c, []⟩, rl⟩
          (ParserCall.parse data.length)
        = some (⟨PacketSeq.Next q, stateMsgData,
                  some ⟨q, c, List.replicate data.length 0⟩, 0⟩, midResult) := by
      simp [Parser.call, Parser.Parse, Parser.parseByte, hl0, hl1, midResult, Parser.State,
        parseState.toNat, SyncStateReady, SyncStateReceiving]
    have hdata := Parser.feed_data (PacketSeq.Next q) q c data (List.replicate data.length 0) 0
      hne (by simp) (by simpa using hlen)
    refine ⟨⟨PacketSeq.Next q, stateMsgSeq, none, data.length⟩,
      midResult :: midResult :: midResult :: List.replicate (data.length - 1) midResult,
      ⟨0, SyncStateReady, some ⟨q, c, data⟩⟩, ?_, ?_, ?_, rfl, ?_, rfl⟩
    · rw [hb]
      simp only [Parser.feed] at hdata ⊢
      rw [List.map_cons, Parser.run_cons_some (Parser.call_seq q pk rl hseq),
        List.map_cons, Parser.run_cons_some hcodeStep,
        List.map_cons, Parser.run_cons_some hlenStep, hdata]
      simp
    · rw [hb]; simp; omega
    · intro x hx
      simp only [List.mem_cons, List.mem_replicate] at hx
      rcases hx with h | h | h | ⟨_, h⟩ <;> rw [h] <;> rfl
    · simp [Parser.State]
  · -- short form: seq, code with the length in bits 4-6, data
    have hl7 : data.length < 7 := by omega
    obtain ⟨hc1, hc2⟩ := bits_short c hcode data.length hl7 hbits
    have hb : Packet.Bytes ⟨q, c, data⟩
        = q :: ((c &&& 0x8f) ||| (((data.length <<< 4) % 256) &&& 0x70)) :: data := by
      simp [Packet.Bytes, hmod, h7]
    by_cases h0 : data.length = 0
    · have hnil : data = [] := List.length_eq_zero.mp h0
      subst hnil
      simp only [List.length_nil] at hc1 hc2
      have hc1' := hc1
      have hc2' := hc2
      simp at hc1' hc2'
      have hcodeStep : Parser.call ⟨PacketSeq.Next q, stateMsgCode, some ⟨q, 0, []⟩, rl⟩
            (ParserCall.parse ((c &&& 0x8f) ||| (((0 <<< 4) % 256) &&& 0x70)))
          = some (⟨PacketSeq.Next q, stateMsgSeq, none, rl⟩,
                  ⟨0, SyncStateReady, some ⟨q, c, []⟩⟩) := by
        simp [Parser.call, Parser.Parse, Parser.parseByte, hc1', hc2', Parser.packetReady,
          Parser.State, SyncStateReady]
      refine ⟨⟨PacketSeq.Next q, stateMsgSeq, none, rl⟩, [midResult],
        ⟨0, SyncStateReady, some ⟨q, c, []⟩⟩, ?_, ?_, ?_, rfl, ?_, rfl⟩
      · rw [hb]
        simp only [Parser.feed, List.length_nil]
        rw [List.map_cons, Parser.run_cons_some (Parser.call_seq q pk rl hseq),
          List.map_cons, Parser.run_cons_some hcodeStep]
        simp [Parser.run]
      · rw [hb]; simp
      · intro x hx
        simp only [List.mem_singleton] at hx
        rw [hx]; rfl
      · simp [Parser.State]
    · have hne : data ≠ [] := by intro h; simp [h] at h0
      have hcodeStep : Parser.call ⟨PacketSeq.Next q, stateMsgCode, some ⟨q, 0, []⟩, rl⟩
            (ParserCall.parse ((c &&& 0x8f) ||| (((data.length <<< 4) % 256) &&& 0x70)))
          = some (⟨PacketSeq.Next q, stateMsgData,
                    some ⟨q, c, List.replicate data.length 0⟩, 0⟩, midResult) := by
        have h7' : data.length ≠ 7 := by omega
        simp [Parser.call, Parser.Parse, Parser.parseByte, hc1, hc2, h0, h7', midResult,
          Parser.State, parseState.toNat, SyncStateReady, SyncStateReceiving]
      have hdata := Parser.feed_data (PacketSeq.Next q) q c data
        (List.replicate data.length 0) 0 hne (by simp) (by simpa using hlen)
      refine ⟨⟨PacketSeq.Next q, stateMsgSeq, none, data.length⟩,
        midResult :: midResult :: List.replicate (data.length - 1) midResult,
        ⟨0, SyncStateReady, some ⟨q, c, data⟩⟩, ?_, ?_, ?_, rfl, ?_, rfl⟩
      · rw [hb]
        simp only [Parser.feed] at hdata ⊢
        rw [List.map_cons, Parser.run_cons_some (Parser.call_seq q pk rl hseq),
          List.map_cons, Parser.run_cons_some hcodeStep, hdata]
        simp
      · rw [hb]; simp; omega
      · intro x hx
        simp only [List.mem_cons, List.mem_replicate] at hx
        rcases hx with h | h | ⟨_, h⟩ <;> rw [h] <;> rfl
      · simp [Parser.State]

/-- C1 at the packet `{Seq 4, Code 2, Data [1..8]}` of `parser_test.go`. -/
theorem parse_bytes_roundtrip_witness :
    ∃ (p' : Parser) (rs : List ParseResult) (r : ParseResult),
      Parser.feed ⟨4, stateMsgSeq, none, 0⟩ (Packet.Bytes ⟨4, 2, [1, 2, 3, 4, 5, 6, 7, 8]⟩)
        = some (p', rs ++ [r]) ∧
      rs.length + 1 = (Packet.Bytes ⟨4, 2, [1, 2, 3, 4, 5, 6, 7, 8]⟩).length ∧
      (∀ x ∈ rs, x.Packet = none) ∧
      r.Packet = some ⟨4, 2, [1, 2, 3, 4, 5, 6, 7, 8]⟩ ∧
      p'.State = SyncStateReady ∧
      p'.peerSeq = PacketSeq.Next 4 :=
  parse_bytes_roundtrip ⟨4, 2, [1, 2, 3, 4, 5, 6, 7, 8]⟩ ⟨4, stateMsgSeq, none, 0⟩
    (by decide) (by decide) (by decide) (by decide) (by decide) rfl

end L0

/-! ## L0 parser: invariant and result shape -/

namespace L0
open parseState

theorem Parser.inv_zero : Parser.zero.Inv := by
  simp [Parser.Inv, Parser.zero]

theorem Parser.State_eq_derived (p : Parser) : p.State = derivedState p.state := by
  cases p with
  | mk q st pk rl => cases st <;> rfl

set_option maxRecDepth 100000 in
theorem nibble_le (b : Nat) : (b >>> 4) &&& 7 ≤ 7 := by
  have h : (b >>> 4) &&& 7 = (b >>> 4) % 8 := Nat.and_pow_two_sub_one_eq_mod (b >>> 4) 3
  rw [h]; omega

/-- One step of `parseByte` from a state that satisfies `Inv`: it does not
panic, keeps `Inv`, and answers `0`, `syncREQ` or `syncACK`. -/
theorem Parser.parseByte_inv (p : Parser) (b : Nat) (h : p.Inv) :
    ∃ p' s pkt, p.parseByte b = some (p', s, pkt) ∧ p'.Inv ∧
      (s = 0 ∨ s = syncREQ ∨ s = syncACK) := by
  obtain ⟨q, st, pk, rl⟩ := p
  cases st
  case stateSyncAck =>
    simp only [Parser.parseByte]
    split_ifs <;> exact ⟨_, _, _, rfl, by simp [Parser.Inv], Or.inl rfl⟩
  case stateSyncReqSeq =>
    simp only [Parser.parseByte]
    split_ifs
    · exact ⟨_, _, _, rfl, by simp [Parser.Inv], Or.inr (Or.inr rfl)⟩
    · exact ⟨_, _, _, rfl, by simp [Parser.Inv], Or.inr (Or.inl rfl)⟩
  case stateSyncAckSeq =>
    simp only [Parser.parseByte]
    split_ifs
    · exact ⟨_, _, _, rfl, by simp [Parser.Inv], Or.inl rfl⟩
    · exact ⟨_, _, _, rfl, by simp [Parser.Inv], Or.inr (Or.inl rfl)⟩
  case stateMsgSeq =>
    simp only [Parser.parseByte]
    split_ifs
    · exact ⟨_, _, _, rfl, by simp [Parser.Inv], Or.inl rfl⟩
    · exact ⟨_, _, _, rfl, by simp [Parser.Inv], Or.inl rfl⟩
    · exact ⟨_, _, _, rfl, by simp [Parser.Inv], Or.inr (Or.inl rfl)⟩
    · exact ⟨_, _, _, rfl, by simp [Parser.Inv], Or.inl rfl⟩
  case stateMsgAckSeq =>
    simp only [Parser.parseByte]
    split_ifs
    · exact ⟨_, _, _, rfl, by simp [Parser.Inv], Or.inr (Or.inl rfl)⟩
    · exact ⟨_, _, _, rfl, by simp [Parser.Inv], Or.inl rfl⟩
  case stateMsgCode =>
    simp only [Parser.Inv] at h
    obtain ⟨pk0, rfl⟩ := Option.isSome_iff_exists.mp h
    simp only [Parser.parseByte]
    split_ifs with h0 h7
    · exact ⟨_, _, _, rfl, by simp [Parser.Inv, Parser.packetReady], Or.inl rfl⟩
    · exact ⟨_, _, _, rfl, by simp [Parser.Inv], Or.inl rfl⟩
    · refine ⟨_, _, _, rfl, ?_, Or.inl rfl⟩
      have := nibble_le b
      simp only [Parser.Inv]
      refine ⟨_, rfl, ?_, ?_, ?_⟩ <;> simp <;> omega
  case stateMsgLen =>
    simp only [Parser.Inv] at h
    obtain ⟨pk0, rfl⟩ := Option.isSome_iff_exists.mp h
    simp only [Parser.parseByte]
    split_ifs with h80 h0
    · exact ⟨_, _, _, rfl, by simp [Parser.Inv, Parser.resync], Or.inr (Or.inl rfl)⟩
    · exact ⟨_, _, _, rfl, by simp [Parser.Inv, Parser.packetReady], Or.inl rfl⟩
    · refine ⟨_, _, _, rfl, ?_, Or.inl rfl⟩
      simp only [Parser.Inv]
      refine ⟨_, rfl, ?_, ?_, ?_⟩ <;> simp <;> omega
  case stateMsgData =>
    simp only [Parser.Inv] at h
    obtain ⟨pk0, hpk, hlt, h1, h127⟩ := h
    subst hpk
    have hm1 : (rl + 1) % 256 = rl + 1 := Nat.mod_eq_of_lt (by omega)
    have hm2 : pk0.Data.length % 256 = pk0.Data.length := Nat.mod_eq_of_lt (by omega)
    simp only [Parser.parseByte, hlt, if_true, hm1, hm2]
    split_ifs with hge
    · exact ⟨_, _, _, rfl, by simp [Parser.Inv, Parser.packetReady], Or.inl rfl⟩
    · refine ⟨_, _, _, rfl, ?_, Or.inl rfl⟩
      simp only [Parser.Inv]
      refine ⟨_, rfl, ?_, ?_, ?_⟩ <;> simp <;> omega

/-- One call (`Reset`, `Parse`, `Timeout`) from a state that satisfies `Inv`:
no panic, `Inv` kept, the result's `State` is the derived formula over the
state after the call, and `Sync` is `0`, `syncREQ` or `syncACK`. -/
theorem Parser.call_inv (p : Parser) (c : ParserCall) (h : p.Inv) :
    ∃ p' r, p.call c = some (p', r) ∧ p'.Inv ∧ r.State = derivedState p'.state ∧
      (r.Sync = 0 ∨ r.Sync = syncREQ ∨ r.Sync = syncACK) := by
  cases c with
  | reset =>
    exact ⟨_, _, rfl, by simp [Parser.Reset, Parser.resync, Parser.Inv],
      by simp [Parser.Reset, Parser.State_eq_derived], Or.inr (Or.inl rfl)⟩
  | parse b =>
    obtain ⟨p', s, pkt, hp, hinv, hs⟩ := Parser.parseByte_inv p b h
    exact ⟨p', ⟨s, p'.State, pkt⟩, by simp [Parser.call, Parser.Parse, hp], hinv,
      Parser.State_eq_derived _, hs⟩
  | timeout =>
    by_cases hst : p.state = stateMsgSeq
    · refine ⟨p, ⟨0, p.State, none⟩, by simp [Parser.call, Parser.Timeout, hst], h,
        Parser.State_eq_derived _, Or.inl rfl⟩
    · refine ⟨(p.resync).1, ⟨syncREQ, (p.resync).1.State, none⟩,
        by simp [Parser.call, Parser.Timeout, hst, Parser.resync],
        by simp [Parser.Inv, Parser.resync], by simp [Parser.State_eq_derived],
        Or.inr (Or.inl rfl)⟩

theorem Parser.run_cons (p : Parser) (c : ParserCall) (cs : List ParserCall) :
    p.run (c :: cs) =
      match p.call c with
      | none => none
      | some (p1, r) =>
        match Parser.run p1 cs with
        | none => none
        | some (p2, rs) => some (p2, r :: rs) := rfl

theorem Parser.run_append (p : Parser) (cs ds : List ParserCall) :
    p.run (cs ++ ds) =
      match p.run cs with
      | none => none
      | some (p1, rs) =>
        match Parser.run p1 ds with
        | none => none
        | some (p2, rs2) => some (p2, rs ++ rs2) := by
  induction cs generalizing p with
  | nil =>
    simp only [List.nil_append, Parser.run]
    cases Parser.run p ds with
    | none => rfl
    | some x => simp
  | cons c cs ih =>
    rw [List.cons_append, Parser.run_cons, Parser.run_cons]
    cases hc : p.call c with
    | none => rfl
    | some x =>
      obtain ⟨p1, r⟩ := x
      simp only
      rw [ih p1]
      cases Parser.run p1 cs with
      | none => rfl
      | some y =>
        obtain ⟨p2, rs⟩ := y
        simp only
        cases Parser.run p2 ds with
        | none => rfl
        | some z => simp

/-- Every sequence of calls from a state that satisfies `Inv` runs to the
end without a panic, gives one result per call and ends in a state that
satisfies `Inv`. -/
theorem Parser.run_inv (cs : List ParserCall) :
    ∀ p : Parser, p.Inv → ∃ p' rs, p.run cs = some (p', rs) ∧ p'.Inv ∧
      rs.length = cs.length := by
  induction cs with
  | nil => intro p h; exact ⟨p, [], rfl, h, rfl⟩
  | cons c cs ih =>
    intro p h
    obtain ⟨p1, r, hc, hinv, _, _⟩ := Parser.call_inv p c h
    obtain ⟨p2, rs, hr, hinv2, hl⟩ := ih p1 hinv
    exact ⟨p2, r :: rs, by simp [Parser.run, hc, hr], hinv2, by simp [hl]⟩

/-- C2: after any sequence `cs` of `Reset`, `Parse(b)` and `Timeout` calls on
a zero-value parser (which never panics), any further call `c` returns a
`ParseResult` whose `State` is the derived formula over the parser's internal
state after that call and whose `Sync` is `0`, `SYNC_REQ` or `SYNC_ACK`. -/
theorem parse_result_state_formula (cs : List ParserCall) (c : ParserCall) :
    ∃ (p : Parser) (rs : List ParseResult) (p' : Parser) (r : ParseResult),
      Parser.zero.run cs = some (p, rs) ∧
      p.call c = some (p', r) ∧
      Parser.zero.run (cs ++ [c]) = some (p', rs ++ [r]) ∧
      r.State = derivedState p'.state ∧
      (r.Sync = 0 ∨ r.Sync = syncREQ ∨ r.Sync = syncACK) := by
  obtain ⟨p, rs, hr, hinv, _⟩ := Parser.run_inv cs Parser.zero Parser.inv_zero
  obtain ⟨p', r, hc, _, hst, hs⟩ := Parser.call_inv p c hinv
  refine ⟨p, rs, p', r, hr, hc, ?_, hst, hs⟩
  rw [Parser.run_append, hr]
  simp [Parser.run, hc]

end L0

/-! ## L0 parser: no partial packet -/

namespace L0
open parseState

theorem Parser.hist_zero : Parser.Hist [] Parser.zero := by
  simp [Parser.Hist, Parser.zero]

theorem Parser.parse_hist (p : Parser) (b : Nat) (h : List ParserCall) (hh : p.Hist h)
    (p' : Parser) (r : ParseResult) (hc : p.Parse b = some (p', r)) :
    p'.Hist (h ++ [ParserCall.parse b]) ∧ EmitsWhole h (ParserCall.parse b) r := by
  obtain ⟨q, st, pk, rl⟩ := p
  cases st
  case stateSyncAck =>
    simp only [Parser.Parse, Parser.parseByte] at hc
    split_ifs at hc <;> simp only [Option.some.injEq, Prod.mk.injEq] at hc <;>
      obtain ⟨rfl, rfl⟩ := hc <;> simp [Parser.Hist, EmitsWhole]
  case stateSyncReqSeq =>
    simp only [Parser.Parse, Parser.parseByte, Parser.resync] at hc
    split_ifs at hc <;> simp only [Option.some.injEq, Prod.mk.injEq] at hc <;>
      obtain ⟨rfl, rfl⟩ := hc <;> simp [Parser.Hist, EmitsWhole]
  case stateSyncAckSeq =>
    simp only [Parser.Parse, Parser.parseByte, Parser.resync] at hc
    split_ifs at hc <;> simp only [Option.some.injEq, Prod.mk.injEq] at hc <;>
      obtain ⟨rfl, rfl⟩ := hc <;> simp [Parser.Hist, EmitsWhole]
  case stateMsgSeq =>
    simp only [Parser.Parse, Parser.parseByte, Parser.resync] at hc
    split_ifs at hc with h1 h2 h3 <;> simp only [Option.some.injEq, Prod.mk.injEq] at hc <;>
      obtain ⟨rfl, rfl⟩ := hc <;> simp [Parser.Hist, EmitsWhole]
    simp only [ne_eq, not_not] at h3
    exact ⟨h, by rw [h3]⟩
  case stateMsgAckSeq =>
    simp only [Parser.Parse, Parser.parseByte, Parser.resync] at hc
    split_ifs at hc <;> simp only [Option.some.injEq, Prod.mk.injEq] at hc <;>
      obtain ⟨rfl, rfl⟩ := hc <;> simp [Parser.Hist, EmitsWhole]
  case stateMsgCode =>
    simp only [Parser.Hist] at hh
    obtain ⟨pre, s, c0, hpk, hh⟩ := hh
    subst hpk; subst hh
    simp only [Parser.Parse, Parser.parseByte, Parser.packetReady] at hc
    split_ifs at hc with h0 h7 <;> simp only [Option.some.injEq, Prod.mk.injEq] at hc <;>
      obtain ⟨rfl, rfl⟩ := hc
    · refine ⟨by simp [Parser.Hist], ?_⟩
      intro pkt hpkt
      simp only [Option.some.injEq] at hpkt
      subst hpkt
      exact ⟨⟨b, rfl⟩, by simp [Parser.State], rfl, pre, [s, b], by simp, b, rfl,
        Or.inl ⟨rfl, by simpa using h0, by simp⟩⟩
    · refine ⟨?_, by simp [EmitsWhole]⟩
      simp only [Parser.Hist]
      exact ⟨pre, s, b, rfl, h7, by simp⟩
    · refine ⟨?_, by simp [EmitsWhole]⟩
      simp only [Parser.Hist]
      have := nibble_le b
      refine ⟨pre, s, b, _, rfl, ?_, ?_, Or.inl ⟨?_, ?_, ?_⟩⟩ <;> simp <;> omega
  case stateMsgLen =>
    simp only [Parser.Hist] at hh
    obtain ⟨pre, s, cb, hpk, hn, hh⟩ := hh
    subst hpk; subst hh
    simp only [Parser.Parse, Parser.parseByte, Parser.packetReady, Parser.resync] at hc
    split_ifs at hc with h80 h0 <;> simp only [Option.some.injEq, Prod.mk.injEq] at hc <;>
      obtain ⟨rfl, rfl⟩ := hc
    · exact ⟨by simp [Parser.Hist], by simp [EmitsWhole]⟩
    · refine ⟨by simp [Parser.Hist], ?_⟩
      intro pkt hpkt
      simp only [Option.some.injEq] at hpkt
      subst hpkt
      subst h0
      exact ⟨⟨0, rfl⟩, by simp [Parser.State], rfl, pre, [s, cb, 0], by simp, cb, rfl,
        Or.inr ⟨rfl, hn, by simp⟩⟩
    · refine ⟨?_, by simp [EmitsWhole]⟩
      simp only [Parser.Hist]
      refine ⟨pre, s, cb, _, rfl, ?_, ?_, Or.inr ⟨hn, ?_⟩⟩ <;> simp <;> omega
  case stateMsgData =>
    simp only [Parser.Hist] at hh
    obtain ⟨pre, s, cb, buf, hpk, hlt, h127, hh⟩ := hh
    subst hpk
    have hm1 : (rl + 1) % 256 = rl + 1 := Nat.mod_eq_of_lt (by omega)
    have hm2 : buf.length % 256 = buf.length := Nat.mod_eq_of_lt (by omega)
    have htk : (buf.set rl b).take (rl + 1) = buf.take rl ++ [b] := take_set_succ buf rl b hlt
    simp only [Parser.Parse, Parser.parseByte, Parser.packetReady, hlt, if_true, hm1, hm2] at hc
    split_ifs at hc with hge <;> simp only [Option.some.injEq, Prod.mk.injEq] at hc <;>
      obtain ⟨rfl, rfl⟩ := hc
    · refine ⟨by simp [Parser.Hist], ?_⟩
      intro pkt hpkt
      simp only [Option.some.injEq] at hpkt
      subst hpkt
      have hfull : buf.set rl b = buf.take rl ++ [b] := by
        rw [← htk, List.take_of_length_le]
        simp; omega
      refine ⟨⟨b, rfl⟩, by simp [Parser.State], rfl, pre, ?_⟩
      rcases hh with ⟨hn, h6, hh⟩ | ⟨hn, hh⟩
      · refine ⟨s :: cb :: buf.set rl b, ?_, cb, rfl, Or.inl ⟨rfl, ?_, ?_⟩⟩
        · rw [hh, hfull]; simp
        · simpa using hn
        · simpa using h6
      · refine ⟨s :: cb :: buf.length :: buf.set rl b, ?_, cb, rfl, Or.inr ⟨?_, hn, ?_⟩⟩
        · rw [hh, hfull]; simp
        · simp
        · simpa using h127
    · refine ⟨?_, by simp [EmitsWhole]⟩
      simp only [Parser.Hist]
      refine ⟨pre, s, cb, buf.set rl b, rfl, by simp; omega, by simpa using h127, ?_⟩
      rcases hh with ⟨hn, h6, hh⟩ | ⟨hn, hh⟩
      · refine Or.inl ⟨by simpa using hn, by simpa using h6, ?_⟩
        rw [hh, htk]; simp
      · refine Or.inr ⟨hn, ?_⟩
        rw [hh, htk]; simp

/-- One call keeps `Hist` for the extended history, and a result with a
packet comes from a `Parse` that ends a complete frame. -/
theorem Parser.call_hist (p : Parser) (c : ParserCall) (h : List ParserCall) (hh : p.Hist h)
    (p' : Parser) (r : ParseResult) (hc : p.call c = some (p', r)) :
    p'.Hist (h ++ [c]) ∧ EmitsWhole h c r := by
  cases c with
  | reset =>
    simp only [Parser.call, Parser.Reset, Parser.resync, Option.some.injEq,
      Prod.mk.injEq] at hc
    obtain ⟨rfl, rfl⟩ := hc
    exact ⟨by simp [Parser.Hist], by simp [EmitsWhole]⟩
  | parse b => exact Parser.parse_hist p b h hh p' r hc
  | timeout =>
    simp only [Parser.call, Parser.Timeout, Parser.resync] at hc
    split_ifs at hc with hst <;> simp only [Option.some.injEq, Prod.mk.injEq] at hc <;>
      obtain ⟨rfl, rfl⟩ := hc
    · exact ⟨by simp [Parser.Hist], by simp [EmitsWhole]⟩
    · simp only [ne_eq, not_not] at hst
      exact ⟨by simp [Parser.Hist, hst], by simp [EmitsWhole]⟩

theorem Parser.run_hist (cs : List ParserCall) :
    ∀ (p : Parser) (h : List ParserCall), p.Hist h →
      ∀ (p' : Parser) (rs : List ParseResult), p.run cs = some (p', rs) →
        p'.Hist (h ++ cs) := by
  induction cs with
  | nil =>
    intro p h hh p' rs hr
    simp only [Parser.run, Option.some.injEq, Prod.mk.injEq] at hr
    obtain ⟨rfl, _⟩ := hr
    simpa using hh
  | cons c cs ih =>
    intro p h hh p' rs hr
    rw [Parser.run_cons] at hr
    cases hc : p.call c with
    | none => simp [hc] at hr
    | some x =>
      obtain ⟨p1, r⟩ := x
      simp only [hc] at hr
      cases hr2 : Parser.run p1 cs with
      | none => simp [hr2] at hr
      | some y =>
        obtain ⟨p2, rs2⟩ := y
        simp only [hr2, Option.some.injEq, Prod.mk.injEq] at hr
        obtain ⟨rfl, _⟩ := hr
        have := ih p1 (h ++ [c]) (Parser.call_hist p c h hh p1 r hc).1 p2 rs2 hr2
        simpa using this

/-- C3: after any sequence `cs` of calls on a zero-value parser, the next
call `c` returns (no panic), and if its result carries a packet then `c` is a
`Parse`, the result has `State` exactly Ready and `Sync` 0, and the calls up
to and including `c` end with the complete frame of that packet: its sequence
byte, its code byte, the length byte when the length field is 7, and exactly
as many data bytes as the length field or length byte announces. So `Reset`
and `Timeout` never return a packet and no packet is emitted before its last
byte. -/
theorem no_partial_packet (cs : List ParserCall) (c : ParserCall) :
    ∃ (p : Parser) (rs : List ParseResult) (p' : Parser) (r : ParseResult),
      Parser.zero.run cs = some (p, rs) ∧
      p.call c = some (p', r) ∧
      (∀ pkt, r.Packet = some pkt →
        (∃ b, c = ParserCall.parse b) ∧ r.State = SyncStateReady ∧ r.Sync = 0 ∧
        ∃ pre frame, cs ++ [c] = pre ++ frame.map ParserCall.parse ∧
          IsFrameOf frame pkt) := by
  obtain ⟨p, rs, hr, hinv, _⟩ := Parser.run_inv cs Parser.zero Parser.inv_zero
  obtain ⟨p', r, hc, _, _, _⟩ := Parser.call_inv p c hinv
  have hh : p.Hist cs := by
    simpa using Parser.run_hist cs Parser.zero [] Parser.hist_zero p rs hr
  exact ⟨p, rs, p', r, hr, hc, (Parser.call_hist p c cs hh p' r hc).2⟩

/-- The parser does emit packets: the byte sequence `fe 01 01 72 00` (sync,
then a frame with length field 7 and length byte 0) ends with an empty packet
on its last byte, so the length byte may also be 0. -/
theorem no_partial_packet_emits :
    (Parser.zero.feed [0xfe, 1, 1, 0x72, 0]).map (fun x => x.2.map (fun r => r.Packet))
      = some [none, none, none, none, some ⟨1, 2, []⟩] := by
  decide

end L0

/-! ## L0 client: replies and the pending list -/

namespace L0

theorem PacketSeq.next_valid (s : Nat) : PacketSeq.IsValid (PacketSeq.Next s) = true := by
  simp only [PacketSeq.Next, PacketSeq.IsValid]
  split_ifs with h
  · decide
  · simp only [Bool.and_eq_true, decide_eq_true_eq]
    omega

theorem Client.seqsValid_new (rw : Writer) (t : Nat) : (NewClient (NewFIFO rw t)).SeqsValid := by
  simp [Client.SeqsValid, NewClient, NewFIFO, PacketSeq.next_valid]

theorem Client.seqsValid_doWith (c : Client) (pkt : Packet) (ch : Nat) (h : c.SeqsValid) :
    (c.DoWith pkt ch).1.SeqsValid := by
  obtain ⟨h1, h2⟩ := h
  by_cases hs : c.fifo.state &&& SyncStateReady = 0
  · simp only [Client.DoWith, FIFO.Send, hs, if_true]
    exact ⟨h1, h2⟩
  · rcases hw : Packet.WriteTo { pkt with Seq := c.fifo.seq } c.fifo.ReadWriter with ⟨w, n, e⟩
    cases e with
    | some e =>
      simp only [Client.DoWith, FIFO.Send, hs, if_false, hw]
      exact ⟨h1, h2⟩
    | none =>
      simp only [Client.DoWith, FIFO.Send, hs, if_false, hw]
      refine ⟨PacketSeq.next_valid _, ?_⟩
      intro x hx
      simp only [List.mem_append, List.mem_singleton] at hx
      rcases hx with hx | rfl
      · exact h2 x hx
      · exact h1

theorem Client.search_spec (seq : Nat) (ahead behind : List Command) (cmd : Command)
    (hfirst : ∀ x ∈ ahead, x.requestSeq ≠ seq) (hseq : cmd.requestSeq = seq) :
    Client.search seq (ahead ++ cmd :: behind) = some (ahead, cmd, behind) := by
  induction ahead with
  | nil => simp [Client.search, hseq]
  | cons a as ih =>
    have ha : a.requestSeq ≠ seq := hfirst a (List.mem_cons_self _ _)
    have := ih (fun x hx => hfirst x (List.mem_cons_of_mem _ hx))
    simp [Client.search, ha, this]

end L0

namespace L0

theorem Client.search_sublist (seq : Nat) :
    ∀ (cmds ahead behind : List Command) (cmd : Command),
      Client.search seq cmds = some (ahead, cmd, behind) → cmds = ahead ++ cmd :: behind := by
  intro cmds
  induction cmds with
  | nil => intro _ _ _ h; simp [Client.search] at h
  | cons x xs ih =>
    intro ahead behind cmd h
    simp only [Client.search] at h
    split_ifs at h with hx
    · simp only [Option.some.injEq, Prod.mk.injEq] at h
      obtain ⟨rfl, rfl, rfl⟩ := h
      rfl
    · cases hs : Client.search seq xs with
      | none => simp [hs] at h
      | some y =>
        obtain ⟨a, c, b⟩ := y
        simp only [hs, Option.some.injEq, Prod.mk.injEq] at h
        obtain ⟨rfl, rfl, rfl⟩ := h
        simp [ih a b c hs]

theorem Client.seqsValid_handlePacket (c : Client) (pkt : Packet) (h : c.SeqsValid) :
    (c.HandlePacket pkt).1.SeqsValid := by
  obtain ⟨h1, h2⟩ := h
  unfold Client.HandlePacket
  split
  · exact ⟨h1, h2⟩
  · split
    · exact ⟨h1, h2⟩
    · split
      · exact ⟨h1, h2⟩
      · split
        · exact ⟨h1, h2⟩
        · next seq _ _ _ a cmd b hs =>
          refine ⟨h1, ?_⟩
          intro x hx
          have := Client.search_sublist _ c.cmds a b cmd hs
          exact h2 x (by rw [this]; simp [show x ∈ b from hx])

/-- C4: `HandlePacket` with a non-event packet whose first data byte `seq` is
the request sequence of a pending command, `cmd` being the first such one,
`ahead` the commands before it and `behind` those after it: the sends made
are one `ErrNoReply` result to each command of `ahead`, in order, then one
result carrying the reply to `cmd`, and nothing else; the pending list
afterwards is `behind`. The client is one built from `NewFIFO`, whose pending
request sequences are valid. -/
theorem handlePacket_reply_fails_earlier (c : Client) (pkt : Packet) (seq : Nat)
    (rest : List Nat) (ahead behind : List Command) (cmd : Command)
    (hwf : c.SeqsValid)
    (hev : pkt.Code &&& 0x80 = 0)
    (hdata : pkt.Data = seq :: rest)
    (hcmds : c.cmds = ahead ++ cmd :: behind)
    (hfirst : ∀ x ∈ ahead, x.requestSeq ≠ seq)
    (hseq : cmd.requestSeq = seq) :
    c.HandlePacket pkt =
      ({ c with cmds := behind },
        ahead.map (fun x => Delivery.result x
            { Err := some Error.ErrNoReply, Code := 0, Data := [] })
          ++ [Delivery.result cmd (replyResult pkt)]) ∧
    (replyResult pkt =
      if pkt.Code &&& 1 ≠ 0 then
        { Err := some (Error.CommandError (pkt.Code &&& 0x7e)), Code := 0, Data := [] }
      else { Err := none, Code := pkt.Code &&& 0x7e, Data := rest }) := by
  have hvalid : PacketSeq.IsValid seq = true := by
    have := hwf.2 cmd (by rw [hcmds]; simp)
    rwa [hseq] at this
  have hsearch := Client.search_spec seq ahead behind cmd hfirst hseq
  refine ⟨?_, ?_⟩
  · simp only [Client.HandlePacket, hev, ne_eq, not_true_eq_false, if_false, hdata, hvalid,
      hcmds, hsearch]
  · simp [replyResult, hdata]

/-- C4 on the 'no reply' case of `client_test.go`: commands 1 and 2 are
pending and the reply to 2 arrives; 1 gets `ErrNoReply`, 2 gets the reply. -/
theorem handlePacket_reply_fails_earlier_witness :
    Client.HandlePacket ⟨⟨⟨[1, 1, 2, 2], none⟩, 3, 1⟩, [⟨1, 10⟩, ⟨2, 11⟩, ⟨3, 12⟩]⟩ ⟨1, 2, [2, 3]⟩ =
      ({ (⟨⟨⟨[1, 1, 2, 2], none⟩, 3, 1⟩, [⟨1, 10⟩, ⟨2, 11⟩, ⟨3, 12⟩]⟩ : Client) with
          cmds := [⟨3, 12⟩] },
        [(⟨1, 10⟩ : Command)].map (fun x => Delivery.result x
            { Err := some Error.ErrNoReply, Code := 0, Data := [] })
          ++ [Delivery.result ⟨2, 11⟩ (replyResult ⟨1, 2, [2, 3]⟩)]) ∧
    (replyResult ⟨1, 2, [2, 3]⟩ =
      if (⟨1, 2, [2, 3]⟩ : Packet).Code &&& 1 ≠ 0 then
        { Err := some (Error.CommandError ((⟨1, 2, [2, 3]⟩ : Packet).Code &&& 0x7e)),
          Code := 0, Data := [] }
      else { Err := none, Code := (⟨1, 2, [2, 3]⟩ : Packet).Code &&& 0x7e, Data := [3] }) :=
  handlePacket_reply_fails_earlier
    ⟨⟨⟨[1, 1, 2, 2], none⟩, 3, 1⟩, [⟨1, 10⟩, ⟨2, 11⟩, ⟨3, 12⟩]⟩ ⟨1, 2, [2, 3]⟩ 2 [3]
    [⟨1, 10⟩] [⟨3, 12⟩] ⟨2, 11⟩ ⟨by decide, by decide⟩ (by decide) rfl rfl (by decide) rfl

end L0

/-! ## Message store: heap lemmas -/

namespace Framework

@[simp] theorem Heap.setNext_size (h : Heap) (a : Nat) (v : Option Nat) :
    (h.setNext a v).size = h.size := rfl

@[simp] theorem Heap.setNext_msg (h : Heap) (a : Nat) (v : Option Nat) :
    (h.setNext a v).msg = h.msg := rfl

theorem Heap.setNext_next (h : Heap) (a : Nat) (v : Option Nat) (x : Nat) :
    (h.setNext a v).next x = if x = a then v else h.next x := rfl

theorem Heap.setNext_next_self (h : Heap) (a : Nat) (v : Option Nat) :
    (h.setNext a v).next a = v := by simp [Heap.setNext_next]

theorem Heap.setNext_next_ne (h : Heap) (a : Nat) (v : Option Nat) (x : Nat) (hx : x ≠ a) :
    (h.setNext a v).next x = h.next x := by simp [Heap.setNext_next, hx]

theorem Seg.addr_lt {h : Heap} : ∀ {xs : List Nat} {a b : Option Nat}, Seg h a xs b →
    ∀ x ∈ xs, x < h.size := by
  intro xs
  induction xs with
  | nil => intro a b _ x hx; simp at hx
  | cons y ys ih =>
    intro a b hs x hx
    obtain ⟨_, hy, hrest⟩ := hs
    rcases List.mem_cons.mp hx with rfl | hx
    · exact hy
    · exact ih hrest x hx

/-- A segment survives any change of the heap that keeps the `next` field of
its items and does not shrink the heap. -/
theorem Seg.frame {h h' : Heap} : ∀ {xs : List Nat} {a b : Option Nat}, Seg h a xs b →
    (∀ x ∈ xs, h'.next x = h.next x) → h.size ≤ h'.size → Seg h' a xs b := by
  intro xs
  induction xs with
  | nil => intro a b hs _ _; exact hs
  | cons y ys ih =>
    intro a b hs hn hsz
    obtain ⟨ha, hy, hrest⟩ := hs
    refine ⟨ha, by omega, ?_⟩
    rw [hn y (List.mem_cons_self _ _)]
    exact ih hrest (fun x hx => hn x (List.mem_cons_of_mem _ hx)) hsz

theorem Seg.append {h : Heap} : ∀ {xs ys : List Nat} {a b c : Option Nat}, Seg h a xs b →
    Seg h b ys c → Seg h a (xs ++ ys) c := by
  intro xs
  induction xs with
  | nil => intro ys a b c h1 h2; simp only [Seg] at h1; subst h1; simpa using h2
  | cons y ys0 ih =>
    intro ys a b c h1 h2
    obtain ⟨ha, hy, hrest⟩ := h1
    exact ⟨ha, hy, ih hrest h2⟩

/-- Re-linking: writing `c` into the `next` field of the last item of a
nil-terminated chain makes the chain end in `c`. -/
theorem Seg.relink {h : Heap} (t : Nat) (c : Option Nat) : ∀ {xs : List Nat} {a : Option Nat},
    Seg h a xs none → xs.Nodup → xs.getLast? = some t → Seg (h.setNext t c) a xs c := by
  intro xs
  induction xs with
  | nil => intro a _ _ hl; simp at hl
  | cons y ys ih =>
    intro a hs hnd hl
    obtain ⟨ha, hy, hrest⟩ := hs
    cases ys with
    | nil =>
      simp only [List.getLast?_singleton, Option.some.injEq] at hl
      subst hl
      exact ⟨ha, hy, by simp [Seg, Heap.setNext_next_self]⟩
    | cons z zs =>
      have hl2 : (z :: zs).getLast? = some t := by simpa [List.getLast?_cons_cons] using hl
      have hyt : y ≠ t := by
        intro hyt
        have hmem : t ∈ z :: zs := List.mem_of_getLast?_eq_some hl2
        exact (List.nodup_cons.mp hnd).1 (hyt ▸ hmem)
      refine ⟨ha, hy, ?_⟩
      rw [Heap.setNext_next_ne _ _ _ _ hyt]
      exact ih hrest (List.nodup_cons.mp hnd).2 hl2

end Framework

namespace Framework

theorem IsList.head_nil {h : Heap} {l : messageList} (hl : IsList h l []) : l.head = none := hl.1

theorem IsList.head_tail_of_ne {h : Heap} {l : messageList} {xs : List Nat}
    (hl : IsList h l xs) (hne : xs ≠ []) :
    ∃ x t, l.head = some x ∧ l.tail = some t ∧ xs.getLast? = some t := by
  obtain ⟨hs, _, ht⟩ := hl
  cases xs with
  | nil => exact absurd rfl hne
  | cons y ys =>
    obtain ⟨ha, _, _⟩ := hs
    have hlast : (y :: ys).getLast? = some ((y :: ys).getLast (by simp)) :=
      List.getLast?_eq_getLast _ _
    exact ⟨y, _, ha, (ht hne).trans hlast, hlast⟩

/-- `append` of an allocated item that is not in the list and has a nil
`next`: the list gains the item at its end; only the `next` field of an item
of the list changes. -/
theorem append_spec {h : Heap} {l : messageList} {xs : List Nat} (x : Nat)
    (hl : IsList h l xs) (hx : x < h.size) (hnot : x ∉ xs) (hnext : h.next x = none) :
    ∃ h' l', messageList.append h l x = some (h', l') ∧ IsList h' l' (xs ++ [x]) ∧
      h'.size = h.size ∧ h'.msg = h.msg ∧ (∀ a, a ∉ xs → h'.next a = h.next a) := by
  by_cases hne : xs = []
  · subst hne
    have hh := hl.head_nil
    refine ⟨h, ⟨some x, some x⟩, by simp [messageList.append, hh], ?_, rfl, rfl,
      fun _ _ => rfl⟩
    exact ⟨⟨rfl, hx, hnext⟩, by simp, by simp⟩
  · obtain ⟨y, t, hhead, htail, hlast⟩ := hl.head_tail_of_ne hne
    have htmem : t ∈ xs := List.mem_of_getLast?_eq_some hlast
    have hxt : x ≠ t := fun e => hnot (e ▸ htmem)
    refine ⟨h.setNext t (some x), ⟨some y, some x⟩,
      by simp [messageList.append, hhead, htail], ?_, rfl, rfl, ?_⟩
    · refine ⟨?_, ?_, by simp⟩
      · have h1 : Seg (h.setNext t (some x)) l.head xs (some x) :=
          Seg.relink t (some x) hl.1 hl.2.1 hlast
        rw [hhead] at h1
        refine Seg.append h1 ⟨rfl, hx, ?_⟩
        rw [Heap.setNext_next_ne _ _ _ _ hxt, hnext]
        rfl
      · rw [List.nodup_append]
        refine ⟨hl.2.1, by simp, ?_⟩
        intro a ha hb
        simp only [List.mem_singleton] at hb
        exact hnot (hb ▸ ha)
    · intro a ha
      exact Heap.setNext_next_ne _ _ _ _ (fun e => ha (e ▸ htmem))

/-- `concat` of two lists without a common item: the first list becomes
the two in a row; only the `next` field of an item of the first list
changes. -/
theorem concat_spec {h : Heap} {l lst : messageList} {xs ys : List Nat}
    (hl : IsList h l xs) (hlst : IsList h lst ys) (hdis : ∀ a ∈ xs, a ∉ ys) :
    ∃ h' l', messageList.concat h l lst = some (h', l') ∧ IsList h' l' (xs ++ ys) ∧
      h'.size = h.size ∧ h'.msg = h.msg ∧ (∀ a, a ∉ xs → h'.next a = h.next a) := by
  by_cases hne : xs = []
  · subst hne
    have hh := hl.head_nil
    by_cases hys : ys = []
    · subst hys
      have hh2 := hlst.head_nil
      refine ⟨h, ⟨none, l.tail⟩, by simp [messageList.concat, hh, hh2], ?_, rfl, rfl,
        fun _ _ => rfl⟩
      exact ⟨rfl, by simp, by simp⟩
    · obtain ⟨y, t, hhead, htail, hlast⟩ := hlst.head_tail_of_ne hys
      refine ⟨h, ⟨some y, some t⟩, by simp [messageList.concat, hh, hhead, htail], ?_, rfl,
        rfl, fun _ _ => rfl⟩
      refine ⟨?_, hlst.2.1, fun _ => ?_⟩
      · have := hlst.1
        rw [hhead] at this
        simpa using this
      · simpa using hlast.symm
  · obtain ⟨x, t, hhead, htail, hlast⟩ := hl.head_tail_of_ne hne
    have htmem : t ∈ xs := List.mem_of_getLast?_eq_some hlast
    have h1 : Seg (h.setNext t lst.head) (some x) xs lst.head := by
      have := Seg.relink t lst.head hl.1 hl.2.1 hlast
      rwa [hhead] at this
    have h2 : Seg (h.setNext t lst.head) lst.head ys none :=
      Seg.frame hlst.1 (fun a ha => Heap.setNext_next_ne _ _ _ _
        (fun e => hdis t htmem (e ▸ ha))) (le_refl _)
    have hnd : (xs ++ ys).Nodup := by
      rw [List.nodup_append]
      exact ⟨hl.2.1, hlst.2.1, fun a ha hb => hdis a ha hb⟩
    have hfr : ∀ a, a ∉ xs → (h.setNext t lst.head).next a = h.next a :=
      fun a ha => Heap.setNext_next_ne _ _ _ _ (fun e => ha (e ▸ htmem))
    by_cases hys : ys = []
    · subst hys
      have hh2 := hlst.head_nil
      refine ⟨h.setNext t lst.head, ⟨some x, some t⟩,
        by simp [messageList.concat, hhead, htail, hh2], ?_, rfl, rfl, hfr⟩
      exact ⟨Seg.append h1 h2, hnd, fun _ => by simpa using hlast.symm⟩
    · obtain ⟨y, t2, hhead2, htail2, hlast2⟩ := hlst.head_tail_of_ne hys
      refine ⟨h.setNext t lst.head, ⟨some x, some t2⟩,
        by simp [messageList.concat, hhead, htail, hhead2, htail2], ?_, rfl, rfl, hfr⟩
      refine ⟨Seg.append h1 h2, hnd, fun _ => ?_⟩
      rw [List.getLast?_append_of_ne_nil _ hys]
      exact hlast2.symm

end Framework

namespace Framework

theorem IsList.reframe {h h' : Heap} {l : messageList} {xs : List Nat} (hl : IsList h l xs)
    (hn : ∀ x ∈ xs, h'.next x = h.next x) (hsz : h.size ≤ h'.size) : IsList h' l xs :=
  ⟨Seg.frame hl.1 hn hsz, hl.2.1, hl.2.2⟩

theorem IsList.item_lt {h : Heap} {l : messageList} {xs : List Nat} (hl : IsList h l xs) :
    ∀ x ∈ xs, x < h.size := Seg.addr_lt hl.1

@[simp] theorem Heap.alloc_size (h : Heap) (m : Message) : (h.alloc m).1.size = h.size + 1 := rfl

@[simp] theorem Heap.alloc_addr (h : Heap) (m : Message) : (h.alloc m).2 = h.size := rfl

theorem Heap.alloc_msg (h : Heap) (m : Message) (x : Nat) :
    (h.alloc m).1.msg x = if x = h.size then m else h.msg x := rfl

theorem Heap.alloc_next (h : Heap) (m : Message) (x : Nat) :
    (h.alloc m).1.next x = if x = h.size then none else h.next x := rfl

/-- `AddMessages` appends one fresh item per message; the old items keep
their message, and only the `next` field of an item of the list changes. -/
theorem addMessages_spec : ∀ (ms : List Message) (h : Heap) (l : messageList) (xs : List Nat),
    IsList h l xs →
    ∃ h' l', AddMessages h l ms = some (h', l') ∧
      IsList h' l' (xs ++ List.range' h.size ms.length) ∧
      h'.size = h.size + ms.length ∧
      (∀ a < h.size, h'.msg a = h.msg a) ∧
      (∀ a < h.size, a ∉ xs → h'.next a = h.next a) ∧
      (List.range' h.size ms.length).map h'.msg = ms := by
  intro ms
  induction ms with
  | nil =>
    intro h l xs hl
    exact ⟨h, l, rfl, by simpa using hl, rfl, fun _ _ => rfl, fun _ _ _ => rfl, rfl⟩
  | cons m ms ih =>
    intro h l xs hl
    have hlt := hl.item_lt
    have hl1 : IsList (h.alloc m).1 l xs :=
      hl.reframe (fun x hx => by
        have := hlt x hx
        simp [Heap.alloc_next, Nat.ne_of_lt this]) (by simp)
    have hnot : h.size ∉ xs := fun hmem => Nat.lt_irrefl _ (hlt _ hmem)
    obtain ⟨h2, l2, happ, hl2, hsz2, hmsg2, hfr2⟩ :=
      append_spec h.size hl1 (by simp) hnot (by simp [Heap.alloc_next])
    obtain ⟨h', l', hadd, hl', hsz', hmsg', hfr', hmap'⟩ := ih h2 l2 (xs ++ [h.size]) hl2
    have hsz2' : h2.size = h.size + 1 := by rw [hsz2]; rfl
    refine ⟨h', l', ?_, ?_, ?_, ?_, ?_, ?_⟩
    · simp only [AddMessages, Heap.alloc_addr, happ]
      exact hadd
    · rw [hsz2'] at hl'
      simpa [List.range'_succ, List.append_assoc] using hl'
    · rw [hsz', hsz2']; simp; omega
    · intro a ha
      rw [hmsg' a (by omega), hmsg2]
      simp [Heap.alloc_msg, Nat.ne_of_lt ha]
    · intro a ha hax
      have hne : a ≠ h.size := Nat.ne_of_lt ha
      rw [hfr' a (by omega) (by simp [hax, hne]), hfr2 a hax]
      simp [Heap.alloc_next, hne]
    · rw [hsz2'] at hmap'
      have hm : h'.msg h.size = m := by
        rw [hmsg' h.size (by omega), hmsg2]
        simp [Heap.alloc_msg]
      simp [List.range'_succ, hm, hmap']

end Framework

namespace Framework

/-- One round of the loop of `ProcessMessages` when the processor does not
call `StopProcessing`: the head item `x` leaves `msgs`, goes to the end of
`remains` unless taken, and the added messages go to the end of
`t.messages`. -/
theorem passRound_noStop {σ : Type} (proc : Processor σ) (s : PassState σ) (x : Nat)
    (rest kept added : List Nat)
    (hstop : (proc s.st (s.heap.msg x)).2.stop = false)
    (hseg : Seg s.heap s.msgs.head (x :: rest) none)
    (hk : IsList s.heap s.remains kept) (ha : IsList s.heap s.tmsgs added)
    (hrnd : (x :: rest).Nodup)
    (hrk : ∀ a ∈ x :: rest, a ∉ kept) (hra : ∀ a ∈ x :: rest, a ∉ added)
    (hka : ∀ a ∈ kept, a ∉ added) :
    ∃ s1 kept1 added1, passRound proc s x = some s1 ∧
      Seg s1.heap s1.msgs.head rest none ∧
      IsList s1.heap s1.remains kept1 ∧ IsList s1.heap s1.tmsgs added1 ∧
      (∀ a ∈ rest, a ∉ kept1) ∧ (∀ a ∈ rest, a ∉ added1) ∧ (∀ a ∈ kept1, a ∉ added1) ∧
      s.heap.size ≤ s1.heap.size ∧ (∀ a < s.heap.size, s1.heap.msg a = s.heap.msg a) ∧
      s1.st = (proc s.st (s.heap.msg x)).1 ∧ s1.calls = s.calls ++ [s.heap.msg x] ∧
      kept1.map s1.heap.msg = kept.map s.heap.msg ++
        (if (proc s.st (s.heap.msg x)).2.taken then [] else [s.heap.msg x]) ∧
      added1.map s1.heap.msg = added.map s.heap.msg ++ (proc s.st (s.heap.msg x)).2.added ∧
      (∀ a ∈ kept1, a ∈ kept ∨ a = x) ∧
      (∀ a ∈ added1, a ∈ added ∨ s.heap.size ≤ a) ∧
      (∀ a < s.heap.size, a ≠ x → a ∉ kept → a ∉ added →
        s1.heap.next a = s.heap.next a) := by
  obtain ⟨_, hx, hrest⟩ := hseg
  have hxrest : x ∉ rest := (List.nodup_cons.mp hrnd).1
  have hxk : x ∉ kept := hrk x (List.mem_cons_self _ _)
  have hxa : x ∉ added := hra x (List.mem_cons_self _ _)
  have hrestlt := Seg.addr_lt hrest
  have hklt := hk.item_lt
  have halt := ha.item_lt
  -- after `mctx.item.next = nil`
  have hrest1 : Seg (s.heap.setNext x none) (s.heap.next x) rest none :=
    Seg.frame hrest (fun a h => Heap.setNext_next_ne _ _ _ _ (fun e => hxrest (e ▸ h)))
      (le_refl _)
  have hk1 : IsList (s.heap.setNext x none) s.remains kept :=
    hk.reframe (fun a h => Heap.setNext_next_ne _ _ _ _ (fun e => hxk (e ▸ h))) (le_refl _)
  have ha1 : IsList (s.heap.setNext x none) s.tmsgs added :=
    ha.reframe (fun a h => Heap.setNext_next_ne _ _ _ _ (fun e => hxa (e ▸ h))) (le_refl _)
  -- after the processor's `AddMessages`
  obtain ⟨h2, tm2, hadd, htm2, hsz2, hmsg2, hfr2, hmap2⟩ :=
    addMessages_spec (proc s.st (s.heap.msg x)).2.added _ _ _ ha1
  simp only [Heap.setNext_size, Heap.setNext_msg] at hsz2 hmsg2 hfr2 hmap2 htm2
  have hnewge : ∀ a ∈ List.range' s.heap.size (proc s.st (s.heap.msg x)).2.added.length,
      s.heap.size ≤ a := fun a h => (List.mem_range'_1.mp h).1
  have hrest2 : Seg h2 (s.heap.next x) rest none :=
    Seg.frame hrest1 (fun a h => hfr2 a (hrestlt a h) (hra a (List.mem_cons_of_mem _ h)))
      (by simp [hsz2])
  have hk2 : IsList h2 s.remains kept :=
    hk1.reframe (fun a h => hfr2 a (hklt a h) (hka a h)) (by simp [hsz2])
  have hx2 : h2.next x = none := by
    rw [hfr2 x hx hxa]; exact Heap.setNext_next_self _ _ _
  have hmapk : kept.map h2.msg = kept.map s.heap.msg :=
    List.map_congr_left (fun a h => hmsg2 a (hklt a h))
  have hmapa : added.map h2.msg = added.map s.heap.msg :=
    List.map_congr_left (fun a h => hmsg2 a (halt a h))
  have hcalls : (s.heap.setNext x none).msg x = s.heap.msg x := rfl
  by_cases htaken : (proc s.st (s.heap.msg x)).2.taken = true
  · refine ⟨⟨h2, ⟨s.heap.next x, s.msgs.tail⟩, s.remains, tm2, (proc s.st (s.heap.msg x)).1,
        s.calls ++ [s.heap.msg x]⟩,
      kept, added ++ List.range' s.heap.size (proc s.st (s.heap.msg x)).2.added.length,
      ?_, hrest2, hk2, htm2, ?_, ?_, ?_, ?_, hmsg2, rfl, rfl, ?_, ?_,
      fun a h => Or.inl h, fun a h => (List.mem_append.mp h).imp id (hnewge a), ?_⟩
    · simp only [passRound, hcalls, hadd, htaken, if_true, hstop]
      rfl
    · exact fun a h => hrk a (List.mem_cons_of_mem _ h)
    · intro a h hmem
      rcases List.mem_append.mp hmem with hm | hm
      · exact hra a (List.mem_cons_of_mem _ h) hm
      · exact Nat.lt_irrefl _ (Nat.lt_of_lt_of_le (hrestlt a h) (hnewge a hm))
    · intro a h hmem
      rcases List.mem_append.mp hmem with hm | hm
      · exact hka a h hm
      · exact Nat.lt_irrefl _ (Nat.lt_of_lt_of_le (hklt a h) (hnewge a hm))
    · simp [hsz2]
    · simp [htaken, hmapk]
    · simp [List.map_append, hmapa, hmap2]
    · intro a ha hax _ haa
      show h2.next a = _
      rw [hfr2 a ha haa]
      exact Heap.setNext_next_ne _ _ _ _ hax
  · obtain ⟨h3, rem3, happ, hrem3, hsz3, hmsg3, hfr3⟩ :=
      append_spec x hk2 (by rw [hsz2]; omega) hxk hx2
    have hrest3 : Seg h3 (s.heap.next x) rest none :=
      Seg.frame hrest2 (fun a h => hfr3 a (hrk a (List.mem_cons_of_mem _ h)))
        (by rw [hsz3])
    have htm3 : IsList h3 tm2
        (added ++ List.range' s.heap.size (proc s.st (s.heap.msg x)).2.added.length) := by
      refine htm2.reframe (fun a h => hfr3 a ?_) (by rw [hsz3])
      intro hak
      rcases List.mem_append.mp h with hm | hm
      · exact hka a hak hm
      · exact Nat.lt_irrefl _ (Nat.lt_of_lt_of_le (hklt a hak) (hnewge a hm))
    refine ⟨⟨h3, ⟨s.heap.next x, s.msgs.tail⟩, rem3, tm2, (proc s.st (s.heap.msg x)).1,
        s.calls ++ [s.heap.msg x]⟩,
      kept ++ [x], added ++ List.range' s.heap.size (proc s.st (s.heap.msg x)).2.added.length,
      ?_, hrest3, hrem3, htm3, ?_, ?_, ?_, ?_, ?_, rfl, rfl, ?_, ?_,
      fun a h => (List.mem_append.mp h).imp id (by simp),
      fun a h => (List.mem_append.mp h).imp id (hnewge a), ?_⟩
    · simp only [passRound, hcalls, hadd, htaken, happ, hstop]
      rfl
    · intro a h hmem
      rcases List.mem_append.mp hmem with hm | hm
      · exact hrk a (List.mem_cons_of_mem _ h) hm
      · simp only [List.mem_singleton] at hm
        exact hxrest (hm ▸ h)
    · intro a h hmem
      rcases List.mem_append.mp hmem with hm | hm
      · exact hra a (List.mem_cons_of_mem _ h) hm
      · exact Nat.lt_irrefl _ (Nat.lt_of_lt_of_le (hrestlt a h) (hnewge a hm))
    · intro a h hmem
      have halt2 : a < s.heap.size := by
        rcases List.mem_append.mp h with hm | hm
        · exact hklt a hm
        · simp only [List.mem_singleton] at hm; rw [hm]; exact hx
      rcases List.mem_append.mp hmem with hm | hm
      · rcases List.mem_append.mp h with hm2 | hm2
        · exact hka a hm2 hm
        · simp only [List.mem_singleton] at hm2
          exact hxa (hm2 ▸ hm)
      · exact Nat.lt_irrefl _ (Nat.lt_of_lt_of_le halt2 (hnewge a hm))
    · show s.heap.size ≤ h3.size
      rw [hsz3, hsz2]; omega
    · intro a h
      show h3.msg a = _
      rw [hmsg3]; exact hmsg2 a h
    · show (kept ++ [x]).map h3.msg = _
      rw [hmsg3]
      simp [htaken, hmapk, hmsg2 x hx]
    · show (added ++ _).map h3.msg = _
      rw [hmsg3]
      simp [List.map_append, hmapa, hmap2]
    · intro a ha hax hak haa
      show h3.next a = _
      rw [hfr3 a hak, hfr2 a ha haa]
      exact Heap.setNext_next_ne _ _ _ _ hax

end Framework

namespace Framework

theorem passLoop_nil {σ : Type} (proc : Processor σ) (fuel : Nat) (s : PassState σ)
    (h : s.msgs.head = none) : passLoop proc fuel s = Res.ok s := by
  cases fuel <;> simp [passLoop, h]

theorem passLoop_cons {σ : Type} (proc : Processor σ) (fuel : Nat) (s s1 : PassState σ)
    (x : Nat) (h : s.msgs.head = some x) (hr : passRound proc s x = some s1) :
    passLoop proc (fuel + 1) s = passLoop proc fuel s1 := by
  simp [passLoop, h, hr]

/-- The loop of `ProcessMessages` for a processor that never calls
`StopProcessing`: with one round of fuel per item it ends, having invoked the
processor on each item in order. -/
theorem passLoop_noStop {σ : Type} (proc : Processor σ)
    (hns : ∀ s m, (proc s m).2.stop = false) :
    ∀ (rest : List Nat) (fuel : Nat) (s : PassState σ) (kept added : List Nat),
      rest.length ≤ fuel →
      Seg s.heap s.msgs.head rest none →
      IsList s.heap s.remains kept → IsList s.heap s.tmsgs added →
      rest.Nodup → (∀ a ∈ rest, a ∉ kept) → (∀ a ∈ rest, a ∉ added) →
      (∀ a ∈ kept, a ∉ added) →
      ∃ s' kept' added', passLoop proc fuel s = Res.ok s' ∧
        IsList s'.heap s'.remains kept' ∧ IsList s'.heap s'.tmsgs added' ∧
        (∀ a ∈ kept', a ∉ added') ∧
        s'.calls = s.calls ++ rest.map s.heap.msg ∧
        kept'.map s'.heap.msg =
          kept.map s.heap.msg ++ (passSpec proc s.st (rest.map s.heap.msg)).kept ∧
        added'.map s'.heap.msg =
          added.map s.heap.msg ++ (passSpec proc s.st (rest.map s.heap.msg)).added ∧
        s'.st = (passSpec proc s.st (rest.map s.heap.msg)).st ∧
        s.heap.size ≤ s'.heap.size ∧
        (∀ a < s.heap.size, s'.heap.msg a = s.heap.msg a) ∧
        (∀ a ∈ kept', a ∈ kept ∨ a ∈ rest) ∧
        (∀ a ∈ added', a ∈ added ∨ s.heap.size ≤ a) ∧
        (∀ a < s.heap.size, a ∉ rest → a ∉ kept → a ∉ added →
          s'.heap.next a = s.heap.next a) := by
  intro rest
  induction rest with
  | nil =>
    intro fuel s kept added _ hseg hk ha _ _ _ hka
    exact ⟨s, kept, added, passLoop_nil proc fuel s hseg, hk, ha, hka, by simp,
      by simp [passSpec], by simp [passSpec], by simp [passSpec], le_refl _,
      fun _ _ => rfl, fun _ h => Or.inl h, fun _ h => Or.inl h, fun _ _ _ _ _ => rfl⟩
  | cons x rest ih =>
    intro fuel s kept added hfuel hseg hk ha hnd hrk hra hka
    cases fuel with
    | zero => simp at hfuel
    | succ fuel =>
      have hhead : s.msgs.head = some x := hseg.1
      have hrestlt : ∀ a ∈ rest, a < s.heap.size := fun a h => Seg.addr_lt hseg a (List.mem_cons_of_mem _ h)
      obtain ⟨s1, kept1, added1, hround, hseg1, hk1, ha1, hrk1, hra1, hka1, hsz1, hmsg1, hst1,
          hcalls1, hkmap1, hamap1, hkin1, hain1, hfr1⟩ :=
        passRound_noStop proc s x rest kept added (hns _ _) hseg hk ha hnd hrk hra hka
      obtain ⟨s', kept', added', hloop, hk', ha', hka', hcalls', hkmap', hamap', hst', hsz',
          hmsg', hkin', hain', hfr'⟩ :=
        ih fuel s1 kept1 added1 (by simpa using hfuel) hseg1 hk1 ha1
          (List.nodup_cons.mp hnd).2 hrk1 hra1 hka1
      have hrestmap : rest.map s1.heap.msg = rest.map s.heap.msg :=
        List.map_congr_left (fun a h => hmsg1 a (hrestlt a h))
      rw [hrestmap] at hcalls' hkmap' hamap' hst'
      rw [hst1] at hkmap' hamap' hst'
      refine ⟨s', kept', added', ?_, hk', ha', hka', ?_, ?_, ?_, ?_, le_trans hsz1 hsz',
        ?_, ?_, ?_, ?_⟩
      · rw [passLoop_cons proc fuel s s1 x hhead hround]; exact hloop
      · rw [hcalls', hcalls1]; simp
      · rw [hkmap', hkmap1]
        simp only [List.map_cons, passSpec]
        split_ifs <;> simp
      · rw [hamap', hamap1]
        simp [passSpec]
      · rw [hst']
        simp [passSpec]
      · intro a ha
        rw [hmsg' a (by omega), hmsg1 a ha]
      · intro a ha
        rcases hkin' a ha with h | h
        · rcases hkin1 a h with h | h
          · exact Or.inl h
          · exact Or.inr (h ▸ List.mem_cons_self _ _)
        · exact Or.inr (List.mem_cons_of_mem _ h)
      · intro a ha
        rcases hain' a ha with h | h
        · exact hain1 a h
        · exact Or.inr (le_trans hsz1 h)
      · intro a ha har hak haa
        have hax : a ≠ x := fun e => har (e ▸ List.mem_cons_self _ _)
        have har' : a ∉ rest := fun h => har (List.mem_cons_of_mem _ h)
        rw [hfr' a (by omega) har' ?_ ?_, hfr1 a ha hax hak haa]
        · intro h
          rcases hkin1 a h with h | h
          · exact hak h
          · exact hax h
        · intro h
          rcases hain1 a h with h | h
          · exact haa h
          · omega

/-- `ProcessMessages` for a processor that never calls `StopProcessing`, on
a well-formed list of items `xs`, with a round of fuel for each item. -/
theorem processMessages_noStop {σ : Type} (proc : Processor σ)
    (hns : ∀ s m, (proc s m).2.stop = false) (h : Heap) (l : messageList) (xs : List Nat)
    (st : σ) (fuel : Nat) (hl : IsList h l xs) (hf : xs.length ≤ fuel) :
    ∃ r ys, ProcessMessages proc fuel h l st = Res.ok r ∧
      IsList r.heap r.messages ys ∧
      r.calls = h.msgs xs ∧
      r.heap.msgs ys =
        (passSpec proc st (h.msgs xs)).kept ++ (passSpec proc st (h.msgs xs)).added ∧
      r.st = (passSpec proc st (h.msgs xs)).st ∧
      h.size ≤ r.heap.size ∧
      (∀ a < h.size, r.heap.msg a = h.msg a) ∧
      (∀ a ∈ ys, a ∈ xs ∨ h.size ≤ a) ∧
      (∀ a < h.size, a ∉ xs → r.heap.next a = h.next a) := by
  obtain ⟨s', kept', added', hloop, hk', ha', hka', hcalls', hkmap', hamap', hst', hsz',
      hmsg', hkin', hain', hfr'⟩ :=
    passLoop_noStop proc hns xs fuel
      ⟨h, ⟨l.head, l.tail⟩, messageList.zero, ⟨none, l.tail⟩, st, []⟩ [] [] hf hl.1
      ⟨rfl, by simp, by simp⟩ ⟨rfl, by simp, by simp⟩ hl.2.1 (by simp) (by simp) (by simp)
  obtain ⟨h1, rem1, hcat, hrem1, hsz1, hmsg1, hfr1⟩ := concat_spec hk' ha' hka'
  simp only [List.not_mem_nil, false_or] at hkin' hain'
  refine ⟨⟨h1, rem1, s'.st, s'.calls⟩, kept' ++ added', ?_, hrem1, ?_, ?_, ?_, ?_, ?_, ?_, ?_⟩
  · simp only [ProcessMessages, messageList.splice, hloop, hcat]
  · simpa [Heap.msgs] using hcalls'
  · simp only [Heap.msgs, hmsg1, List.map_append, hkmap', hamap']
    simp
  · simpa [Heap.msgs] using hst'
  · show h.size ≤ h1.size
    rw [hsz1]; exact hsz'
  · intro a ha
    show h1.msg a = _
    rw [hmsg1]; exact hmsg' a ha
  · intro a ha
    rcases List.mem_append.mp ha with hm | hm
    · exact Or.inl (hkin' a hm)
    · exact Or.inr (hain' a hm)
  · intro a ha hax
    show h1.next a = _
    rw [hfr1 a (fun hm => hax (hkin' a hm))]
    exact hfr' a ha hax (by simp) (by simp)

end Framework

namespace Framework

/-- C5: for a processor that never calls `StopProcessing` and a well-formed
store holding the items `xs`, `ProcessMessages` returns (a round of the loop
per item is enough); the processor has been invoked on the messages of the
store, once each, in insertion order; afterwards the store is well formed and
holds the messages not marked `MessageTaken`, in their order, followed by the
messages passed to `AddMessages`, in call order; and a later pass over the
store (by any processor that does not stop) is invoked on exactly those
messages: a taken message is not presented again and the added ones are. -/
theorem processMessages_once_in_order {σ τ : Type} (proc : Processor σ) (later : Processor τ)
    (hns : ∀ s m, (proc s m).2.stop = false) (hns2 : ∀ s m, (later s m).2.stop = false)
    (h : Heap) (l : messageList) (xs : List Nat) (st : σ) (st2 : τ) (fuel fuel2 : Nat)
    (hl : IsList h l xs) (hf : xs.length ≤ fuel)
    (hf2 : ((passSpec proc st (h.msgs xs)).kept ++
              (passSpec proc st (h.msgs xs)).added).length ≤ fuel2) :
    ∃ r ys r2, ProcessMessages proc fuel h l st = Res.ok r ∧
      r.calls = h.msgs xs ∧
      r.st = (passSpec proc st (h.msgs xs)).st ∧
      IsList r.heap r.messages ys ∧
      r.heap.msgs ys =
        (passSpec proc st (h.msgs xs)).kept ++ (passSpec proc st (h.msgs xs)).added ∧
      ProcessMessages later fuel2 r.heap r.messages st2 = Res.ok r2 ∧
      r2.calls =
        (passSpec proc st (h.msgs xs)).kept ++ (passSpec proc st (h.msgs xs)).added := by
  obtain ⟨r, ys, hrun, hys, hcalls, hmsgs, hst, _⟩ :=
    processMessages_noStop proc hns h l xs st fuel hl hf
  have hlen : ys.length ≤ fuel2 := by
    have : (r.heap.msgs ys).length = ys.length := by simp [Heap.msgs]
    rw [← this, hmsgs]; exact hf2
  obtain ⟨r2, _, hrun2, _, hcalls2, _⟩ :=
    processMessages_noStop later hns2 r.heap r.messages ys st2 fuel2 hys hlen
  exact ⟨r, ys, r2, hrun, hcalls, hst, hys, hmsgs, hrun2, hcalls2.trans hmsgs⟩

theorem store3_isList : IsList store3.1 store3.2 [0, 1, 2] :=
  ⟨⟨rfl, by decide, rfl, by decide, rfl, by decide, rfl⟩, by decide, fun _ => rfl⟩

/-- C5 on the store 10, 20, 30 with a processor that takes 20 and adds 99
at 10: invoked on 10, 20, 30; the store is then 10, 30, 99. -/
theorem processMessages_once_in_order_witness :
    ∃ r ys r2, ProcessMessages takes20 3 store3.1 store3.2 () = Res.ok r ∧
      r.calls = store3.1.msgs [0, 1, 2] ∧
      r.st = (passSpec takes20 () (store3.1.msgs [0, 1, 2])).st ∧
      IsList r.heap r.messages ys ∧
      r.heap.msgs ys =
        (passSpec takes20 () (store3.1.msgs [0, 1, 2])).kept ++
          (passSpec takes20 () (store3.1.msgs [0, 1, 2])).added ∧
      ProcessMessages looksOn 3 r.heap r.messages () = Res.ok r2 ∧
      r2.calls =
        (passSpec takes20 () (store3.1.msgs [0, 1, 2])).kept ++
          (passSpec takes20 () (store3.1.msgs [0, 1, 2])).added :=
  processMessages_once_in_order takes20 looksOn (fun _ _ => rfl) (fun _ _ => rfl)
    store3.1 store3.2 [0, 1, 2] () () 3 3 store3_isList (by decide) (by decide)

/-- The reference pass of the example: 10 and 30 are kept, 99 is added. -/
theorem passSpec_takes20 :
    (passSpec takes20 () (store3.1.msgs [0, 1, 2])).kept = [10, 30] ∧
    (passSpec takes20 () (store3.1.msgs [0, 1, 2])).added = [99] := by
  decide

end Framework

/-! ## Message store: `StopProcessing` -/

namespace Framework

/-- Once the two items 1 and 2 (messages 20 and 30) are linked as the loop of
`ProcessMessages` leaves them after a stop at an earlier item, the loop moves
between two states for ever. -/
theorem passLoop_cycle (fuel : Nat) : ∀ s : PassState Unit,
    s.tmsgs.head = none → s.heap.msg 1 = 20 → s.heap.msg 2 = 30 →
    ((s.msgs.head = some 1 ∧ s.remains = ⟨some 0, some 2⟩ ∧ s.heap.next 1 = some 2) ∨
     (s.msgs.head = some 2 ∧ s.remains = ⟨some 0, some 1⟩ ∧ s.heap.next 2 = some 1)) →
    passLoop (stopsAt 10) fuel s = Res.outOfFuel := by
  induction fuel with
  | zero =>
    intro s _ _ _ h
    rcases h with ⟨h, _, _⟩ | ⟨h, _, _⟩ <;> simp [passLoop, h]
  | succ fuel ih =>
    intro s ht h1 h2 h
    rcases h with ⟨hh, hr, hn⟩ | ⟨hh, hr, hn⟩
    · have hround : passRound (stopsAt 10) s 1 =
          some ⟨(s.heap.setNext 1 none).setNext 2 (some 1), ⟨some 2, s.msgs.tail⟩,
            ⟨some 0, some 1⟩, s.tmsgs, (), s.calls ++ [20]⟩ := by
        simp [passRound, stopsAt, AddMessages, messageList.append, hr, hn, h1]
      rw [passLoop_cons _ fuel s _ 1 hh hround]
      exact ih _ ht (by simpa using h1) (by simpa using h2)
        (Or.inr ⟨rfl, rfl, by simp [Heap.setNext_next]⟩)
    · have hround : passRound (stopsAt 10) s 2 =
          some ⟨(s.heap.setNext 2 none).setNext 1 (some 2), ⟨some 1, s.msgs.tail⟩,
            ⟨some 0, some 2⟩, s.tmsgs, (), s.calls ++ [30]⟩ := by
        simp [passRound, stopsAt, AddMessages, messageList.append, hr, hn, h2]
      rw [passLoop_cons _ fuel s _ 2 hh hround]
      exact ih _ ht (by simpa using h1) (by simpa using h2)
        (Or.inl ⟨rfl, rfl, by simp [Heap.setNext_next]⟩)

/-- On the store 10, 20, 30 a `StopProcessing` at message 10 is followed by
a loop that no number of rounds ends. -/
theorem stop_at_first_diverges (fuel : Nat) :
    ProcessMessages (stopsAt 10) fuel store3.1 store3.2 () = Res.outOfFuel := by
  cases fuel with
  | zero => rfl
  | succ fuel =>
    have hround : passRound (stopsAt 10)
        ⟨store3.1, ⟨some 0, some 2⟩, messageList.zero, ⟨none, some 2⟩, (), []⟩ 0 =
        some ⟨(store3.1.setNext 0 none).setNext 0 (some 1), ⟨some 1, some 2⟩,
          ⟨some 0, some 2⟩, ⟨none, some 2⟩, (), [10]⟩ := by
      simp [passRound, stopsAt, AddMessages, messageList.append, messageList.concat,
        messageList.zero, store3]
    have hloop := passLoop_cycle fuel
      ⟨(store3.1.setNext 0 none).setNext 0 (some 1), ⟨some 1, some 2⟩,
        ⟨some 0, some 2⟩, ⟨none, some 2⟩, (), [10]⟩ rfl rfl rfl (Or.inl ⟨rfl, rfl, rfl⟩)
    simp only [ProcessMessages, messageList.splice]
    rw [show (store3.2).head = some 0 from rfl, show (store3.2).tail = some 2 from rfl,
      passLoop_cons _ fuel _ _ 0 rfl hround, hloop]

/-- C6 (the code falls short of it): on the store 10, 20, 30 a processor
that calls `StopProcessing` at message 20 is still invoked on message 30,
the loop of `ProcessMessages` having no exit on `stop`; and when it calls
`StopProcessing` at message 10, `ProcessMessages` does not return within any
number of rounds, the two later items having been linked into a cycle. -/
theorem stopProcessing_keeps_looping :
    observe (ProcessMessages (stopsAt 20) 3 store3.1 store3.2 ())
      = Res.ok ([10, 20, 30], [10, 20, 30]) ∧
    ∀ fuel, observe (ProcessMessages (stopsAt 10) fuel store3.1 store3.2 ())
      = Res.outOfFuel := by
  constructor
  · rfl
  · intro fuel
    rw [stop_at_first_diverges fuel]
    rfl

end Framework

/-! ## The iteration: heap level against list level -/

namespace Framework

/-- A list keeps its items and messages under a change of the heap that
only touches `next` fields of items of another list `ys`. -/
theorem IsList.other_frame {h h' : Heap} {l : messageList} {ps ys : List Nat}
    (hps : IsList h l ps) (hsz : h.size ≤ h'.size)
    (hmsg : ∀ a < h.size, h'.msg a = h.msg a)
    (hfr : ∀ a < h.size, a ∉ ys → h'.next a = h.next a)
    (hdis : ∀ x ∈ ps, x ∉ ys) :
    IsList h' l ps ∧ h'.msgs ps = h.msgs ps :=
  ⟨hps.reframe (fun x hx => hfr x (hps.item_lt x hx) (hdis x hx)) hsz,
    List.map_congr_left (fun x hx => hmsg x (hps.item_lt x hx))⟩

theorem postMessage_eq (l : Loop) (m : Message) (h' : Heap) (l' : messageList)
    (hadd : AddMessages l.heap l.messages [m] = some (h', l')) :
    l.PostMessage m = some { l with heap := h', messages := l' } := by
  simp only [AddMessages, Heap.alloc_addr] at hadd
  simp only [Loop.PostMessage, Heap.alloc_addr]
  cases happ : messageList.append (l.heap.alloc m).1 l.messages l.heap.size with
  | none => simp [happ] at hadd
  | some x =>
    obtain ⟨h1, l1⟩ := x
    simp only [happ, Option.some.injEq, Prod.mk.injEq] at hadd
    obtain ⟨rfl, rfl⟩ := hadd
    rfl

/-- One call of a controller: with enough rounds for the loop of
`ProcessMessages`, the heap-level call returns and its result stands for the
list-level result. -/
theorem doCall_sim (t : loopIteration) (a : AbsIter) (c : Call) (fuel : Nat) (hR : Rep t a)
    (hc : c.Ok) (hlv : a.priorityLevel < PriorityLevels) (hfuel : (a.doCall c).peak ≤ fuel) :
    ∃ t', t.doCall fuel c = Res.ok t' ∧ Rep t' (a.doCall c) := by
  obtain ⟨hcs, hpl, hlog, ys, ps, hys, hmy, hps, hmp, hdis⟩ := hR
  have hdis' : ∀ x ∈ ps, x ∉ ys := fun x hx hy => hdis x hy hx
  cases c with
  | processMessages proc st =>
    have hf : ys.length ≤ fuel := by
      have h1 : ys.length = a.store.length := by rw [← hmy]; simp [Heap.msgs]
      have h2 : max a.peak a.store.length ≤ fuel := hfuel
      omega
    obtain ⟨r, ys', hrun, hys', _, hmsgs, _, hsz, hmsg, hin, hfr⟩ :=
      processMessages_noStop proc hc t.loop.heap t.messages ys st fuel hys hf
    obtain ⟨hps', hmp'⟩ := hps.other_frame hsz hmsg hfr hdis'
    refine ⟨⟨{ t.loop with heap := r.heap }, t.priorityLevel, r.messages, t.log⟩,
      by simp only [loopIteration.doCall, hrun, Res.bind], hcs, hpl, hlog, ys', ps,
      hys', ?_, hps', ?_, ?_⟩
    · show r.heap.msgs ys' = _
      rw [hmsgs, hmy]; rfl
    · show r.heap.msgs ps = _
      rw [hmp', hmp]; rfl
    · intro x hx hp
      rcases hin x hx with h | h
      · exact hdis x h hp
      · exact Nat.lt_irrefl _ (Nat.lt_of_lt_of_le (hps.item_lt x hp) h)
  | addMessages ms =>
    obtain ⟨h', l', hadd, hl', hsz, hmsg, hfr, hmap⟩ :=
      addMessages_spec ms t.loop.heap t.messages ys hys
    obtain ⟨hps', hmp'⟩ := hps.other_frame (by omega) hmsg hfr hdis'
    refine ⟨⟨{ t.loop with heap := h' }, t.priorityLevel, l', t.log⟩,
      by simp only [loopIteration.doCall, hadd, Res.ofOption, Res.bind], hcs, hpl,
      hlog, _, ps, hl', ?_, hps', ?_, ?_⟩
    · show h'.msgs _ = a.store ++ ms
      have : ys.map h'.msg = ys.map t.loop.heap.msg :=
        List.map_congr_left (fun x hx => hmsg x (hys.item_lt x hx))
      simp only [Heap.msgs, List.map_append, this, hmap]
      rw [← hmy]; rfl
    · show h'.msgs ps = _
      rw [hmp', hmp]; rfl
    · intro x hx hp
      rcases List.mem_append.mp hx with h | h
      · exact hdis x h hp
      · exact Nat.lt_irrefl _ (Nat.lt_of_lt_of_le (hps.item_lt x hp) (List.mem_range'_1.mp h).1)
  | postMessage m =>
    obtain ⟨h', l', hadd, hl', hsz, hmsg, hfr, hmap⟩ :=
      addMessages_spec [m] t.loop.heap t.loop.messages ps hps
    obtain ⟨hys', hmy'⟩ := hys.other_frame (by omega) hmsg hfr hdis
    refine ⟨⟨{ t.loop with heap := h', messages := l' }, t.priorityLevel, t.messages, t.log⟩,
      by simp only [loopIteration.doCall, postMessage_eq _ _ _ _ hadd, Res.ofOption,
        Res.bind], hcs, hpl, hlog, ys, _, hys', ?_, hl', ?_, ?_⟩
    · show h'.msgs ys = _
      rw [hmy', hmy]; rfl
    · show h'.msgs _ = a.pending ++ [m]
      have : ps.map h'.msg = ps.map t.loop.heap.msg :=
        List.map_congr_left (fun x hx => hmsg x (hps.item_lt x hx))
      simp only [Heap.msgs, List.map_append, this, hmap]
      rw [← hmp]; rfl
    · intro x hx hp
      rcases List.mem_append.mp hp with h | h
      · exact hdis x hx h
      · exact Nat.lt_irrefl _ (Nat.lt_of_lt_of_le (hys.item_lt x hx) (List.mem_range'_1.mp h).1)
  | preRunAt level hooks =>
    refine ⟨⟨{ t.loop with
        controllers := addPre t.loop.controllers level hooks }, t.priorityLevel, t.messages,
        t.log⟩, by
      simp only [loopIteration.doCall, Loop.PreRunAt, show level < PriorityLevels from hc,
        if_true, Res.ofOption, Res.bind], ?_, hpl, hlog, ys, ps, hys, hmy, hps, hmp, hdis⟩
    show addPre t.loop.controllers level hooks = _
    rw [hcs]; rfl
  | postRunAt level hooks =>
    refine ⟨⟨{ t.loop with
        controllers := addPost t.loop.controllers level hooks }, t.priorityLevel, t.messages,
        t.log⟩, by
      simp only [loopIteration.doCall, Loop.PostRunAt, show level < PriorityLevels from hc,
        if_true, Res.ofOption, Res.bind], ?_, hpl, hlog, ys, ps, hys, hmy, hps, hmp, hdis⟩
    show addPost t.loop.controllers level hooks = _
    rw [hcs]; rfl
  | postRun hooks =>
    have hlt : t.priorityLevel < PriorityLevels := by rw [hpl]; exact hlv
    refine ⟨⟨{ t.loop with
        controllers := addPost t.loop.controllers t.priorityLevel hooks }, t.priorityLevel,
        t.messages, t.log⟩, by
      simp only [loopIteration.doCall, Loop.PostRunAt, hlt, if_true, Res.ofOption, Res.bind],
      ?_, hpl, hlog, ys, ps, hys, hmy, hps, hmp, hdis⟩
    show addPost t.loop.controllers t.priorityLevel hooks = _
    rw [hcs, hpl]; rfl
  | triggerNext =>
    exact ⟨t, rfl, hcs, hpl, hlog, ys, ps, hys, hmy, hps, hmp, hdis⟩

end Framework

namespace Framework

theorem AbsIter.doCall_level (a : AbsIter) (c : Call) :
    (a.doCall c).priorityLevel = a.priorityLevel := by
  cases c <;> rfl

theorem AbsIter.doCall_peak (a : AbsIter) (c : Call) : a.peak ≤ (a.doCall c).peak := by
  cases c <;> simp [AbsIter.doCall]

theorem AbsIter.doCalls_level (cs : List Call) : ∀ a : AbsIter,
    (a.doCalls cs).priorityLevel = a.priorityLevel := by
  induction cs with
  | nil => intro a; rfl
  | cons c cs ih => intro a; simp only [AbsIter.doCalls]; rw [ih, AbsIter.doCall_level]

theorem AbsIter.doCalls_peak (cs : List Call) : ∀ a : AbsIter, a.peak ≤ (a.doCalls cs).peak := by
  induction cs with
  | nil => intro a; exact le_refl _
  | cons c cs ih => intro a; exact le_trans (a.doCall_peak c) (ih _)

theorem AbsIter.runControllers_level (prog : Program) (ctls : List Nat) : ∀ a : AbsIter,
    (a.runControllers prog ctls).priorityLevel = a.priorityLevel := by
  induction ctls with
  | nil => intro a; rfl
  | cons c cs ih => intro a; simp only [AbsIter.runControllers]; rw [ih, AbsIter.doCalls_level]

theorem AbsIter.runControllers_peak (prog : Program) (ctls : List Nat) : ∀ a : AbsIter,
    a.peak ≤ (a.runControllers prog ctls).peak := by
  induction ctls with
  | nil => intro a; exact le_refl _
  | cons c cs ih =>
    intro a
    simp only [AbsIter.runControllers]
    exact le_trans
      (AbsIter.doCalls_peak (prog c a.priorityLevel).1
        { a with log := a.log ++ [(c, a.priorityLevel)] }) (ih _)

theorem AbsIter.runLevel_peak (prog : Program) (a : AbsIter) :
    a.peak ≤ (a.runLevel prog).peak := by
  simp only [AbsIter.runLevel]
  refine le_trans ?_ (AbsIter.runControllers_peak _ _ _)
  refine le_trans ?_ (AbsIter.runControllers_peak _ _ _)
  exact AbsIter.runControllers_peak prog (a.controllers a.priorityLevel).preHooks
    (a.takePre a.priorityLevel)

theorem AbsIter.runLevels_peak (prog : Program) (n : Nat) : ∀ (i : Nat) (a : AbsIter),
    a.peak ≤ (AbsIter.runLevels prog n i a).peak := by
  induction n with
  | zero => intro i a; exact le_refl _
  | succ n ih =>
    intro i a
    simp only [AbsIter.runLevels]
    refine le_trans ?_ (ih _ _)
    exact AbsIter.runLevel_peak prog ⟨a.controllers, a.pending, a.store, i, a.log, a.peak⟩

theorem doCalls_sim (fuel : Nat) (cs : List Call) : ∀ (t : loopIteration) (a : AbsIter),
    Rep t a → (∀ c ∈ cs, c.Ok) → a.priorityLevel < PriorityLevels →
    (a.doCalls cs).peak ≤ fuel →
    ∃ t', t.doCalls fuel cs = Res.ok t' ∧ Rep t' (a.doCalls cs) := by
  induction cs with
  | nil => intro t a hR _ _ _; exact ⟨t, rfl, hR⟩
  | cons c cs ih =>
    intro t a hR hok hlv hfuel
    simp only [AbsIter.doCalls] at hfuel ⊢
    obtain ⟨t1, h1, hR1⟩ := doCall_sim t a c fuel hR (hok c (List.mem_cons_self _ _)) hlv
      (le_trans (AbsIter.doCalls_peak cs _) hfuel)
    obtain ⟨t2, h2, hR2⟩ := ih t1 (a.doCall c) hR1
      (fun x hx => hok x (List.mem_cons_of_mem _ hx))
      (by rw [AbsIter.doCall_level]; exact hlv) hfuel
    exact ⟨t2, by simp only [loopIteration.doCalls, h1, Res.bind, h2], hR2⟩

theorem runControllers_sim (prog : Program) (hp : prog.Ok) (fuel : Nat) (ctls : List Nat) :
    ∀ (t : loopIteration) (a : AbsIter),
    Rep t a → a.priorityLevel < PriorityLevels →
    (a.runControllers prog ctls).peak ≤ fuel →
    ∃ t', runControllers prog fuel t ctls = Res.ok t' ∧ Rep t' (a.runControllers prog ctls) := by
  induction ctls with
  | nil => intro t a hR _ _; exact ⟨t, rfl, hR⟩
  | cons ctl ctls ih =>
    intro t a hR hlv hfuel
    simp only [AbsIter.runControllers] at hfuel ⊢
    obtain ⟨hcs, hpl, hlog, hrest⟩ := hR
    have hR0 : Rep { t with log := t.log ++ [(ctl, t.priorityLevel)] }
        { a with log := a.log ++ [(ctl, a.priorityLevel)] } :=
      ⟨hcs, hpl, by simp [hlog, hpl], hrest⟩
    obtain ⟨t1, h1, hR1⟩ := doCalls_sim fuel (prog ctl a.priorityLevel).1 _ _ hR0
      (hp ctl a.priorityLevel) hlv (le_trans (AbsIter.runControllers_peak prog ctls _) hfuel)
    obtain ⟨t2, h2, hR2⟩ := ih t1 _ hR1
      (by rw [AbsIter.doCalls_level]; exact hlv) hfuel
    refine ⟨t2, ?_, hR2⟩
    have hprog : prog ctl t.priorityLevel = prog ctl a.priorityLevel := by rw [hpl]
    simp only [runControllers, hprog, h1, Res.bind, h2]

end Framework

namespace Framework

theorem Rep.takePre {t : loopIteration} {a : AbsIter} (hR : Rep t a) (i : Nat) :
    Rep (t.takePre i) (a.takePre i) := by
  obtain ⟨hcs, hpl, hlog, hrest⟩ := hR
  exact ⟨by simp [loopIteration.takePre, AbsIter.takePre, hcs], hpl, hlog, hrest⟩

theorem Rep.takePost {t : loopIteration} {a : AbsIter} (hR : Rep t a) (i : Nat) :
    Rep (t.takePost i) (a.takePost i) := by
  obtain ⟨hcs, hpl, hlog, hrest⟩ := hR
  exact ⟨by simp [loopIteration.takePost, AbsIter.takePost, hcs], hpl, hlog, hrest⟩

theorem runLevel_sim (prog : Program) (hp : prog.Ok) (fuel : Nat) (t : loopIteration)
    (a : AbsIter) (hR : Rep t a) (hlv : a.priorityLevel < PriorityLevels)
    (hfuel : (a.runLevel prog).peak ≤ fuel) :
    ∃ t', controllerList.run prog fuel t = Res.ok t' ∧ Rep t' (a.runLevel prog) := by
  have hcs := hR.1
  have hpl := hR.2.1
  simp only [AbsIter.runLevel] at hfuel ⊢
  simp only [controllerList.run, hpl, hcs]
  generalize ha1 : AbsIter.runControllers prog (a.takePre a.priorityLevel)
    (a.controllers a.priorityLevel).preHooks = a1 at hfuel ⊢
  generalize ha2 : AbsIter.runControllers prog a1
    (a1.controllers a.priorityLevel).controllers = a2 at hfuel ⊢
  have hp2 : a2.peak ≤ fuel :=
    le_trans (AbsIter.runControllers_peak prog _ (a2.takePost a.priorityLevel)) hfuel
  have hp1 : a1.peak ≤ fuel := by
    rw [← ha2] at hp2
    exact le_trans (AbsIter.runControllers_peak prog _ a1) hp2
  have hl1 : a1.priorityLevel = a.priorityLevel := by
    rw [← ha1, AbsIter.runControllers_level]; rfl
  have hl2 : a2.priorityLevel = a.priorityLevel := by
    rw [← ha2, AbsIter.runControllers_level, hl1]
  obtain ⟨t1, h1, hR1⟩ := runControllers_sim prog hp fuel (a.controllers a.priorityLevel).preHooks
    _ _ (hR.takePre a.priorityLevel) hlv (by rw [ha1]; exact hp1)
  rw [ha1] at hR1
  obtain ⟨t2, h2, hR2⟩ := runControllers_sim prog hp fuel
    (a1.controllers a.priorityLevel).controllers t1 a1 hR1 (by rw [hl1]; exact hlv)
    (by rw [ha2]; exact hp2)
  rw [ha2] at hR2
  obtain ⟨t3, h3, hR3⟩ := runControllers_sim prog hp fuel
    (a2.controllers a.priorityLevel).postHooks _ _ (hR2.takePost a.priorityLevel)
    (by show a2.priorityLevel < _; rw [hl2]; exact hlv) hfuel
  refine ⟨t3, ?_, hR3⟩
  rw [h1]
  simp only [Res.bind]
  rw [hR1.1, h2]
  simp only [Res.bind]
  rw [hR2.1, h3]

theorem runLevels_sim (prog : Program) (hp : prog.Ok) (fuel : Nat) (n : Nat) :
    ∀ (i : Nat) (t : loopIteration) (a : AbsIter), Rep t a → i + n ≤ PriorityLevels →
    (AbsIter.runLevels prog n i a).peak ≤ fuel →
    ∃ t', runLevels prog fuel n i t = Res.ok t' ∧ Rep t' (AbsIter.runLevels prog n i a) := by
  induction n with
  | zero => intro i t a hR _ _; exact ⟨t, rfl, hR⟩
  | succ n ih =>
    intro i t a hR hi hfuel
    simp only [AbsIter.runLevels] at hfuel ⊢
    obtain ⟨hcs, _, hlog, hrest⟩ := hR
    have hR0 : Rep ⟨t.loop, i, t.messages, t.log⟩
        ⟨a.controllers, a.pending, a.store, i, a.log, a.peak⟩ := ⟨hcs, rfl, hlog, hrest⟩
    obtain ⟨t1, h1, hR1⟩ := runLevel_sim prog hp fuel _ _ hR0 (by show i < _; omega)
      (le_trans (AbsIter.runLevels_peak prog n _ _) hfuel)
    obtain ⟨t2, h2, hR2⟩ := ih (i + 1) t1 _ hR1 (by omega) hfuel
    refine ⟨t2, ?_, hR2⟩
    simp only [runLevels]
    rw [h1]
    simp only [Res.bind]
    exact h2

/-- The heap-level `runIteration` computes what the list-level one says:
when the pending list of the loop is well formed, no processor calls
`StopProcessing` and hooks are registered at levels of the array, then with
`peak` rounds for the loops of `ProcessMessages` the iteration returns in a
state that stands for the list-level result. -/
theorem runIteration_sim (prog : Program) (hp : prog.Ok) (fuel : Nat) (l : Loop)
    (ps : List Nat) (hl : IsList l.heap l.messages ps)
    (hfuel : (AbsIter.runIteration prog l.controllers (l.heap.msgs ps)).peak ≤ fuel) :
    ∃ t', l.runIteration prog fuel = Res.ok t' ∧
      Rep t' (AbsIter.runIteration prog l.controllers (l.heap.msgs ps)) := by
  have hR0 : Rep l.beginIteration ⟨l.controllers, [], l.heap.msgs ps, 0, [], 0⟩ :=
    ⟨rfl, rfl, rfl, ps, [], ⟨hl.1, hl.2.1, hl.2.2⟩, rfl, ⟨rfl, by simp, by simp⟩, rfl,
      by simp⟩
  exact runLevels_sim prog hp fuel PriorityLevels 0 _ _ hR0 (by simp) hfuel

end Framework

/-! ## The iteration: order of execution -/

namespace Framework

theorem AbsIter.doCall_static (a : AbsIter) (c : Call) (hc : c.registers = false) :
    (a.doCall c).controllers = a.controllers ∧ (a.doCall c).log = a.log := by
  cases c <;> first | exact ⟨rfl, rfl⟩ | simp [Call.registers] at hc

theorem AbsIter.doCalls_static (cs : List Call) : ∀ a : AbsIter,
    (∀ c ∈ cs, c.registers = false) →
    (a.doCalls cs).controllers = a.controllers ∧ (a.doCalls cs).log = a.log := by
  induction cs with
  | nil => intro a _; exact ⟨rfl, rfl⟩
  | cons c cs ih =>
    intro a h
    obtain ⟨h1, h2⟩ := a.doCall_static c (h c (List.mem_cons_self _ _))
    obtain ⟨h3, h4⟩ := ih (a.doCall c) (fun x hx => h x (List.mem_cons_of_mem _ hx))
    exact ⟨h3.trans h1, h4.trans h2⟩

theorem AbsIter.runControllers_static (prog : Program) (hs : prog.Static) (ctls : List Nat) :
    ∀ a : AbsIter,
    (a.runControllers prog ctls).controllers = a.controllers ∧
    (a.runControllers prog ctls).log = a.log ++ ctls.map (fun c => (c, a.priorityLevel)) := by
  induction ctls with
  | nil => intro a; exact ⟨rfl, by simp [AbsIter.runControllers]⟩
  | cons c cs ih =>
    intro a
    simp only [AbsIter.runControllers]
    obtain ⟨h1, h2⟩ := AbsIter.doCalls_static (prog c a.priorityLevel).1
      ⟨a.controllers, a.pending, a.store, a.priorityLevel, a.log ++ [(c, a.priorityLevel)],
        a.peak⟩ (hs c a.priorityLevel)
    obtain ⟨h3, h4⟩ := ih (AbsIter.doCalls
      ⟨a.controllers, a.pending, a.store, a.priorityLevel, a.log ++ [(c, a.priorityLevel)],
        a.peak⟩ (prog c a.priorityLevel).1)
    rw [AbsIter.doCalls_level] at h4
    exact ⟨h3.trans h1, by rw [h4, h2]; simp⟩

theorem setLevel_setLevel (cs : Nat → controllerList) (i : Nat) (c d : controllerList) :
    setLevel (setLevel cs i c) i d = setLevel cs i d := by
  funext j
  simp only [setLevel]
  split_ifs <;> rfl

/-- One level when no hook is registered meanwhile: the log grows by the
order of the level and the hooks of the level are gone. -/
theorem AbsIter.runLevel_static (prog : Program) (hs : prog.Static) (a : AbsIter) :
    (a.runLevel prog).controllers =
      setLevel a.controllers a.priorityLevel
        ⟨[], (a.controllers a.priorityLevel).controllers, []⟩ ∧
    (a.runLevel prog).log = a.log ++ levelOrder a.controllers a.priorityLevel := by
  simp only [AbsIter.runLevel]
  generalize ha1 : AbsIter.runControllers prog (a.takePre a.priorityLevel)
    (a.controllers a.priorityLevel).preHooks = a1
  obtain ⟨h1c, h1l⟩ := AbsIter.runControllers_static prog hs
    (a.controllers a.priorityLevel).preHooks (a.takePre a.priorityLevel)
  rw [ha1] at h1c h1l
  have h1c' : a1.controllers a.priorityLevel =
      ⟨[], (a.controllers a.priorityLevel).controllers,
        (a.controllers a.priorityLevel).postHooks⟩ := by
    rw [h1c]; simp [AbsIter.takePre, setLevel]
  have hl1 : a1.priorityLevel = a.priorityLevel := by
    rw [← ha1, AbsIter.runControllers_level]; rfl
  generalize ha2 : AbsIter.runControllers prog a1
    (a1.controllers a.priorityLevel).controllers = a2
  obtain ⟨h2c, h2l⟩ := AbsIter.runControllers_static prog hs
    (a1.controllers a.priorityLevel).controllers a1
  rw [ha2] at h2c h2l
  have h2c' : a2.controllers a.priorityLevel =
      ⟨[], (a.controllers a.priorityLevel).controllers,
        (a.controllers a.priorityLevel).postHooks⟩ := by rw [h2c]; exact h1c'
  obtain ⟨h3c, h3l⟩ := AbsIter.runControllers_static prog hs
    (a2.controllers a.priorityLevel).postHooks (a2.takePost a.priorityLevel)
  have hl2 : a2.priorityLevel = a.priorityLevel := by
    rw [← ha2, AbsIter.runControllers_level, hl1]
  constructor
  · rw [h3c]
    simp only [AbsIter.takePost, h2c']
    rw [h2c, h1c]
    simp only [AbsIter.takePre]
    rw [setLevel_setLevel]
  · rw [h3l]
    simp only [AbsIter.takePost, h2l, h1l, hl1, hl2, h2c', h1c', AbsIter.takePre, levelOrder,
      List.map_append, List.append_assoc]

theorem levelOrder_congr (cs cs' : Nat → controllerList) (i : Nat) (h : cs' i = cs i) :
    levelOrder cs' i = levelOrder cs i := by
  simp [levelOrder, h]

theorem orderFrom_congr (cs cs' : Nat → controllerList) (n : Nat) : ∀ i : Nat,
    (∀ j, i ≤ j → j < i + n → cs' j = cs j) → orderFrom cs' n i = orderFrom cs n i := by
  induction n with
  | zero => intro i _; rfl
  | succ n ih =>
    intro i h
    simp only [orderFrom]
    rw [levelOrder_congr cs cs' i (h i (le_refl _) (by omega)),
      ih (i + 1) (fun j h1 h2 => h j (by omega) (by omega))]

/-- The levels `i .. i+n-1` when no hook is registered meanwhile. -/
theorem AbsIter.runLevels_static (prog : Program) (hs : prog.Static) (n : Nat) :
    ∀ (i : Nat) (a : AbsIter),
    (AbsIter.runLevels prog n i a).log = a.log ++ orderFrom a.controllers n i ∧
    (∀ j, (AbsIter.runLevels prog n i a).controllers j =
      if i ≤ j ∧ j < i + n then ⟨[], (a.controllers j).controllers, []⟩
      else a.controllers j) := by
  induction n with
  | zero =>
    intro i a
    refine ⟨by simp [AbsIter.runLevels, orderFrom], fun j => ?_⟩
    rw [if_neg (by omega)]
    rfl
  | succ n ih =>
    intro i a
    simp only [AbsIter.runLevels]
    obtain ⟨hc, hl⟩ := AbsIter.runLevel_static prog hs
      ⟨a.controllers, a.pending, a.store, i, a.log, a.peak⟩
    obtain ⟨ih1, ih2⟩ := ih (i + 1)
      (AbsIter.runLevel prog ⟨a.controllers, a.pending, a.store, i, a.log, a.peak⟩)
    simp only at hc hl
    constructor
    · rw [ih1, hl, hc, List.append_assoc]
      congr 1
      simp only [orderFrom]
      congr 1
      apply orderFrom_congr
      intro j h1 _
      simp [setLevel, show j ≠ i by omega]
    · intro j
      rw [ih2 j, hc]
      simp only [setLevel]
      by_cases hji : j = i
      · subst hji
        simp
      · simp only [hji, if_false]
        by_cases h1 : i + 1 ≤ j ∧ j < i + 1 + n
        · rw [if_pos h1, if_pos ⟨by omega, by omega⟩]
        · rw [if_neg h1, if_neg (by omega)]

end Framework

namespace Framework

theorem iterationOrder_hooksTaken (cs cs' : Nat → controllerList)
    (h : ∀ j < PriorityLevels, cs' j = hooksTaken cs j) :
    iterationOrder cs' = iterationOrder (hooksTaken cs) :=
  orderFrom_congr (hooksTaken cs) cs' PriorityLevels 0 (fun j _ hj => h j (by omega))

/-- The list-level iteration when no hook is registered meanwhile. -/
theorem AbsIter.runIteration_static (prog : Program) (hs : prog.Static)
    (cs : Nat → controllerList) (pending : List Message) :
    (AbsIter.runIteration prog cs pending).log = iterationOrder cs ∧
    ∀ j < PriorityLevels, (AbsIter.runIteration prog cs pending).controllers j =
      hooksTaken cs j := by
  obtain ⟨hlog, hctl⟩ := AbsIter.runLevels_static prog hs PriorityLevels 0
    ⟨cs, [], pending, 0, [], 0⟩
  simp only [AbsIter.runIteration, iterationOrder]
  refine ⟨by rw [hlog, List.nil_append], fun j hj => ?_⟩
  rw [hctl j, if_pos ⟨Nat.zero_le _, by omega⟩, hooksTaken]

theorem demoProg_ok : demoProg.Ok := by
  intro ctl lvl c hc
  simp only [demoProg] at hc
  split_ifs at hc <;> simp at hc <;> subst hc <;> simp [Call.Ok, takesAll]

theorem demoProg_static : demoProg.Static := by
  intro ctl lvl c hc
  simp only [demoProg] at hc
  split_ifs at hc <;> simp at hc <;> subst hc <;> rfl

/-- The orders of the example, written out: controller 1 and its post-hook 9
at level 4, the pre-hook 7 and controller 2 at level 8, controller 3 at level
12; then the controllers alone. -/
theorem demoLoop_order :
    iterationOrder demoLoop.controllers = [(1, 4), (9, 4), (7, 8), (2, 8), (3, 12)] ∧
    iterationOrder (hooksTaken demoLoop.controllers) = [(1, 4), (2, 8), (3, 12)] := by
  decide

end Framework

/-! ## The iteration: order of execution with hooks registered meanwhile -/

namespace Framework

theorem Grow.refl (cs : Nat → controllerList) : Grow cs cs :=
  fun _ => ⟨rfl, ⟨[], by simp⟩, ⟨[], by simp⟩⟩

theorem Grow.trans {cs cs1 cs2 : Nat → controllerList} (h1 : Grow cs cs1) (h2 : Grow cs1 cs2) :
    Grow cs cs2 := by
  intro j
  obtain ⟨a1, ⟨m1, b1⟩, ⟨n1, c1⟩⟩ := h1 j
  obtain ⟨a2, ⟨m2, b2⟩, ⟨n2, c2⟩⟩ := h2 j
  exact ⟨a2.trans a1, ⟨m1 ++ m2, by rw [b2, b1, List.append_assoc]⟩,
    ⟨n1 ++ n2, by rw [c2, c1, List.append_assoc]⟩⟩

theorem grow_addPre (cs : Nat → controllerList) (i : Nat) (hooks : List Nat) :
    Grow cs (addPre cs i hooks) := by
  intro j
  simp only [addPre]
  split_ifs
  · exact ⟨rfl, ⟨hooks, rfl⟩, ⟨[], by simp⟩⟩
  · exact ⟨rfl, ⟨[], by simp⟩, ⟨[], by simp⟩⟩

theorem grow_addPost (cs : Nat → controllerList) (i : Nat) (hooks : List Nat) :
    Grow cs (addPost cs i hooks) := by
  intro j
  simp only [addPost]
  split_ifs
  · exact ⟨rfl, ⟨[], by simp⟩, ⟨hooks, rfl⟩⟩
  · exact ⟨rfl, ⟨[], by simp⟩, ⟨[], by simp⟩⟩

theorem AbsIter.doCall_grow (a : AbsIter) (c : Call) :
    Grow a.controllers (a.doCall c).controllers ∧ (a.doCall c).log = a.log := by
  cases c with
  | preRunAt level hooks => exact ⟨grow_addPre _ _ _, rfl⟩
  | postRunAt level hooks => exact ⟨grow_addPost _ _ _, rfl⟩
  | postRun hooks => exact ⟨grow_addPost _ _ _, rfl⟩
  | processMessages proc st => exact ⟨Grow.refl _, rfl⟩
  | addMessages ms => exact ⟨Grow.refl _, rfl⟩
  | postMessage m => exact ⟨Grow.refl _, rfl⟩
  | triggerNext => exact ⟨Grow.refl _, rfl⟩

theorem AbsIter.doCalls_grow (cs : List Call) : ∀ a : AbsIter,
    Grow a.controllers (a.doCalls cs).controllers ∧ (a.doCalls cs).log = a.log := by
  induction cs with
  | nil => intro a; exact ⟨Grow.refl _, rfl⟩
  | cons c cs ih =>
    intro a
    obtain ⟨h1, h2⟩ := a.doCall_grow c
    obtain ⟨h3, h4⟩ := ih (a.doCall c)
    exact ⟨h1.trans h3, h4.trans h2⟩

/-- `runControllers` logs exactly the controllers it is given, in order, at
the current level, whatever they register. -/
theorem AbsIter.runControllers_grow (prog : Program) (ctls : List Nat) : ∀ a : AbsIter,
    Grow a.controllers (a.runControllers prog ctls).controllers ∧
    (a.runControllers prog ctls).log = a.log ++ ctls.map (fun c => (c, a.priorityLevel)) := by
  induction ctls with
  | nil => intro a; exact ⟨Grow.refl _, by simp [AbsIter.runControllers]⟩
  | cons c cs ih =>
    intro a
    simp only [AbsIter.runControllers]
    obtain ⟨h1, h2⟩ := AbsIter.doCalls_grow (prog c a.priorityLevel).1
      ⟨a.controllers, a.pending, a.store, a.priorityLevel, a.log ++ [(c, a.priorityLevel)],
        a.peak⟩
    obtain ⟨h3, h4⟩ := ih (AbsIter.doCalls
      ⟨a.controllers, a.pending, a.store, a.priorityLevel, a.log ++ [(c, a.priorityLevel)],
        a.peak⟩ (prog c a.priorityLevel).1)
    rw [AbsIter.doCalls_level] at h4
    exact ⟨h1.trans h3, by rw [h4, h2]; simp⟩

/-- One level, whatever is registered meanwhile: the log grows by the
pre-hooks the level had, its controllers, and its post-hooks followed by
those registered for it by these pre-hooks and controllers; the lists of the
other levels only grow. -/
theorem AbsIter.runLevel_grow (prog : Program) (a : AbsIter) :
    ∃ more,
      (a.runLevel prog).log = a.log ++
        ((a.controllers a.priorityLevel).preHooks ++ (a.controllers a.priorityLevel).controllers
          ++ ((a.controllers a.priorityLevel).postHooks ++ more)).map
            (fun c => (c, a.priorityLevel)) ∧
      ∀ j, j ≠ a.priorityLevel →
        (((a.runLevel prog).controllers j).controllers = (a.controllers j).controllers ∧
        (∃ m, ((a.runLevel prog).controllers j).preHooks = (a.controllers j).preHooks ++ m) ∧
        (∃ m, ((a.runLevel prog).controllers j).postHooks = (a.controllers j).postHooks ++ m))
      := by
  simp only [AbsIter.runLevel]
  generalize ha1 : AbsIter.runControllers prog (a.takePre a.priorityLevel)
    (a.controllers a.priorityLevel).preHooks = a1
  obtain ⟨g1, l1⟩ := AbsIter.runControllers_grow prog
    (a.controllers a.priorityLevel).preHooks (a.takePre a.priorityLevel)
  rw [ha1] at g1 l1
  have hl1 : a1.priorityLevel = a.priorityLevel := by
    rw [← ha1, AbsIter.runControllers_level]; rfl
  generalize ha2 : AbsIter.runControllers prog a1
    (a1.controllers a.priorityLevel).controllers = a2
  obtain ⟨g2, l2⟩ := AbsIter.runControllers_grow prog
    (a1.controllers a.priorityLevel).controllers a1
  rw [ha2] at g2 l2
  have hl2 : a2.priorityLevel = a.priorityLevel := by
    rw [← ha2, AbsIter.runControllers_level, hl1]
  obtain ⟨g3, l3⟩ := AbsIter.runControllers_grow prog
    (a2.controllers a.priorityLevel).postHooks (a2.takePost a.priorityLevel)
  have g12 := g1.trans g2
  obtain ⟨hc1, _, _⟩ := g1 a.priorityLevel
  obtain ⟨_, _, ⟨more, hmore⟩⟩ := g12 a.priorityLevel
  have hc1' : (a1.controllers a.priorityLevel).controllers =
      (a.controllers a.priorityLevel).controllers := by
    rw [hc1]; simp [AbsIter.takePre, setLevel]
  have hmore' : (a2.controllers a.priorityLevel).postHooks =
      (a.controllers a.priorityLevel).postHooks ++ more := by
    rw [hmore]; simp [AbsIter.takePre, setLevel]
  refine ⟨more, ?_, ?_⟩
  · rw [l3]
    simp only [AbsIter.takePost, l2, l1, hl1, hl2, hc1', hmore', AbsIter.takePre,
      List.map_append, List.append_assoc]
  · intro j hj
    obtain ⟨c3, ⟨m3, p3⟩, ⟨n3, q3⟩⟩ := g3 j
    obtain ⟨c12, ⟨m12, p12⟩, ⟨n12, q12⟩⟩ := g12 j
    have e3 : (a2.takePost a.priorityLevel).controllers j = a2.controllers j := by
      simp [AbsIter.takePost, setLevel, hj]
    have e1 : (a.takePre a.priorityLevel).controllers j = a.controllers j := by
      simp [AbsIter.takePre, setLevel, hj]
    rw [e3] at c3 p3 q3
    rw [e1] at c12 p12 q12
    exact ⟨c3.trans c12, ⟨m12 ++ m3, by rw [p3, p12, List.append_assoc]⟩,
      ⟨n12 ++ n3, by rw [q3, q12, List.append_assoc]⟩⟩

end Framework

namespace Framework

/-- The levels `i .. i+n-1`, whatever is registered meanwhile: the log grows
by the order of lists `ran` that have, at each of these levels, the
controllers of the level, its pre-hooks followed by any registered before the
level began, and its post-hooks followed by any registered before they were
taken. -/
theorem AbsIter.runLevels_grow (prog : Program) (n : Nat) : ∀ (i : Nat) (a : AbsIter),
    ∃ ran : Nat → controllerList,
      (AbsIter.runLevels prog n i a).log = a.log ++ orderFrom ran n i ∧
      ∀ j, i ≤ j → j < i + n →
        ((ran j).controllers = (a.controllers j).controllers ∧
        (∃ m, (ran j).preHooks = (a.controllers j).preHooks ++ m) ∧
        (∃ m, (ran j).postHooks = (a.controllers j).postHooks ++ m)) := by
  induction n with
  | zero =>
    intro i a
    exact ⟨a.controllers, by simp [AbsIter.runLevels, orderFrom], fun j h1 h2 => by omega⟩
  | succ n ih =>
    intro i a
    simp only [AbsIter.runLevels]
    obtain ⟨more, hlog, hgrow⟩ := AbsIter.runLevel_grow prog
      ⟨a.controllers, a.pending, a.store, i, a.log, a.peak⟩
    obtain ⟨ran', hlog', hran'⟩ := ih (i + 1)
      (AbsIter.runLevel prog ⟨a.controllers, a.pending, a.store, i, a.log, a.peak⟩)
    simp only at hlog hgrow
    refine ⟨fun j => if j = i then
        ⟨(a.controllers i).preHooks, (a.controllers i).controllers,
          (a.controllers i).postHooks ++ more⟩ else ran' j, ?_, ?_⟩
    · rw [hlog', hlog, List.append_assoc]
      congr 1
      simp only [orderFrom]
      congr 1
      · simp [levelOrder]
      · symm
        apply orderFrom_congr
        intro j h1 _
        simp [show j ≠ i by omega]
    · intro j h1 h2
      by_cases hji : j = i
      · subst hji
        exact ⟨by simp, ⟨[], by simp⟩, ⟨more, by simp⟩⟩
      · simp only [hji, if_false]
        obtain ⟨c1, ⟨m1, p1⟩, ⟨n1, q1⟩⟩ := hran' j (by omega) (by omega)
        obtain ⟨c0, ⟨m0, p0⟩, ⟨n0, q0⟩⟩ := hgrow j hji
        exact ⟨c1.trans c0, ⟨m0 ++ m1, by rw [p1, p0, List.append_assoc]⟩,
          ⟨n0 ++ n1, by rw [q1, q0, List.append_assoc]⟩⟩

end Framework

/-! ## The iteration: hooks registered while it runs -/

namespace Framework

theorem preRegs_append (prog : Program) (j : Nat) (l1 l2 : List (Nat × Nat)) :
    preRegs prog j (l1 ++ l2) = preRegs prog j l1 ++ preRegs prog j l2 := by
  simp [preRegs, List.flatMap_append]

theorem postRegs_append (prog : Program) (j : Nat) (l1 l2 : List (Nat × Nat)) :
    postRegs prog j (l1 ++ l2) = postRegs prog j l1 ++ postRegs prog j l2 := by
  simp [postRegs, List.flatMap_append]

theorem AbsIter.doCall_reg (a : AbsIter) (c : Call) (j : Nat) :
    (a.doCall c).controllers j =
      ⟨(a.controllers j).preHooks ++ c.preRegs j, (a.controllers j).controllers,
        (a.controllers j).postHooks ++ c.postRegs a.priorityLevel j⟩ := by
  cases c with
  | preRunAt level hooks =>
    simp only [AbsIter.doCall, addPre, Call.preRegs, Call.postRegs]
    split_ifs <;> simp
  | postRunAt level hooks =>
    simp only [AbsIter.doCall, addPost, Call.preRegs, Call.postRegs]
    split_ifs <;> simp
  | postRun hooks =>
    simp only [AbsIter.doCall, addPost, Call.preRegs, Call.postRegs]
    split_ifs <;> simp
  | processMessages proc st => simp [AbsIter.doCall, Call.preRegs, Call.postRegs]
  | addMessages ms => simp [AbsIter.doCall, Call.preRegs, Call.postRegs]
  | postMessage m => simp [AbsIter.doCall, Call.preRegs, Call.postRegs]
  | triggerNext => simp [AbsIter.doCall, Call.preRegs, Call.postRegs]

theorem AbsIter.doCalls_reg (cs : List Call) : ∀ (a : AbsIter) (j : Nat),
    (a.doCalls cs).controllers j =
      ⟨(a.controllers j).preHooks ++ cs.flatMap (Call.preRegs j),
        (a.controllers j).controllers,
        (a.controllers j).postHooks ++ cs.flatMap (Call.postRegs a.priorityLevel j)⟩ := by
  induction cs with
  | nil => intro a j; simp [AbsIter.doCalls]
  | cons c cs ih =>
    intro a j
    simp only [AbsIter.doCalls]
    rw [ih (a.doCall c) j, AbsIter.doCall_reg, AbsIter.doCall_level]
    simp [List.flatMap_cons, List.append_assoc]

/-- `runControllers` adds to every hook list the hooks its invocations
register, in order. -/
theorem AbsIter.runControllers_reg (prog : Program) (ctls : List Nat) :
    ∀ (a : AbsIter) (j : Nat),
    (a.runControllers prog ctls).controllers j =
      ⟨(a.controllers j).preHooks ++
          preRegs prog j (ctls.map (fun c => (c, a.priorityLevel))),
        (a.controllers j).controllers,
        (a.controllers j).postHooks ++
          postRegs prog j (ctls.map (fun c => (c, a.priorityLevel)))⟩ := by
  induction ctls with
  | nil => intro a j; simp [AbsIter.runControllers, preRegs, postRegs]
  | cons c cs ih =>
    intro a j
    simp only [AbsIter.runControllers]
    rw [ih, AbsIter.doCalls_level, AbsIter.doCalls_reg]
    simp [preRegs, postRegs, List.flatMap_cons, List.append_assoc]

end Framework

namespace Framework

theorem preRegs_nil (prog : Program) (j : Nat) : preRegs prog j [] = [] := rfl

theorem postRegs_nil (prog : Program) (j : Nat) : postRegs prog j [] = [] := rfl

/-- One level, exactly: the log grows by the lists `ranLevel` of the level;
afterwards the level holds the pre-hooks registered for it while it ran and
the post-hooks registered for it by its post-hooks, and every other level has
gained the hooks registered for it. -/
theorem AbsIter.runLevel_reg (prog : Program) (a : AbsIter) :
    (a.runLevel prog).log = a.log ++
      levelOrder (setLevel a.controllers a.priorityLevel
        (ranLevel prog a.controllers a.priorityLevel)) a.priorityLevel ∧
    (a.runLevel prog).controllers a.priorityLevel =
      ⟨preRegs prog a.priorityLevel
          (levelOrder (setLevel a.controllers a.priorityLevel
            (ranLevel prog a.controllers a.priorityLevel)) a.priorityLevel),
        (a.controllers a.priorityLevel).controllers,
        postRegs prog a.priorityLevel
          ((ranLevel prog a.controllers a.priorityLevel).postHooks.map
            (fun c => (c, a.priorityLevel)))⟩ ∧
    ∀ j, j ≠ a.priorityLevel →
      (a.runLevel prog).controllers j =
        ⟨(a.controllers j).preHooks ++ preRegs prog j
            (levelOrder (setLevel a.controllers a.priorityLevel
              (ranLevel prog a.controllers a.priorityLevel)) a.priorityLevel),
          (a.controllers j).controllers,
          (a.controllers j).postHooks ++ postRegs prog j
            (levelOrder (setLevel a.controllers a.priorityLevel
              (ranLevel prog a.controllers a.priorityLevel)) a.priorityLevel)⟩ := by
  simp only [AbsIter.runLevel]
  have c1 := AbsIter.runControllers_reg prog
    (a.controllers a.priorityLevel).preHooks (a.takePre a.priorityLevel)
  have l1 := (AbsIter.runControllers_grow prog
    (a.controllers a.priorityLevel).preHooks (a.takePre a.priorityLevel)).2
  have v1 := AbsIter.runControllers_level prog
    (a.controllers a.priorityLevel).preHooks (a.takePre a.priorityLevel)
  generalize AbsIter.runControllers prog (a.takePre a.priorityLevel)
    (a.controllers a.priorityLevel).preHooks = a1 at c1 l1 v1
  have v0 : (a.takePre a.priorityLevel).priorityLevel = a.priorityLevel := rfl
  have g0 : (a.takePre a.priorityLevel).log = a.log := rfl
  rw [v0] at c1 l1 v1
  rw [g0] at l1
  have k1 : (a1.controllers a.priorityLevel).controllers =
      (a.controllers a.priorityLevel).controllers := by
    rw [c1]; simp [AbsIter.takePre, setLevel]
  rw [k1]
  have c2 := AbsIter.runControllers_reg prog (a.controllers a.priorityLevel).controllers a1
  have l2 := (AbsIter.runControllers_grow prog
    (a.controllers a.priorityLevel).controllers a1).2
  have v2 := AbsIter.runControllers_level prog (a.controllers a.priorityLevel).controllers a1
  generalize AbsIter.runControllers prog a1
    (a.controllers a.priorityLevel).controllers = a2 at c2 l2 v2
  rw [v1] at c2 l2 v2
  have k2 : (a2.controllers a.priorityLevel).postHooks =
      (ranLevel prog a.controllers a.priorityLevel).postHooks := by
    rw [c2, c1]
    simp [AbsIter.takePre, setLevel, ranLevel, postRegs_append, List.append_assoc]
  rw [k2]
  have c3 := AbsIter.runControllers_reg prog
    (ranLevel prog a.controllers a.priorityLevel).postHooks (a2.takePost a.priorityLevel)
  have l3 := (AbsIter.runControllers_grow prog
    (ranLevel prog a.controllers a.priorityLevel).postHooks (a2.takePost a.priorityLevel)).2
  have v3 : (a2.takePost a.priorityLevel).priorityLevel = a.priorityLevel := v2
  have g3 : (a2.takePost a.priorityLevel).log = a2.log := rfl
  rw [v3] at c3 l3
  rw [g3, l2, l1] at l3
  refine ⟨?_, ?_, ?_⟩
  · rw [l3]
    simp [levelOrder, setLevel, ranLevel, List.append_assoc]
  · rw [c3]
    simp only [AbsIter.takePost, setLevel, if_true]
    rw [c2, c1]
    simp [AbsIter.takePre, setLevel, ranLevel, levelOrder, preRegs_append, preRegs_nil,
      List.append_assoc]
  · intro j hj
    rw [c3]
    simp only [AbsIter.takePost, setLevel, if_neg hj]
    rw [c2, c1]
    simp [AbsIter.takePre, setLevel, hj, ranLevel, levelOrder, preRegs_append,
      postRegs_append, List.append_assoc]

end Framework

namespace Framework

/-- The levels `i .. i+n-1`, exactly. The log grows by the order of lists
`ran`, where at each of these levels `ran` has the controllers of the level,
its pre-hooks followed by those registered for it by the invocations before
the level began, and its post-hooks followed by those registered for it by
the invocations before they were taken. Afterwards each of these levels holds
only the hooks registered for it after its lists were taken, and every other
level has gained the hooks registered for it. -/
theorem AbsIter.runLevels_reg (prog : Program) (n : Nat) : ∀ (i : Nat) (a : AbsIter),
    ∃ ran : Nat → controllerList,
      (AbsIter.runLevels prog n i a).log = a.log ++ orderFrom ran n i ∧
      (∀ j, i ≤ j → j < i + n →
        ((ran j).controllers = (a.controllers j).controllers ∧
        (ran j).preHooks =
          (a.controllers j).preHooks ++ preRegs prog j (orderFrom ran (j - i) i) ∧
        (ran j).postHooks =
          (a.controllers j).postHooks ++ postRegs prog j
            (orderFrom ran (j - i) i ++
              ((ran j).preHooks ++ (ran j).controllers).map (fun c => (c, j))) ∧
        ((AbsIter.runLevels prog n i a).controllers j).controllers =
          (a.controllers j).controllers ∧
        ((AbsIter.runLevels prog n i a).controllers j).preHooks =
          preRegs prog j (orderFrom ran (i + n - j) j) ∧
        ((AbsIter.runLevels prog n i a).controllers j).postHooks =
          postRegs prog j
            ((ran j).postHooks.map (fun c => (c, j)) ++
              orderFrom ran (i + n - j - 1) (j + 1)))) ∧
      (∀ j, (j < i ∨ i + n ≤ j) →
        (AbsIter.runLevels prog n i a).controllers j =
          ⟨(a.controllers j).preHooks ++ preRegs prog j (orderFrom ran n i),
            (a.controllers j).controllers,
            (a.controllers j).postHooks ++ postRegs prog j (orderFrom ran n i)⟩) := by
  induction n with
  | zero =>
    intro i a
    exact ⟨a.controllers, by simp [AbsIter.runLevels, orderFrom], fun j h1 h2 => by omega,
      fun j _ => by simp [AbsIter.runLevels, orderFrom, preRegs_nil, postRegs_nil]⟩
  | succ n ih =>
    intro i a
    simp only [AbsIter.runLevels]
    obtain ⟨hlog, hci, hcj⟩ := AbsIter.runLevel_reg prog
      ⟨a.controllers, a.pending, a.store, i, a.log, a.peak⟩
    simp only at hlog hci hcj
    generalize AbsIter.runLevel prog ⟨a.controllers, a.pending, a.store, i, a.log, a.peak⟩ = a1
      at hlog hci hcj
    obtain ⟨ran', hlog', hin', hout'⟩ := ih (i + 1) a1
    obtain ⟨ran, hran_i, hran_ne⟩ : ∃ ran : Nat → controllerList,
        ran i = ranLevel prog a.controllers i ∧ ∀ j, j ≠ i → ran j = ran' j :=
      ⟨fun j => if j = i then ranLevel prog a.controllers i else ran' j, by simp,
        fun j hj => by simp [hj]⟩
    have hseg : levelOrder (setLevel a.controllers i (ranLevel prog a.controllers i)) i =
        levelOrder ran i := by
      simp [levelOrder, setLevel, hran_i]
    rw [hseg] at hlog hci hcj
    have hcong : ∀ m k, i < k → orderFrom ran m k = orderFrom ran' m k := by
      intro m k hk
      apply orderFrom_congr
      intro j h1 _
      exact hran_ne j (by omega)
    have hsucc : ∀ m, orderFrom ran (m + 1) i = levelOrder ran i ++ orderFrom ran' m (i + 1) := by
      intro m
      simp only [orderFrom]
      rw [hcong m (i + 1) (Nat.lt_succ_self i)]
    refine ⟨ran, ?_, ?_, ?_⟩
    · rw [hlog', hlog, List.append_assoc, hsucc]
    · intro j h1 h2
      by_cases hji : j = i
      · subst hji
        have hO := hout' j (Or.inl (Nat.lt_succ_self j))
        rw [hci] at hO
        simp only at hO
        have e1 : j + (n + 1) - j = n + 1 := by omega
        have e2 : j + (n + 1) - j - 1 = n := by omega
        refine ⟨?_, ?_, ?_, ?_, ?_, ?_⟩
        · rw [hran_i]; rfl
        · rw [Nat.sub_self]; simp [orderFrom, preRegs_nil, hran_i, ranLevel]
        · rw [Nat.sub_self]; simp [orderFrom, hran_i, ranLevel]
        · rw [hO]
        · rw [hO, e1, hsucc, preRegs_append]
        · rw [hO, e2, hcong n (j + 1) (Nat.lt_succ_self j), postRegs_append, hran_i]
      · obtain ⟨h1', h2', h3', h4', h5', h6'⟩ := hin' j (by omega) (by omega)
        have hj := hcj j hji
        rw [hj] at h1' h2' h3' h4'
        simp only at h1' h2' h3' h4'
        have e : j - i = (j - (i + 1)) + 1 := by omega
        have e1 : i + (n + 1) - j = i + 1 + n - j := by omega
        have hij : i < j := by omega
        refine ⟨?_, ?_, ?_, ?_, ?_, ?_⟩
        · rw [hran_ne j hji]; exact h1'
        · rw [hran_ne j hji, e, hsucc, preRegs_append, ← List.append_assoc]; exact h2'
        · rw [hran_ne j hji, e, hsucc, List.append_assoc, postRegs_append,
            ← List.append_assoc]
          exact h3'
        · exact h4'
        · rw [e1, hcong _ j hij]; exact h5'
        · rw [e1, hcong _ (j + 1) (by omega), hran_ne j hji]; exact h6'
    · intro j hj
      have hji : j ≠ i := by omega
      rw [hout' j (by omega), hcj j hji, hsucc, preRegs_append, postRegs_append]
      simp [List.append_assoc]

end Framework

namespace Framework

/-- An iteration, exactly (with the hypotheses of `runIteration_sim`): it
returns, its log is the order of lists `ran` as in `AbsIter.runLevels_reg`,
the hook lists afterwards hold only what was registered after they were taken,
and the pending list is well formed again. -/
theorem runIteration_exact (prog : Program) (hp : prog.Ok) (l : Loop)
    (ps : List Nat) (fuel : Nat) (hl : IsList l.heap l.messages ps)
    (hfuel : (AbsIter.runIteration prog l.controllers (l.heap.msgs ps)).peak ≤ fuel) :
    ∃ (t' : loopIteration) (ran : Nat → controllerList) (ps' : List Nat),
      l.runIteration prog fuel = Res.ok t' ∧
      t'.log = iterationOrder ran ∧
      (∀ j < PriorityLevels,
        (ran j).controllers = (l.controllers j).controllers ∧
        (ran j).preHooks =
          (l.controllers j).preHooks ++ preRegs prog j (orderFrom ran j 0) ∧
        (ran j).postHooks =
          (l.controllers j).postHooks ++ postRegs prog j
            (orderFrom ran j 0 ++
              ((ran j).preHooks ++ (ran j).controllers).map (fun c => (c, j))) ∧
        (t'.loop.controllers j).controllers = (l.controllers j).controllers ∧
        (t'.loop.controllers j).preHooks =
          preRegs prog j (orderFrom ran (PriorityLevels - j) j) ∧
        (t'.loop.controllers j).postHooks =
          postRegs prog j
            ((ran j).postHooks.map (fun c => (c, j)) ++
              orderFrom ran (PriorityLevels - j - 1) (j + 1))) ∧
      IsList t'.loop.heap t'.loop.messages ps' := by
  obtain ⟨t', hrun, hR⟩ := runIteration_sim prog hp fuel l ps hl hfuel
  obtain ⟨ran, hlogg, hin, _⟩ := AbsIter.runLevels_reg prog PriorityLevels 0
    ⟨l.controllers, [], l.heap.msgs ps, 0, [], 0⟩
  obtain ⟨hc, _, hlog, ys, ps', _, _, hps', _, _⟩ := hR
  refine ⟨t', ran, ps', hrun, ?_, fun j hj => ?_, hps'⟩
  · rw [hlog]
    simp only [AbsIter.runIteration, iterationOrder]
    rw [hlogg, List.nil_append]
  · have h := hin j (Nat.zero_le _) (by omega)
    simp only [Nat.sub_zero, Nat.zero_add] at h
    rw [hc]
    simp only [AbsIter.runIteration]
    exact h

/-- C8: in one iteration of a loop whose pending list is well formed, run
with controllers that never call `StopProcessing` and register hooks only at
levels of the array, whatever errors they return and whatever hooks they
register: the iteration returns, and the `Control` invocations are, for level
0 up to 15 in ascending order, the pre-hooks `(ran j).preHooks` of the level,
then its controllers in registration order, then its post-hooks
`(ran j).postHooks`, each given `PriorityLevel()` equal to that level. The
pre-hooks run are those the level had, followed by those the invocations
before the level registered for it; the post-hooks run are those the level
had, followed by those registered for it by the invocations up to the last
controller of the level. Each hook list is emptied when it is taken:
afterwards the controllers are as before, and the pre-hook list of a level
holds exactly the hooks registered for it from its own pre-hooks on, its
post-hook list exactly those registered for it from its own post-hooks on. The
next iteration returns as well and runs, as hooks, these lists followed by
what it registers itself: a registered hook runs in one iteration only. When
no controller registers a hook, the invocations are exactly the hooks and
controllers the loop had, every hook list is empty afterwards and the next
iteration runs the controllers only. -/
theorem runIteration_order (prog : Program) (hp : prog.Ok) (l : Loop)
    (ps : List Nat) (fuel : Nat) (hl : IsList l.heap l.messages ps)
    (hfuel : (AbsIter.runIteration prog l.controllers (l.heap.msgs ps)).peak ≤ fuel) :
    ∃ (t' : loopIteration) (ran : Nat → controllerList),
      l.runIteration prog fuel = Res.ok t' ∧
      t'.log = iterationOrder ran ∧
      (∀ j < PriorityLevels,
        (ran j).controllers = (l.controllers j).controllers ∧
        (ran j).preHooks =
          (l.controllers j).preHooks ++ preRegs prog j (orderFrom ran j 0) ∧
        (ran j).postHooks =
          (l.controllers j).postHooks ++ postRegs prog j
            (orderFrom ran j 0 ++
              ((ran j).preHooks ++ (ran j).controllers).map (fun c => (c, j))) ∧
        (t'.loop.controllers j).controllers = (l.controllers j).controllers ∧
        (t'.loop.controllers j).preHooks =
          preRegs prog j (orderFrom ran (PriorityLevels - j) j) ∧
        (t'.loop.controllers j).postHooks =
          postRegs prog j
            ((ran j).postHooks.map (fun c => (c, j)) ++
              orderFrom ran (PriorityLevels - j - 1) (j + 1))) ∧
      (∃ N, ∀ fuel2, N ≤ fuel2 →
        ∃ (t2 : loopIteration) (ran2 : Nat → controllerList),
          t'.loop.runIteration prog fuel2 = Res.ok t2 ∧
          t2.log = iterationOrder ran2 ∧
          ∀ j < PriorityLevels,
            (ran2 j).controllers = (l.controllers j).controllers ∧
            (ran2 j).preHooks =
              preRegs prog j (orderFrom ran (PriorityLevels - j) j) ++
                preRegs prog j (orderFrom ran2 j 0) ∧
            (ran2 j).postHooks =
              postRegs prog j
                ((ran j).postHooks.map (fun c => (c, j)) ++
                  orderFrom ran (PriorityLevels - j - 1) (j + 1)) ++
                postRegs prog j
                  (orderFrom ran2 j 0 ++
                    ((ran2 j).preHooks ++ (ran2 j).controllers).map (fun c => (c, j)))) ∧
      (prog.Static →
        t'.log = iterationOrder l.controllers ∧
        (∀ j < PriorityLevels, t'.loop.controllers j = hooksTaken l.controllers j) ∧
        ∃ N, ∀ fuel2, N ≤ fuel2 →
          ∃ t2, t'.loop.runIteration prog fuel2 = Res.ok t2 ∧
            t2.log = iterationOrder (hooksTaken l.controllers)) := by
  obtain ⟨t', ran, ps', hrun, hlog, hex, hps'⟩ :=
    runIteration_exact prog hp l ps fuel hl hfuel
  obtain ⟨t0, hrun0, hR⟩ := runIteration_sim prog hp fuel l ps hl hfuel
  have ht : t0 = t' := Res.ok.inj (hrun0.symm.trans hrun)
  subst ht
  refine ⟨t0, ran, hrun, hlog, hex, ?_, fun hs => ?_⟩
  · refine ⟨(AbsIter.runIteration prog t0.loop.controllers (t0.loop.heap.msgs ps')).peak,
      fun fuel2 hf2 => ?_⟩
    obtain ⟨t2, ran2, ps2, hrun2, hlog2, hex2, _⟩ :=
      runIteration_exact prog hp t0.loop ps' fuel2 hps' hf2
    refine ⟨t2, ran2, hrun2, hlog2, fun j hj => ?_⟩
    obtain ⟨_, _, _, k4, k5, k6⟩ := hex j hj
    obtain ⟨m1, m2, m3, _, _, _⟩ := hex2 j hj
    rw [k4] at m1
    rw [k5] at m2
    rw [k6] at m3
    exact ⟨m1, m2, m3⟩
  · obtain ⟨hlogs, hctl⟩ := AbsIter.runIteration_static prog hs l.controllers (l.heap.msgs ps)
    have hcs : ∀ j < PriorityLevels, t0.loop.controllers j = hooksTaken l.controllers j := by
      intro j hj
      rw [hR.1]
      exact hctl j hj
    refine ⟨hR.2.2.1.trans hlogs, hcs, ?_⟩
    refine ⟨(AbsIter.runIteration prog t0.loop.controllers (t0.loop.heap.msgs ps')).peak,
      fun fuel2 hf2 => ?_⟩
    obtain ⟨t2, hrun2, hR2⟩ := runIteration_sim prog hp fuel2 t0.loop ps' hps' hf2
    obtain ⟨hlog2, _⟩ := AbsIter.runIteration_static prog hs t0.loop.controllers
      (t0.loop.heap.msgs ps')
    exact ⟨t2, hrun2, (hR2.2.2.1.trans hlog2).trans
      (iterationOrder_hooksTaken l.controllers t0.loop.controllers hcs)⟩

theorem hookProg_ok : hookProg.Ok := by
  intro ctl lvl c hc
  simp only [hookProg] at hc
  split_ifs at hc <;> simp at hc
  · rcases hc with rfl | rfl | rfl <;> simp [Call.Ok, PriorityLevels]
  · subst hc; simp [Call.Ok]

/-- The program `hookProg` on `demoLoop`, run twice: in the first iteration
the hooks 9 and 7 the loop had run before the hooks 19 and 17 registered by
controller 1, and the hooks 16 (registered for level 2, already passed) and 15
(registered by a post-hook of level 4) are left; in the second iteration 16
and 15 run before what is registered anew, and 9 and 7 do not run again. -/
theorem hookProg_trace :
    ∃ t t2, demoLoop.runIteration hookProg 0 = Res.ok t ∧
      t.log = [(1, 4), (9, 4), (19, 4), (7, 8), (17, 8), (2, 8), (3, 12)] ∧
      (t.loop.controllers 2).preHooks = [16] ∧
      (t.loop.controllers 4).postHooks = [15] ∧
      (t.loop.controllers 8).preHooks = [] ∧
      t.loop.runIteration hookProg 0 = Res.ok t2 ∧
      t2.log = [(16, 2), (1, 4), (15, 4), (19, 4), (17, 8), (2, 8), (3, 12)] :=
  ⟨_, _, rfl, rfl, rfl, rfl, rfl, rfl, rfl⟩

/-- C8 on the loop of the priority-ordering scenario (controllers at levels
4, 8 and 12, a post-hook 9 at 4 and a pre-hook 7 at 8) with the program
`hookProg`, whose controller 1 registers hooks while it runs; together with
the trace of the two iterations. -/
theorem runIteration_order_witness :
    (∃ (t' : loopIteration) (ran : Nat → controllerList),
      demoLoop.runIteration hookProg 0 = Res.ok t' ∧
      t'.log = iterationOrder ran ∧
      (∀ j < PriorityLevels,
        (ran j).controllers = (demoLoop.controllers j).controllers ∧
        (ran j).preHooks =
          (demoLoop.controllers j).preHooks ++ preRegs hookProg j (orderFrom ran j 0) ∧
        (ran j).postHooks =
          (demoLoop.controllers j).postHooks ++ postRegs hookProg j
            (orderFrom ran j 0 ++
              ((ran j).preHooks ++ (ran j).controllers).map (fun c => (c, j))) ∧
        (t'.loop.controllers j).controllers = (demoLoop.controllers j).controllers ∧
        (t'.loop.controllers j).preHooks =
          preRegs hookProg j (orderFrom ran (PriorityLevels - j) j) ∧
        (t'.loop.controllers j).postHooks =
          postRegs hookProg j
            ((ran j).postHooks.map (fun c => (c, j)) ++
              orderFrom ran (PriorityLevels - j - 1) (j + 1))) ∧
      (∃ N, ∀ fuel2, N ≤ fuel2 →
        ∃ (t2 : loopIteration) (ran2 : Nat → controllerList),
          t'.loop.runIteration hookProg fuel2 = Res.ok t2 ∧
          t2.log = iterationOrder ran2 ∧
          ∀ j < PriorityLevels,
            (ran2 j).controllers = (demoLoop.controllers j).controllers ∧
            (ran2 j).preHooks =
              preRegs hookProg j (orderFrom ran (PriorityLevels - j) j) ++
                preRegs hookProg j (orderFrom ran2 j 0) ∧
            (ran2 j).postHooks =
              postRegs hookProg j
                ((ran j).postHooks.map (fun c => (c, j)) ++
                  orderFrom ran (PriorityLevels - j - 1) (j + 1)) ++
                postRegs hookProg j
                  (orderFrom ran2 j 0 ++
                    ((ran2 j).preHooks ++ (ran2 j).controllers).map (fun c => (c, j)))) ∧
      (hookProg.Static →
        t'.log = iterationOrder demoLoop.controllers ∧
        (∀ j < PriorityLevels, t'.loop.controllers j = hooksTaken demoLoop.controllers j) ∧
        ∃ N, ∀ fuel2, N ≤ fuel2 →
          ∃ t2, t'.loop.runIteration hookProg fuel2 = Res.ok t2 ∧
            t2.log = iterationOrder (hooksTaken demoLoop.controllers))) ∧
    ∃ t t2, demoLoop.runIteration hookProg 0 = Res.ok t ∧
      t.log = [(1, 4), (9, 4), (19, 4), (7, 8), (17, 8), (2, 8), (3, 12)] ∧
      (t.loop.controllers 2).preHooks = [16] ∧
      (t.loop.controllers 4).postHooks = [15] ∧
      (t.loop.controllers 8).preHooks = [] ∧
      t.loop.runIteration hookProg 0 = Res.ok t2 ∧
      t2.log = [(16, 2), (1, 4), (15, 4), (19, 4), (17, 8), (2, 8), (3, 12)] :=
  ⟨runIteration_order hookProg hookProg_ok demoLoop [0, 1, 2] 0 store3_isList (by decide),
    hookProg_trace⟩

end Framework

/-! ## The iteration: what becomes of the messages -/

namespace Framework

theorem passSpec_sublist {σ : Type} (proc : Processor σ) : ∀ (ms kept : List Message) (st : σ),
    kept.Sublist ms → (∀ m ∈ kept, ∀ s, (proc s m).2.taken = false) →
    kept.Sublist (passSpec proc st ms).kept := by
  intro ms
  induction ms with
  | nil => intro kept st h _; simpa [passSpec] using h
  | cons m ms ih =>
    intro kept st h hnt
    simp only [passSpec]
    cases h with
    | cons _ h' =>
      have := ih kept (proc st m).1 h' hnt
      split_ifs
      · exact this
      · exact List.Sublist.cons _ this
    | cons₂ _ h' =>
      rename_i kept'
      have hm : (proc st m).2.taken = false := hnt m (List.mem_cons_self _ _) st
      have := ih kept' (proc st m).1 h' (fun x hx => hnt x (List.mem_cons_of_mem _ hx))
      simp only [hm, Bool.false_eq_true, if_false]
      exact List.Sublist.cons₂ _ this

/-- What every call of the controllers keeps true, the rest of the
iteration keeps true, when it only speaks of the two message lists. -/
theorem AbsIter.runLevels_inv (prog : Program) (P : List Message → List Message → Prop)
    (hstep : ∀ (a : AbsIter) ctl lvl, ∀ c ∈ (prog ctl lvl).1, P a.store a.pending →
      P (a.doCall c).store (a.doCall c).pending) :
    ∀ (n i : Nat) (a : AbsIter), P a.store a.pending →
      P (AbsIter.runLevels prog n i a).store (AbsIter.runLevels prog n i a).pending := by
  have hcalls : ∀ (cs : List Call), (∀ c ∈ cs, ∃ ctl lvl, c ∈ (prog ctl lvl).1) →
      ∀ a : AbsIter, P a.store a.pending → P (a.doCalls cs).store (a.doCalls cs).pending := by
    intro cs
    induction cs with
    | nil => intro _ a h; exact h
    | cons c cs ih =>
      intro hmem a h
      obtain ⟨ctl, lvl, hc⟩ := hmem c (List.mem_cons_self _ _)
      exact ih (fun x hx => hmem x (List.mem_cons_of_mem _ hx)) _ (hstep a ctl lvl c hc h)
  have hctls : ∀ (ctls : List Nat) (a : AbsIter), P a.store a.pending →
      P (a.runControllers prog ctls).store (a.runControllers prog ctls).pending := by
    intro ctls
    induction ctls with
    | nil => intro a h; exact h
    | cons c cs ih =>
      intro a h
      simp only [AbsIter.runControllers]
      exact ih _ (hcalls _ (fun x hx => ⟨c, a.priorityLevel, hx⟩)
        ⟨a.controllers, a.pending, a.store, a.priorityLevel, a.log ++ [(c, a.priorityLevel)],
          a.peak⟩ h)
  have hlevel : ∀ a : AbsIter, P a.store a.pending →
      P (a.runLevel prog).store (a.runLevel prog).pending := by
    intro a h
    simp only [AbsIter.runLevel]
    exact hctls _ (AbsIter.takePost _ _) (hctls _ _ (hctls _ (a.takePre a.priorityLevel) h))
  intro n
  induction n with
  | zero => intro i a h; exact h
  | succ n ih =>
    intro i a h
    simp only [AbsIter.runLevels]
    exact ih (i + 1) _ (hlevel ⟨a.controllers, a.pending, a.store, i, a.log, a.peak⟩ h)

/-- On lists: messages that no processor takes stay in the store, in their
order, to the end of the iteration, and the pending list then holds only
messages that a controller posted. -/
theorem AbsIter.runIteration_messages (prog : Program) (cs : Nat → controllerList)
    (pending kept : List Message) (hk : kept.Sublist pending)
    (hnt : ∀ m ∈ kept, prog.NeverTakes m) :
    kept.Sublist (AbsIter.runIteration prog cs pending).store ∧
    ∀ m ∈ (AbsIter.runIteration prog cs pending).pending, prog.Posts m := by
  have h := AbsIter.runLevels_inv prog
    (fun store pend => kept.Sublist store ∧ ∀ m ∈ pend, prog.Posts m) ?_
    PriorityLevels 0 ⟨cs, [], pending, 0, [], 0⟩ ⟨hk, by simp⟩
  · exact h
  · intro a ctl lvl c hc hP
    obtain ⟨h1, h2⟩ := hP
    cases c with
    | processMessages proc st =>
      refine ⟨?_, h2⟩
      show kept.Sublist ((passSpec proc st a.store).kept ++ (passSpec proc st a.store).added)
      exact (passSpec_sublist proc a.store kept st h1
        (fun m hm s => hnt m hm ctl lvl proc st hc s)).trans (List.sublist_append_left _ _)
    | addMessages ms => exact ⟨h1.trans (List.sublist_append_left _ _), h2⟩
    | postMessage m =>
      refine ⟨h1, ?_⟩
      intro x hx
      rcases List.mem_append.mp hx with hx | hx
      · exact h2 x hx
      · simp only [List.mem_singleton] at hx
        exact ⟨ctl, lvl, hx ▸ hc⟩
    | preRunAt level hooks => exact ⟨h1, h2⟩
    | postRunAt level hooks => exact ⟨h1, h2⟩
    | postRun hooks => exact ⟨h1, h2⟩
    | triggerNext => exact ⟨h1, h2⟩

end Framework

namespace Framework

/-- C7 as stated fails: in a loop without controllers the messages 10, 20,
30 are in the store of an iteration and nobody takes them (they are still
there when the iteration ends), yet the store of the next iteration is
empty, at its start and at its end: `runIteration` drops the iteration, and
its store with it. -/
theorem untaken_message_not_carried_over :
    ∃ t' t2, quietLoop.runIteration idleProg 0 = Res.ok t' ∧
      t'.stored = [10, 20, 30] ∧
      t'.loop.beginIteration.stored = [] ∧
      t'.loop.runIteration idleProg 0 = Res.ok t2 ∧
      t2.stored = [] :=
  ⟨_, _, rfl, rfl, rfl, rfl, rfl⟩

/-- C7, amended: messages that are in the store of an iteration (the list
`kept`, in store order) and that no controller takes stay in that store, in
their order, until the iteration ends; they are not carried over: the store
of the next iteration is the pending list of the loop, which holds only
messages that a controller passed to `PostMessage`. -/
theorem untaken_stays_until_iteration_ends (prog : Program) (hp : prog.Ok) (l : Loop)
    (ps : List Nat) (fuel : Nat) (kept : List Message)
    (hl : IsList l.heap l.messages ps)
    (hfuel : (AbsIter.runIteration prog l.controllers (l.heap.msgs ps)).peak ≤ fuel)
    (hk : kept.Sublist (l.heap.msgs ps)) (hnt : ∀ m ∈ kept, prog.NeverTakes m) :
    ∃ t' ys ps', l.runIteration prog fuel = Res.ok t' ∧
      IsList l.heap l.beginIteration.messages ps ∧
      IsList t'.loop.heap t'.messages ys ∧
      kept.Sublist (t'.loop.heap.msgs ys) ∧
      IsList t'.loop.heap t'.loop.beginIteration.messages ps' ∧
      (∀ m ∈ t'.loop.heap.msgs ps', prog.Posts m) := by
  obtain ⟨t', hrun, hR⟩ := runIteration_sim prog hp fuel l ps hl hfuel
  obtain ⟨h1, h2⟩ := AbsIter.runIteration_messages prog l.controllers (l.heap.msgs ps) kept hk hnt
  obtain ⟨_, _, _, ys, ps', hys, hmy, hps', hmp', _⟩ := hR
  refine ⟨t', ys, ps', hrun, ⟨hl.1, hl.2.1, hl.2.2⟩, hys, ?_, ⟨hps'.1, hps'.2.1, hps'.2.2⟩, ?_⟩
  · rw [hmy]; exact h1
  · rw [hmp']; exact h2

theorem calmProg_ok : calmProg.Ok := by
  intro ctl lvl c hc
  simp only [calmProg] at hc
  split_ifs at hc <;> simp at hc
  · rcases hc with rfl | rfl <;> simp [Call.Ok]
  · subst hc; simp [Call.Ok, takesOnly20]

theorem calmProg_neverTakes : ∀ m ∈ [10, 30], calmProg.NeverTakes m := by
  intro m hm ctl lvl proc st hc s
  simp only [calmProg] at hc
  split_ifs at hc <;> simp at hc
  obtain ⟨rfl, _⟩ := hc
  simp only [List.mem_cons, List.mem_singleton, List.not_mem_nil, or_false] at hm
  rcases hm with rfl | rfl <;> rfl

/-- C7, amended, on the loop with controllers at levels 4, 8 and 12 and the
messages 10, 20, 30: controller 2 takes 20; 10 and 30 stay. -/
theorem untaken_stays_until_iteration_ends_witness :
    ∃ t' ys ps', demoLoop.runIteration calmProg 4 = Res.ok t' ∧
      IsList demoLoop.heap demoLoop.beginIteration.messages [0, 1, 2] ∧
      IsList t'.loop.heap t'.messages ys ∧
      [10, 30].Sublist (t'.loop.heap.msgs ys) ∧
      IsList t'.loop.heap t'.loop.beginIteration.messages ps' ∧
      (∀ m ∈ t'.loop.heap.msgs ps', calmProg.Posts m) :=
  untaken_stays_until_iteration_ends calmProg calmProg_ok demoLoop [0, 1, 2] 4 [10, 30]
    store3_isList (by decide) (by decide) calmProg_neverTakes

end Framework

/-! ## L1 connection: pending list and sequence map -/

namespace L1

theorem nextSeq_succ (seq : Nat) (h : seq + 1 < 2 ^ 32) : nextSeq seq = seq + 1 := by
  have h1 : (seq + 1) % 2 ^ 32 = seq + 1 := Nat.mod_eq_of_lt h
  unfold nextSeq
  rw [h1, if_neg (Nat.succ_ne_zero seq)]

theorem mem_listRemove (l : List commandFuture) (f g : commandFuture) :
    g ∈ listRemove l f ↔ g ∈ l ∧ g.id ≠ f.id := by
  simp [listRemove]

theorem eq_of_id_eq {l : List commandFuture} (hnd : (l.map (fun g => g.id)).Nodup)
    {f g : commandFuture} (hf : f ∈ l) (hg : g ∈ l) (h : f.id = g.id) : f = g := by
  induction l with
  | nil => simp at hf
  | cons x xs ih =>
    simp only [List.map_cons, List.nodup_cons, List.mem_map, not_exists, not_and] at hnd
    rcases List.mem_cons.mp hf with rfl | hf' <;> rcases List.mem_cons.mp hg with rfl | hg'
    · rfl
    · exact absurd h.symm (hnd.1 g hg')
    · exact absurd h (hnd.1 f hf')
    · exact ih hnd.2 hf' hg'

theorem resolved_append (a b : List Effect) : resolved (a ++ b) = resolved a ++ resolved b := by
  induction a with
  | nil => rfl
  | cons e es ih => cases e <;> simp [resolved, ih]

/-- `DoCommand` keeps `Sound`. -/
theorem sound_doCommand (c : ControllerConn) (now : Int) (sendErr : Option Nat)
    (res : List Nat) (h : Sound c.commands c.seqMap c.nextId res) :
    Sound (c.DoCommand now sendErr).1.commands (c.DoCommand now sendErr).1.seqMap
      (c.DoCommand now sendErr).1.nextId (res ++ resolved (c.DoCommand now sendErr).2.2) := by
  obtain ⟨hM, hU, hB, hR, hN⟩ := h
  cases sendErr with
  | some e =>
    simp only [ControllerConn.DoCommand, resolved]
    refine ⟨hM, hU, fun g hg => Nat.lt_succ_of_lt (hB g hg), ?_, ?_⟩
    · intro i hi
      rcases List.mem_append.mp hi with hi | hi
      · exact ⟨Nat.lt_succ_of_lt (hR i hi).1, (hR i hi).2⟩
      · simp only [List.mem_singleton] at hi
        subst hi
        exact ⟨Nat.lt_succ_self _, fun g hg => Nat.ne_of_lt (hB g hg)⟩
    · rw [List.nodup_append]
      refine ⟨hN, by simp, ?_⟩
      intro i hi hj
      simp only [List.mem_singleton] at hj
      exact Nat.lt_irrefl _ (hj ▸ (hR i hi).1)
  | none =>
    simp only [ControllerConn.DoCommand, resolved, List.append_nil]
    refine ⟨?_, ?_, ?_, ?_, hN⟩
    · intro s g hg
      simp only [mapStore] at hg
      split_ifs at hg with hs
      · simp only [Option.some.injEq] at hg
        subst hg
        exact ⟨by simp, hs.symm⟩
      · exact ⟨List.mem_append_left _ (hM s g hg).1, (hM s g hg).2⟩
    · rw [List.map_append, List.nodup_append]
      refine ⟨hU, by simp, ?_⟩
      intro i hi hj
      simp only [List.map_cons, List.map_nil, List.mem_singleton] at hj
      obtain ⟨g, hg, rfl⟩ := List.mem_map.mp hi
      exact Nat.lt_irrefl _ (hj ▸ hB g hg)
    · intro g hg
      rcases List.mem_append.mp hg with hg | hg
      · exact Nat.lt_succ_of_lt (hB g hg)
      · simp only [List.mem_singleton] at hg
        subst hg
        exact Nat.lt_succ_self _
    · intro i hi
      refine ⟨Nat.lt_succ_of_lt (hR i hi).1, fun g hg => ?_⟩
      rcases List.mem_append.mp hg with hg | hg
      · exact (hR i hi).2 g hg
      · simp only [List.mem_singleton] at hg
        subst hg
        exact (Nat.ne_of_lt (hR i hi).1).symm

theorem handleTypedMsg_event (c : ControllerConn) (msg : Message) (typed : Typed)
    (hev : typed.IsEvent = true) :
    c.handleTypedMsg msg typed = (c, [Effect.postMessage msg, Effect.triggerNext]) := by
  simp [ControllerConn.handleTypedMsg, hev]

theorem handleTypedMsg_miss (c : ControllerConn) (msg : Message) (typed : Typed)
    (hev : typed.IsEvent = false) (hlook : c.seqMap typed.Sequence = none) :
    c.handleTypedMsg msg typed = (c, []) := by
  simp [ControllerConn.handleTypedMsg, hev, hlook]

theorem handleTypedMsg_hit (c : ControllerConn) (msg : Message) (typed : Typed)
    (f : commandFuture) (hev : typed.IsEvent = false)
    (hlook : c.seqMap typed.Sequence = some f) :
    c.handleTypedMsg msg typed =
      (⟨c.Expiration, c.seq, listRemove c.commands f, mapDelete c.seqMap typed.Sequence,
          c.nextId⟩,
        [Effect.send f.id (replyResult msg), Effect.close f.id]) := by
  simp [ControllerConn.handleTypedMsg, hev, hlook]

/-- `handleTypedMsg` keeps `Sound`. -/
theorem sound_handleTypedMsg (c : ControllerConn) (msg : Message) (typed : Typed)
    (res : List Nat) (h : Sound c.commands c.seqMap c.nextId res) :
    Sound (c.handleTypedMsg msg typed).1.commands (c.handleTypedMsg msg typed).1.seqMap
      (c.handleTypedMsg msg typed).1.nextId (res ++ resolved (c.handleTypedMsg msg typed).2) := by
  obtain ⟨hM, hU, hB, hR, hN⟩ := h
  by_cases hev : typed.IsEvent = true
  · rw [handleTypedMsg_event c msg typed hev]
    simp only [resolved, List.append_nil]
    exact ⟨hM, hU, hB, hR, hN⟩
  · have hev : typed.IsEvent = false := by simpa using hev
    cases hlook : c.seqMap typed.Sequence with
    | none =>
      rw [handleTypedMsg_miss c msg typed hev hlook]
      simp only [resolved, List.append_nil]
      exact ⟨hM, hU, hB, hR, hN⟩
    | some f =>
      obtain ⟨hf, hfs⟩ := hM _ f hlook
      rw [handleTypedMsg_hit c msg typed f hev hlook]
      simp only [resolved]
      refine ⟨?_, ?_, ?_, ?_, ?_⟩
      · intro s g hg
        simp only [mapDelete] at hg
        split_ifs at hg with hs
        obtain ⟨hg1, hg2⟩ := hM s g hg
        refine ⟨(mem_listRemove _ _ _).2 ⟨hg1, fun hid => hs ?_⟩, hg2⟩
        have := eq_of_id_eq hU hg1 hf hid
        rw [← hg2, this, hfs]
      · exact (List.filter_sublist _).map _ |>.nodup hU
      · exact fun g hg => hB g ((mem_listRemove _ _ _).1 hg).1
      · intro i hi
        rcases List.mem_append.mp hi with hi | hi
        · exact ⟨(hR i hi).1, fun g hg => (hR i hi).2 g ((mem_listRemove _ _ _).1 hg).1⟩
        · simp only [List.mem_singleton] at hi
          subst hi
          exact ⟨hB f hf, fun g hg => ((mem_listRemove _ _ _).1 hg).2⟩
      · rw [List.nodup_append]
        refine ⟨hN, by simp, ?_⟩
        intro i hi hj
        simp only [List.mem_singleton] at hj
        subst hj
        exact (hR _ hi).2 f hf rfl

end L1


namespace L1

theorem eq_of_key_eq (k : commandFuture → Nat) {l : List commandFuture}
    (hnd : (l.map k).Nodup) {f g : commandFuture} (hf : f ∈ l) (hg : g ∈ l)
    (h : k f = k g) : f = g := by
  induction l with
  | nil => simp at hf
  | cons x xs ih =>
    simp only [List.map_cons, List.nodup_cons, List.mem_map, not_exists, not_and] at hnd
    rcases List.mem_cons.mp hf with rfl | hf1 <;> rcases List.mem_cons.mp hg with rfl | hg1
    · rfl
    · exact absurd h.symm (hnd.1 g hg1)
    · exact absurd h (hnd.1 f hf1)
    · exact ih hnd.2 hf1 hg1

/-- The loop of `purgeExpired` keeps `Sound`. -/
theorem sound_purgeLoop (now : Int) (n : Nat) :
    ∀ (l : List commandFuture) (m : Nat → Option commandFuture) (res : List Nat),
      Sound l m n res →
      Sound (purgeLoop now l m).1 (purgeLoop now l m).2.1 n
        (res ++ resolved (purgeLoop now l m).2.2) := by
  intro l
  induction l with
  | nil =>
    intro m res h
    simpa [purgeLoop, resolved] using h
  | cons f rest ih =>
    intro m res h
    by_cases hx : f.expireAt > now
    · simpa [purgeLoop, hx, resolved] using h
    · obtain ⟨hM, hU, hB, hR, hN⟩ := h
      simp only [List.map_cons, List.nodup_cons, List.mem_map, not_exists, not_and] at hU
      have hnext : Sound rest (mapDelete m f.seq) n (res ++ [f.id]) := by
        refine ⟨?_, hU.2, fun g hg => hB g (List.mem_cons_of_mem _ hg), ?_, ?_⟩
        · intro s g hg
          simp only [mapDelete] at hg
          split_ifs at hg with hs
          obtain ⟨hg1, hg2⟩ := hM s g hg
          rcases List.mem_cons.mp hg1 with rfl | hg1
          · exact absurd hg2.symm hs
          · exact ⟨hg1, hg2⟩
        · intro i hi
          rcases List.mem_append.mp hi with hi | hi
          · exact ⟨(hR i hi).1, fun g hg => (hR i hi).2 g (List.mem_cons_of_mem _ hg)⟩
          · simp only [List.mem_singleton] at hi
            subst hi
            exact ⟨hB f (List.mem_cons_self _ _), fun g hg => hU.1 g hg⟩
        · rw [List.nodup_append]
          refine ⟨hN, by simp, ?_⟩
          intro i hi hj
          simp only [List.mem_singleton] at hj
          subst hj
          exact (hR _ hi).2 f (List.mem_cons_self _ _) rfl
      have := ih (mapDelete m f.seq) (res ++ [f.id]) hnext
      simpa [purgeLoop, hx, resolved, List.append_assoc] using this

/-- `DoCommand` keeps `Complete` while the sequence does not wrap. -/
theorem complete_doCommand (c : ControllerConn) (now : Int) (sendErr : Option Nat)
    (hlt : c.seq + 1 < 2 ^ 32) (h : Complete c.commands c.seqMap c.seq) :
    Complete (c.DoCommand now sendErr).1.commands (c.DoCommand now sendErr).1.seqMap
      (c.DoCommand now sendErr).1.seq ∧ (c.DoCommand now sendErr).1.seq = c.seq + 1 := by
  obtain ⟨hL, hD, hC⟩ := h
  have hn := nextSeq_succ c.seq hlt
  cases sendErr with
  | some e =>
    simp only [ControllerConn.DoCommand, hn]
    exact ⟨⟨fun g hg => Nat.le_succ_of_le (hL g hg), hD, hC⟩, trivial⟩
  | none =>
    simp only [ControllerConn.DoCommand, hn]
    refine ⟨⟨?_, ?_, ?_⟩, trivial⟩
    · intro g hg
      rcases List.mem_append.mp hg with hg | hg
      · exact Nat.le_succ_of_le (hL g hg)
      · simp only [List.mem_singleton] at hg
        subst hg
        exact Nat.le_refl _
    · rw [List.map_append, List.nodup_append]
      refine ⟨hD, by simp, ?_⟩
      intro i hi hj
      simp only [List.map_cons, List.map_nil, List.mem_singleton] at hj
      obtain ⟨g, hg, rfl⟩ := List.mem_map.mp hi
      have := hL g hg
      omega
    · intro g hg
      rcases List.mem_append.mp hg with hg | hg
      · have := hL g hg
        have hne : g.seq ≠ c.seq + 1 := by omega
        simp only [mapStore, hne, if_false]
        exact hC g hg
      · simp only [List.mem_singleton] at hg
        subst hg
        simp [mapStore]

/-- `handleTypedMsg` keeps `Complete`. -/
theorem complete_handleTypedMsg (c : ControllerConn) (msg : Message) (typed : Typed)
    (hM : ∀ s g, c.seqMap s = some g → g ∈ c.commands ∧ g.seq = s)
    (h : Complete c.commands c.seqMap c.seq) :
    Complete (c.handleTypedMsg msg typed).1.commands (c.handleTypedMsg msg typed).1.seqMap
      (c.handleTypedMsg msg typed).1.seq := by
  obtain ⟨hL, hD, hC⟩ := h
  by_cases hev : typed.IsEvent = true
  · rw [handleTypedMsg_event c msg typed hev]
    exact ⟨hL, hD, hC⟩
  · have hev : typed.IsEvent = false := by simpa using hev
    cases hlook : c.seqMap typed.Sequence with
    | none =>
      rw [handleTypedMsg_miss c msg typed hev hlook]
      exact ⟨hL, hD, hC⟩
    | some f =>
      obtain ⟨hf, hfs⟩ := hM _ f hlook
      rw [handleTypedMsg_hit c msg typed f hev hlook]
      refine ⟨fun g hg => hL g ((mem_listRemove _ _ _).1 hg).1, ?_, ?_⟩
      · exact (List.filter_sublist _).map _ |>.nodup hD
      · intro g hg
        obtain ⟨hg1, hg2⟩ := (mem_listRemove _ _ _).1 hg
        have hne : g.seq ≠ typed.Sequence := by
          intro hs
          apply hg2
          rw [eq_of_key_eq (fun g => g.seq) hD hg1 hf (hs.trans hfs.symm)]
        simp only [mapDelete, hne, if_false]
        exact hC g hg1

/-- The loop of `purgeExpired` keeps `Complete`. -/
theorem complete_purgeLoop (now : Int) (seq : Nat) :
    ∀ (l : List commandFuture) (m : Nat → Option commandFuture),
      Complete l m seq → Complete (purgeLoop now l m).1 (purgeLoop now l m).2.1 seq := by
  intro l
  induction l with
  | nil =>
    intro m h
    simpa [purgeLoop] using h
  | cons f rest ih =>
    intro m h
    by_cases hx : f.expireAt > now
    · simpa [purgeLoop, hx] using h
    · obtain ⟨hL, hD, hC⟩ := h
      simp only [List.map_cons, List.nodup_cons, List.mem_map, not_exists, not_and] at hD
      have hnext : Complete rest (mapDelete m f.seq) seq := by
        refine ⟨fun g hg => hL g (List.mem_cons_of_mem _ hg), hD.2, ?_⟩
        intro g hg
        have hne : g.seq ≠ f.seq := hD.1 g hg
        simp only [mapDelete, hne, if_false]
        exact hC g (List.mem_cons_of_mem _ hg)
      have := ih (mapDelete m f.seq) hnext
      simpa [purgeLoop, hx] using this

end L1


namespace L1

theorem conn_run_nil (c : ControllerConn) : c.run [] = (c, []) := rfl

theorem conn_run_cons (c : ControllerConn) (op : Op) (ops : List Op) :
    c.run (op :: ops) = (((c.step op).1.run ops).1, (c.step op).2 ++ ((c.step op).1.run ops).2) :=
  rfl

theorem conn_run_append (c : ControllerConn) (a b : List Op) :
    (c.run (a ++ b)).1 = ((c.run a).1.run b).1 := by
  induction a generalizing c with
  | nil => rfl
  | cons op ops ih =>
    rw [List.cons_append, conn_run_cons, conn_run_cons]
    exact ih _

/-- One operation keeps `Sound`, and keeps `Complete` unless the sequence wraps. -/
theorem step_inv (c : ControllerConn) (op : Op) (res : List Nat)
    (hS : Sound c.commands c.seqMap c.nextId res) :
    Sound (c.step op).1.commands (c.step op).1.seqMap (c.step op).1.nextId
        (res ++ resolved (c.step op).2) ∧
      (c.seq + commandCount [op] < 2 ^ 32 → Complete c.commands c.seqMap c.seq →
        Complete (c.step op).1.commands (c.step op).1.seqMap (c.step op).1.seq ∧
          (c.step op).1.seq = c.seq + commandCount [op]) := by
  cases op with
  | doCommand now sendErr =>
    refine ⟨sound_doCommand c now sendErr res hS, fun hlt hC => ?_⟩
    exact complete_doCommand c now sendErr hlt hC
  | inbound msg typed =>
    refine ⟨sound_handleTypedMsg c msg typed res hS, fun _ hC => ?_⟩
    refine ⟨complete_handleTypedMsg c msg typed hS.1 hC, ?_⟩
    simp only [ControllerConn.step, ControllerConn.handleTypedMsg, commandCount]
    split
    · rfl
    · split <;> rfl
  | sweep now =>
    refine ⟨sound_purgeLoop now c.nextId c.commands c.seqMap res hS, fun _ hC => ?_⟩
    exact ⟨complete_purgeLoop now c.seq c.commands c.seqMap hC, rfl⟩

theorem commandCount_cons (op : Op) (ops : List Op) :
    commandCount (op :: ops) = commandCount [op] + commandCount ops := by
  simp only [commandCount, List.countP_cons, List.countP_nil]
  omega

/-- Operations keep `Sound`, and keep `Complete` while the sequence does not wrap. -/
theorem conn_run_inv (ops : List Op) :
    ∀ (c : ControllerConn) (res : List Nat), Sound c.commands c.seqMap c.nextId res →
      Sound (c.run ops).1.commands (c.run ops).1.seqMap (c.run ops).1.nextId
          (res ++ resolved (c.run ops).2) ∧
        (c.seq + commandCount ops < 2 ^ 32 → Complete c.commands c.seqMap c.seq →
          Complete (c.run ops).1.commands (c.run ops).1.seqMap (c.run ops).1.seq) := by
  induction ops with
  | nil =>
    intro c res hS
    simp only [conn_run_nil, resolved, List.append_nil]
    exact ⟨hS, fun _ hC => hC⟩
  | cons op ops ih =>
    intro c res hS
    obtain ⟨hS1, hC1⟩ := step_inv c op res hS
    obtain ⟨hS2, hC2⟩ := ih (c.step op).1 _ hS1
    rw [conn_run_cons]
    refine ⟨?_, fun hlt hC => ?_⟩
    · simpa only [resolved_append, List.append_assoc] using hS2
    · rw [commandCount_cons] at hlt
      obtain ⟨hC3, hseq⟩ := hC1 (by omega) hC
      exact hC2 (by omega) hC3

theorem sound_init (expiration : Int) :
    Sound (ControllerConn.Init expiration).commands (ControllerConn.Init expiration).seqMap
      (ControllerConn.Init expiration).nextId [] := by
  simp [Sound, ControllerConn.Init]

theorem complete_init (expiration : Int) :
    Complete (ControllerConn.Init expiration).commands (ControllerConn.Init expiration).seqMap
      (ControllerConn.Init expiration).seq := by
  simp [Complete, ControllerConn.Init]

/-- Failed sends only advance the sequence. -/
theorem run_failed_sends (now : Int) (e : Nat) :
    ∀ (k : Nat) (c : ControllerConn), c.seq + k < 2 ^ 32 →
      (c.run (List.replicate k (Op.doCommand now (some e)))).1 =
        ⟨c.Expiration, c.seq + k, c.commands, c.seqMap, c.nextId + k⟩ := by
  intro k
  induction k with
  | zero => intro c _; rfl
  | succ k ih =>
    intro c hlt
    rw [List.replicate_succ, conn_run_cons, ih _ ?_]
    · simp only [ControllerConn.step, ControllerConn.DoCommand, nextSeq_succ c.seq (by omega)]
      congr 1 <;> omega
    · simp only [ControllerConn.step, ControllerConn.DoCommand, nextSeq_succ c.seq (by omega)]
      omega

end L1


namespace L1

theorem wrapOps_state :
    ((ControllerConn.Init 1000000000).run wrapOps).1 =
      ⟨1000000000, 1, [⟨0, 1, 1000000000⟩, ⟨4294967295, 1, 1000000000⟩],
        mapStore (mapStore (fun _ => none) 1 ⟨0, 1, 1000000000⟩) 1 ⟨4294967295, 1, 1000000000⟩,
        4294967296⟩ := by
  have hA : ((ControllerConn.Init 1000000000).run [Op.doCommand 0 none]).1 =
      ⟨1000000000, 1, [⟨0, 1, 1000000000⟩], mapStore (fun _ => none) 1 ⟨0, 1, 1000000000⟩,
        1⟩ := rfl
  unfold wrapOps
  rw [conn_run_append, conn_run_append, hA, run_failed_sends 0 0 (2 ^ 32 - 2) _ (by decide)]
  rfl

/-- C9, as stated, fails once a sequence number is reused: after a command
that stays pending, `2^32 - 2` commands whose send fails and one more command,
the first future is still in the pending list, but the map holds the last
future under the sequence they share. -/
theorem pending_future_not_in_map_after_wrap :
    ∃ f, f ∈ ((ControllerConn.Init 1000000000).run wrapOps).1.commands ∧
      ((ControllerConn.Init 1000000000).run wrapOps).1.seqMap f.seq ≠ some f := by
  rw [wrapOps_state]
  exact ⟨⟨0, 1, 1000000000⟩, by simp, by simp [mapStore]⟩

/-- C9, amended: after any operations on a connection fresh from `Init`, a
future the sequence map holds is in the pending list under its own sequence; a
future that has been sent a result is in neither structure; no future is sent
more than one result; and as long as fewer than `2^32` calls of `DoCommand`
have been made, a future is in the pending list exactly when the map maps its
sequence to it. -/
theorem pending_list_and_map_agree (expiration : Int) (ops : List Op) :
    (∀ s f, ((ControllerConn.Init expiration).run ops).1.seqMap s = some f →
      f ∈ ((ControllerConn.Init expiration).run ops).1.commands ∧ f.seq = s) ∧
    (∀ i ∈ resolved ((ControllerConn.Init expiration).run ops).2,
      (∀ f ∈ ((ControllerConn.Init expiration).run ops).1.commands, f.id ≠ i) ∧
      (∀ s f, ((ControllerConn.Init expiration).run ops).1.seqMap s = some f → f.id ≠ i)) ∧
    (resolved ((ControllerConn.Init expiration).run ops).2).Nodup ∧
    (commandCount ops < 2 ^ 32 →
      ∀ f, f ∈ ((ControllerConn.Init expiration).run ops).1.commands ↔
        ((ControllerConn.Init expiration).run ops).1.seqMap f.seq = some f) := by
  obtain ⟨⟨hM, _, _, hR, hN⟩, hC⟩ :=
    conn_run_inv ops (ControllerConn.Init expiration) [] (sound_init expiration)
  simp only [List.nil_append] at hR hN
  refine ⟨hM, fun i hi => ⟨(hR i hi).2, fun s f hf => (hR i hi).2 f (hM s f hf).1⟩, hN, ?_⟩
  intro hlt f
  have hlt2 : (ControllerConn.Init expiration).seq + commandCount ops < 2 ^ 32 := by
    simpa [ControllerConn.Init] using hlt
  exact ⟨fun hf => (hC hlt2 (complete_init expiration)).2.2 f hf, fun hf => (hM _ f hf).1⟩

/-- C9, amended, on `sampleOps`: the futures 1, 0 and 2 were sent one result
each, future 3 is pending, and the list and the map agree. -/
theorem pending_list_and_map_agree_witness :
    commandCount sampleOps < 2 ^ 32 ∧
    resolved ((ControllerConn.Init 1000000000).run sampleOps).2 = [1, 0, 2] ∧
    ((ControllerConn.Init 1000000000).run sampleOps).1.commands = [⟨3, 4, 7000000000⟩] ∧
    (∀ f, f ∈ ((ControllerConn.Init 1000000000).run sampleOps).1.commands ↔
      ((ControllerConn.Init 1000000000).run sampleOps).1.seqMap f.seq = some f) :=
  ⟨by decide, by decide, by decide,
    (pending_list_and_map_agree 1000000000 sampleOps).2.2.2 (by decide)⟩

end L1


/-! ## L1 connection: the inbound handler -/

namespace L1

theorem replyResult_msg (msg : Message) : (replyResult msg).Msg = some msg := by
  cases msg <;> rfl

theorem replyResult_err (msg : Message) (e : Error) :
    (replyResult msg).Err = some e ↔ ∃ t, msg = Message.commandErr t ∧ e = Error.commandErr t := by
  cases msg with
  | commandErr t =>
    simp only [replyResult, Option.some.injEq, Message.commandErr.injEq]
    exact ⟨fun h => ⟨t, rfl, h.symm⟩, fun ⟨_, h1, h2⟩ => by rw [h2, h1]⟩
  | other b => simp [replyResult]

theorem wrapOps_reply_state :
    ((ControllerConn.Init 1000000000).run (wrapOps ++ [Op.inbound okReply (replyFor 1)])).1 =
      ⟨1000000000, 1, [⟨0, 1, 1000000000⟩],
        mapDelete (mapStore (mapStore (fun _ => none) 1 ⟨0, 1, 1000000000⟩) 1
          ⟨4294967295, 1, 1000000000⟩) 1,
        4294967296⟩ := by
  rw [conn_run_append, wrapOps_state]
  have hlook : (⟨1000000000, 1, [⟨0, 1, 1000000000⟩, ⟨4294967295, 1, 1000000000⟩],
      mapStore (mapStore (fun _ => none) 1 ⟨0, 1, 1000000000⟩) 1 ⟨4294967295, 1, 1000000000⟩,
      4294967296⟩ : ControllerConn).seqMap (replyFor 1).Sequence =
        some ⟨4294967295, 1, 1000000000⟩ := by
    simp [mapStore, replyFor]
  have hstep := handleTypedMsg_hit _ okReply (replyFor 1) _ (by decide) hlook
  rw [conn_run_cons, conn_run_nil]
  simp only [ControllerConn.step]
  rw [hstep]
  simp [listRemove, replyFor]

/-- C10, as stated, fails once a sequence number has been reused. After the
operations `wrapOps` the futures 0 and 4294967295 are both pending with
sequence 1; a reply for sequence 1 resolves future 4294967295, the one the map
holds. Future 0 is then still in the pending list with sequence 1, and a
further reply for sequence 1 delivers nothing and changes nothing. -/
theorem reply_for_listed_future_dropped :
    (⟨0, 1, 1000000000⟩ : commandFuture) ∈
      ((ControllerConn.Init 1000000000).run
        (wrapOps ++ [Op.inbound okReply (replyFor 1)])).1.commands ∧
    (⟨0, 1, 1000000000⟩ : commandFuture).seq = (replyFor 1).Sequence ∧
    (replyFor 1).IsEvent = false ∧
    ((ControllerConn.Init 1000000000).run
        (wrapOps ++ [Op.inbound okReply (replyFor 1)])).1.handleTypedMsg okReply (replyFor 1) =
      (((ControllerConn.Init 1000000000).run
        (wrapOps ++ [Op.inbound okReply (replyFor 1)])).1, []) := by
  rw [wrapOps_reply_state]
  refine ⟨by simp, rfl, by decide, ?_⟩
  exact handleTypedMsg_miss _ okReply (replyFor 1) (by decide) (by simp [mapDelete, replyFor])

/-- C10, amended: on a connection `c` reached from `Init` by operations `ops`.
As long as fewer than `2^32` calls of `DoCommand` have been made,
`handleTypedMsg` with a message that is not an event and whose sequence is
that of a future `f` in the pending list takes `f`, and nothing else, out of
the pending list and out of the map, sends `f` one `Result` carrying the
message, whose `Err` is set exactly when the message is a `CommandErr` (to
that error), and then closes the channel of `f`. Without that bound it does
all this for the future `f` that the map holds under the sequence of the
message, which is a future of the pending list with that sequence, and it
sends nothing and changes nothing when the map holds none. With a message
that is not an event and whose sequence no future in the pending list has, it
sends nothing and leaves the connection as it is; with an event it leaves the
connection as it is and hands the message to the loop. -/
theorem handleTypedMsg_contract (expiration : Int) (ops : List Op) (c : ControllerConn)
    (msg : Message) (typed : Typed)
    (hc : c = ((ControllerConn.Init expiration).run ops).1) :
    (commandCount ops < 2 ^ 32 → typed.IsEvent = false →
      ∀ f ∈ c.commands, f.seq = typed.Sequence →
      (∀ g, g ∈ (c.handleTypedMsg msg typed).1.commands ↔ g ∈ c.commands ∧ g ≠ f) ∧
      (c.handleTypedMsg msg typed).1.commands.Sublist c.commands ∧
      (∀ s, (c.handleTypedMsg msg typed).1.seqMap s =
        if s = typed.Sequence then none else c.seqMap s) ∧
      ∃ r, (c.handleTypedMsg msg typed).2 = [Effect.send f.id r, Effect.close f.id] ∧
        r.Msg = some msg ∧
        ∀ e, r.Err = some e ↔ ∃ t, msg = Message.commandErr t ∧ e = Error.commandErr t) ∧
    (typed.IsEvent = false → ∀ f, c.seqMap typed.Sequence = some f →
      (f ∈ c.commands ∧ f.seq = typed.Sequence) ∧
      (∀ g, g ∈ (c.handleTypedMsg msg typed).1.commands ↔ g ∈ c.commands ∧ g ≠ f) ∧
      (c.handleTypedMsg msg typed).1.commands.Sublist c.commands ∧
      (∀ s, (c.handleTypedMsg msg typed).1.seqMap s =
        if s = typed.Sequence then none else c.seqMap s) ∧
      ∃ r, (c.handleTypedMsg msg typed).2 = [Effect.send f.id r, Effect.close f.id] ∧
        r.Msg = some msg ∧
        ∀ e, r.Err = some e ↔ ∃ t, msg = Message.commandErr t ∧ e = Error.commandErr t) ∧
    (typed.IsEvent = false → c.seqMap typed.Sequence = none →
      c.handleTypedMsg msg typed = (c, [])) ∧
    (typed.IsEvent = false → (∀ f ∈ c.commands, f.seq ≠ typed.Sequence) →
      c.handleTypedMsg msg typed = (c, [])) ∧
    (typed.IsEvent = true →
      c.handleTypedMsg msg typed = (c, [Effect.postMessage msg, Effect.triggerNext])) := by
  obtain ⟨⟨hM, hU, _, _, _⟩, hC⟩ :=
    conn_run_inv ops (ControllerConn.Init expiration) [] (sound_init expiration)
  rw [← hc] at hM hU hC
  have hhit : ∀ f, typed.IsEvent = false → c.seqMap typed.Sequence = some f →
      (f ∈ c.commands ∧ f.seq = typed.Sequence) ∧
      (∀ g, g ∈ (c.handleTypedMsg msg typed).1.commands ↔ g ∈ c.commands ∧ g ≠ f) ∧
      (c.handleTypedMsg msg typed).1.commands.Sublist c.commands ∧
      (∀ s, (c.handleTypedMsg msg typed).1.seqMap s =
        if s = typed.Sequence then none else c.seqMap s) ∧
      ∃ r, (c.handleTypedMsg msg typed).2 = [Effect.send f.id r, Effect.close f.id] ∧
        r.Msg = some msg ∧
        ∀ e, r.Err = some e ↔ ∃ t, msg = Message.commandErr t ∧ e = Error.commandErr t := by
    intro f hev hlook
    obtain ⟨hf, hfs⟩ := hM _ f hlook
    rw [handleTypedMsg_hit c msg typed f hev hlook]
    refine ⟨⟨hf, hfs⟩, ?_, List.filter_sublist _, fun s => rfl,
      ⟨replyResult msg, rfl, replyResult_msg msg, replyResult_err msg⟩⟩
    intro g
    rw [mem_listRemove]
    refine ⟨fun h => ⟨h.1, fun hgf => h.2 (by rw [hgf])⟩, fun h => ⟨h.1, fun hid => h.2 ?_⟩⟩
    exact eq_of_id_eq hU h.1 hf hid
  refine ⟨?_, fun hev f hlook => hhit f hev hlook, ?_, ?_, ?_⟩
  · intro hlt hev f hf hfs
    have hlt2 : (ControllerConn.Init expiration).seq + commandCount ops < 2 ^ 32 := by
      simpa [ControllerConn.Init] using hlt
    have hlook := (hC hlt2 (complete_init expiration)).2.2 f hf
    rw [hfs] at hlook
    exact (hhit f hev hlook).2
  · intro hev hlook
    exact handleTypedMsg_miss c msg typed hev hlook
  · intro hev hnone
    cases hlook : c.seqMap typed.Sequence with
    | none => exact handleTypedMsg_miss c msg typed hev hlook
    | some f => exact absurd (hM _ f hlook).2 (hnone f (hM _ f hlook).1)
  · exact handleTypedMsg_event c msg typed

/-- C10, amended, on the connection after `sampleOps` (five `DoCommand`
calls), where future 3 is pending with sequence 4: a `CommandErr` reply for
sequence 4 resolves future 3 with that error and takes it out of the pending
list; a reply for sequence 1, answered earlier, changes nothing; an event
with sequence 4 changes nothing. -/
theorem handleTypedMsg_contract_witness :
    (commandCount sampleOps < 2 ^ 32 ∧ (replyFor 4).IsEvent = false ∧
      (⟨3, 4, 7000000000⟩ : commandFuture) ∈
        ((ControllerConn.Init 1000000000).run sampleOps).1.commands ∧
      (∀ g, g ∈ ((((ControllerConn.Init 1000000000).run sampleOps).1.handleTypedMsg
          (Message.commandErr 4) (replyFor 4)).1.commands) ↔
        g ∈ ((ControllerConn.Init 1000000000).run sampleOps).1.commands ∧
          g ≠ ⟨3, 4, 7000000000⟩) ∧
      ∃ r, (((ControllerConn.Init 1000000000).run sampleOps).1.handleTypedMsg
          (Message.commandErr 4) (replyFor 4)).2 = [Effect.send 3 r, Effect.close 3] ∧
        r.Msg = some (Message.commandErr 4) ∧
        ∀ e, r.Err = some e ↔
          ∃ t, Message.commandErr 4 = Message.commandErr t ∧ e = Error.commandErr t) ∧
    ((replyFor 1).IsEvent = false ∧
      (∀ f ∈ ((ControllerConn.Init 1000000000).run sampleOps).1.commands,
        f.seq ≠ (replyFor 1).Sequence) ∧
      ((ControllerConn.Init 1000000000).run sampleOps).1.handleTypedMsg okReply (replyFor 1) =
        (((ControllerConn.Init 1000000000).run sampleOps).1, [])) ∧
    (Typed.IsEvent ⟨0x80000001, 4⟩ = true ∧
      ((ControllerConn.Init 1000000000).run sampleOps).1.handleTypedMsg okReply
          ⟨0x80000001, 4⟩ =
        (((ControllerConn.Init 1000000000).run sampleOps).1,
          [Effect.postMessage okReply, Effect.triggerNext])) :=
  ⟨⟨by decide, by decide, by decide,
      ((handleTypedMsg_contract 1000000000 sampleOps _ (Message.commandErr 4) (replyFor 4)
        rfl).1 (by decide) (by decide) ⟨3, 4, 7000000000⟩ (by decide) rfl).1,
      ((handleTypedMsg_contract 1000000000 sampleOps _ (Message.commandErr 4) (replyFor 4)
        rfl).1 (by decide) (by decide) ⟨3, 4, 7000000000⟩ (by decide) rfl).2.2.2⟩,
    ⟨by decide, by decide,
      (handleTypedMsg_contract 1000000000 sampleOps _ okReply (replyFor 1) rfl).2.2.2.1
        (by decide) (by decide)⟩,
    ⟨by decide,
      (handleTypedMsg_contract 1000000000 sampleOps _ okReply ⟨0x80000001, 4⟩ rfl).2.2.2.2
        (by decide)⟩⟩

end L1


/-! ## L1 connection: the expiry sweep -/

namespace L1

/-- On a list ordered by deadline the loop of `purgeExpired` is a filter. -/
theorem purgeLoop_sorted (now : Int) :
    ∀ (l : List commandFuture) (m : Nat → Option commandFuture),
      l.Pairwise (fun a b => a.expireAt ≤ b.expireAt) →
      (purgeLoop now l m).1 = l.filter (fun f => decide (now < f.expireAt)) ∧
      (purgeLoop now l m).2.2 =
        (l.filter (fun f => decide (f.expireAt ≤ now))).flatMap expiry ∧
      (∀ s, (∃ f ∈ l, f.expireAt ≤ now ∧ f.seq = s) → (purgeLoop now l m).2.1 s = none) ∧
      (∀ s, (¬ ∃ f ∈ l, f.expireAt ≤ now ∧ f.seq = s) → (purgeLoop now l m).2.1 s = m s) := by
  intro l
  induction l with
  | nil =>
    intro m _
    simp [purgeLoop]
  | cons f rest ih =>
    intro m hs
    rw [List.pairwise_cons] at hs
    by_cases hx : f.expireAt > now
    · have hall : ∀ g ∈ f :: rest, now < g.expireAt := by
        intro g hg
        rcases List.mem_cons.mp hg with rfl | hg
        · exact hx
        · exact lt_of_lt_of_le hx (hs.1 g hg)
      have hfil : (f :: rest).filter (fun f => decide (now < f.expireAt)) = f :: rest :=
        List.filter_eq_self.2 (fun g hg => decide_eq_true (hall g hg))
      have hnil : (f :: rest).filter (fun f => decide (f.expireAt ≤ now)) = [] :=
        List.filter_eq_nil_iff.2 (fun g hg => by simpa using hall g hg)
      simp only [purgeLoop, hx, if_true, hfil, hnil, List.flatMap_nil, true_and]
      refine ⟨fun s hex => ?_, fun _ _ => trivial⟩
      obtain ⟨g, hg, hle, _⟩ := hex
      exact absurd (hall g hg) (not_lt.2 hle)
    · obtain ⟨h1, h2, h3, h4⟩ := ih (mapDelete m f.seq) hs.2
      have hle : f.expireAt ≤ now := not_lt.1 hx
      have hnl : ¬ now < f.expireAt := hx
      simp only [purgeLoop, hx, if_false]
      refine ⟨?_, ?_, ?_, ?_⟩
      · rw [h1, List.filter_cons]
        simp [hnl]
      · rw [h2, List.filter_cons]
        simp [hle, expiry]
      · intro s hex
        by_cases hrest : ∃ g ∈ rest, g.expireAt ≤ now ∧ g.seq = s
        · exact h3 s hrest
        · rw [h4 s hrest]
          obtain ⟨g, hg, hgle, hgs⟩ := hex
          rcases List.mem_cons.mp hg with rfl | hg
          · simp [mapDelete, hgs]
          · exact absurd ⟨g, hg, hgle, hgs⟩ hrest
      · intro s hno
        have hrest : ¬ ∃ g ∈ rest, g.expireAt ≤ now ∧ g.seq = s :=
          fun ⟨g, hg, h⟩ => hno ⟨g, List.mem_cons_of_mem _ hg, h⟩
        have hne : s ≠ f.seq := fun h => hno ⟨f, List.mem_cons_self _ _, hle, h.symm⟩
        rw [h4 s hrest]
        simp [mapDelete, hne]

/-- C11: when the pending list is ordered by non-decreasing deadline,
`purgeExpired` at time `now` keeps in the list exactly the futures whose
deadline is after `now`, in their order; it sends `DeadlineExceeded` to each
of the other futures and closes its channel, in list order, and does nothing
else; the map loses the entries under the sequences of the expired futures
and keeps every other entry; so no future left in the list has a deadline at
or before `now`, and when sequences are distinct every future left keeps its
map entry. -/
theorem purgeExpired_sweeps_expired (c : ControllerConn) (now : Int)
    (hs : c.commands.Pairwise (fun a b => a.expireAt ≤ b.expireAt)) :
    (c.purgeExpired now).1.commands = c.commands.filter (fun f => decide (now < f.expireAt)) ∧
    (c.purgeExpired now).2 =
      (c.commands.filter (fun f => decide (f.expireAt ≤ now))).flatMap
        (fun f => [Effect.send f.id { Msg := none, Err := some Error.DeadlineExceeded },
                   Effect.close f.id]) ∧
    (∀ s, (∃ f ∈ c.commands, f.expireAt ≤ now ∧ f.seq = s) →
      (c.purgeExpired now).1.seqMap s = none) ∧
    (∀ s, (¬ ∃ f ∈ c.commands, f.expireAt ≤ now ∧ f.seq = s) →
      (c.purgeExpired now).1.seqMap s = c.seqMap s) ∧
    (∀ f ∈ (c.purgeExpired now).1.commands, f ∈ c.commands ∧ now < f.expireAt) ∧
    ((c.commands.map (fun f => f.seq)).Nodup →
      ∀ f ∈ (c.purgeExpired now).1.commands,
        (c.purgeExpired now).1.seqMap f.seq = c.seqMap f.seq) := by
  obtain ⟨h1, h2, h3, h4⟩ := purgeLoop_sorted now c.commands c.seqMap hs
  have hmem : ∀ f ∈ (c.purgeExpired now).1.commands, f ∈ c.commands ∧ now < f.expireAt := by
    intro f hf
    have hf2 : f ∈ c.commands.filter (fun f => decide (now < f.expireAt)) := h1 ▸ hf
    simpa using hf2
  refine ⟨h1, h2, h3, h4, hmem, ?_⟩
  intro hnd f hf
  obtain ⟨hfc, hlt⟩ := hmem f hf
  apply h4
  rintro ⟨g, hg, hgle, hgs⟩
  have := eq_of_key_eq (fun g => g.seq) hnd hg hfc hgs
  rw [this] at hgle
  exact absurd hlt (not_lt.2 hgle)

/-- C11 on `sweepConn` at time 5: the futures 0 and 1 expire, future 2 stays. -/
theorem purgeExpired_sweeps_expired_witness :
    (sweepConn.purgeExpired 5).1.commands = [⟨2, 3, 9⟩] ∧
    (sweepConn.purgeExpired 5).2 =
      [Effect.send 0 ⟨none, some Error.DeadlineExceeded⟩, Effect.close 0,
       Effect.send 1 ⟨none, some Error.DeadlineExceeded⟩, Effect.close 1] ∧
    (sweepConn.purgeExpired 5).1.seqMap 1 = none ∧
    (sweepConn.purgeExpired 5).1.seqMap 3 = some ⟨2, 3, 9⟩ ∧
    (∀ f ∈ (sweepConn.purgeExpired 5).1.commands, f ∈ sweepConn.commands ∧ 5 < f.expireAt) :=
  ⟨by decide, by decide, by decide, by decide,
    (purgeExpired_sweeps_expired sweepConn 5 (by decide)).2.2.2.2.1⟩

end L1


/-! ## L0 packet: the wire format of `Bytes` -/

namespace L0

set_option maxRecDepth 1000000 in
theorem shift_len : ∀ l < 7, ((l <<< 4) % 256) &&& 0x70 = l <<< 4 := by decide

/-- C12: for a packet with at most 127 data bytes, `Bytes` is `Seq`, the code
byte `(Code & 0x8F) | (len << 4)` and the data when the data length `len` is
below 7, and `Seq`, the code byte `(Code & 0x8F) | 0x70`, the byte `len` and
the data when `len` is 7 or more. -/
theorem bytes_wire_format (P : Packet) (hlen : P.Data.length ≤ 127) :
    (P.Data.length < 7 →
      P.Bytes = [P.Seq, (P.Code &&& 0x8f) ||| (P.Data.length <<< 4)] ++ P.Data) ∧
    (7 ≤ P.Data.length →
      P.Bytes = [P.Seq, (P.Code &&& 0x8f) ||| 0x70, P.Data.length] ++ P.Data) := by
  have hmod : P.Data.length % 256 = P.Data.length := Nat.mod_eq_of_lt (by omega)
  constructor
  · intro h
    have hnot : ¬ (P.Data.length ≥ 7) := by omega
    unfold Packet.Bytes
    simp only [hmod, hnot, if_false, shift_len _ h, List.take_length]
  · intro h
    unfold Packet.Bytes
    simp only [hmod, ge_iff_le, h, if_true]

/-- C12 on the packets of `packet_test.go`: one data byte and seven. -/
theorem bytes_wire_format_witness :
    ((⟨1, 0x82, [1]⟩ : Packet).Data.length < 7 ∧ Packet.Bytes ⟨1, 0x82, [1]⟩ = [1, 0x92, 1]) ∧
    (7 ≤ (⟨1, 2, [1, 2, 3, 4, 5, 6, 7]⟩ : Packet).Data.length ∧
      Packet.Bytes ⟨1, 2, [1, 2, 3, 4, 5, 6, 7]⟩ = [1, 0x72, 7, 1, 2, 3, 4, 5, 6, 7]) :=
  ⟨⟨by decide, (bytes_wire_format ⟨1, 0x82, [1]⟩ (by decide)).1 (by decide)⟩,
    ⟨by decide, (bytes_wire_format ⟨1, 2, [1, 2, 3, 4, 5, 6, 7]⟩ (by decide)).2 (by decide)⟩⟩

end L0


/-! ## L0 parser: round trip for any code byte -/

namespace L0
open parseState

set_option maxRecDepth 1000000 in
theorem code_short : ∀ c < 256, ∀ l < 7,
    (((c &&& 0x8f) ||| (((l <<< 4) % 256) &&& 0x70)) &&& 0x8f = c &&& 0x8f ∧
     (((c &&& 0x8f) ||| (((l <<< 4) % 256) &&& 0x70)) >>> 4) &&& 7 = l) := by decide

set_option maxRecDepth 1000000 in
theorem code_long : ∀ c < 256,
    (((c &&& 0x8f) ||| 0x70) &&& 0x8f = c &&& 0x8f ∧
     (((c &&& 0x8f) ||| 0x70) >>> 4) &&& 7 = 7) := by decide

/-- Feeding the bytes of a packet to a Ready parser that expects its
sequence: every byte but the last is taken without a result of its own, the
last gives the packet with the code masked to bits 0-3 and 7. -/
theorem Parser.feed_bytes (s c : Nat) (data : List Nat) (pk : Option Packet) (rl : Nat)
    (hseq : PacketSeq.IsValid s = true) (hcode : c < 256) (hlen : data.length ≤ 127) :
    ∃ rl2, Parser.feed ⟨s, stateMsgSeq, pk, rl⟩ (Packet.Bytes ⟨s, c, data⟩) =
      some (⟨PacketSeq.Next s, stateMsgSeq, none, rl2⟩,
        List.replicate ((Packet.Bytes ⟨s, c, data⟩).length - 1) midResult ++
          [⟨0, SyncStateReady, some ⟨s, c &&& 0x8f, data⟩⟩]) := by
  have hmod : data.length % 256 = data.length := Nat.mod_eq_of_lt (by omega)
  by_cases h7 : data.length ≥ 7
  · obtain ⟨hc1, hc2⟩ := code_long c hcode
    have hne : data ≠ [] := by intro h; simp [h] at h7
    have hb : Packet.Bytes ⟨s, c, data⟩
        = s :: ((c &&& 0x8f) ||| 0x70) :: data.length :: data := by
      simp [Packet.Bytes, hmod, h7]
    have hcodeStep : Parser.call ⟨PacketSeq.Next s, stateMsgCode, some ⟨s, 0, []⟩, rl⟩
          (ParserCall.parse ((c &&& 0x8f) ||| 0x70))
        = some (⟨PacketSeq.Next s, stateMsgLen, some ⟨s, c &&& 0x8f, []⟩, rl⟩, midResult) := by
      simp [Parser.call, Parser.Parse, Parser.parseByte, hc1, hc2, midResult, Parser.State,
        parseState.toNat, SyncStateReady, SyncStateReceiving]
    have hl0 : data.length ≠ 0 := by omega
    have hl1 : ¬ (data.length ≥ 0x80) := by omega
    have hlenStep : Parser.call ⟨PacketSeq.Next s, stateMsgLen, some ⟨s, c &&& 0x8f, []⟩, rl⟩
          (ParserCall.parse data.length)
        = some (⟨PacketSeq.Next s, stateMsgData,
                  some ⟨s, c &&& 0x8f, List.replicate data.length 0⟩, 0⟩, midResult) := by
      simp [Parser.call, Parser.Parse, Parser.parseByte, hl0, hl1, midResult, Parser.State,
        parseState.toNat, SyncStateReady, SyncStateReceiving]
    have hdata := Parser.feed_data (PacketSeq.Next s) s (c &&& 0x8f) data
      (List.replicate data.length 0) 0 hne (by simp) (by simpa using hlen)
    refine ⟨data.length, ?_⟩
    rw [hb]
    simp only [Parser.feed] at hdata ⊢
    rw [List.map_cons, Parser.run_cons_some (Parser.call_seq s pk rl hseq),
      List.map_cons, Parser.run_cons_some hcodeStep,
      List.map_cons, Parser.run_cons_some hlenStep, hdata]
    have hrep : data.length + 1 + 1 + 1 - 1
        = (data.length - 1) + 1 + 1 + 1 := by omega
    simp [hrep, List.replicate_succ]
  · have hl7 : data.length < 7 := by omega
    obtain ⟨hc1, hc2⟩ := code_short c hcode data.length hl7
    have hb : Packet.Bytes ⟨s, c, data⟩
        = s :: ((c &&& 0x8f) ||| (((data.length <<< 4) % 256) &&& 0x70)) :: data := by
      simp [Packet.Bytes, hmod, h7]
    by_cases h0 : data.length = 0
    · have hnil : data = [] := List.length_eq_zero.mp h0
      subst hnil
      simp only [List.length_nil] at hc1 hc2
      have hcodeStep : Parser.call ⟨PacketSeq.Next s, stateMsgCode, some ⟨s, 0, []⟩, rl⟩
            (ParserCall.parse ((c &&& 0x8f) ||| (((0 <<< 4) % 256) &&& 0x70)))
          = some (⟨PacketSeq.Next s, stateMsgSeq, none, rl⟩,
                  ⟨0, SyncStateReady, some ⟨s, c &&& 0x8f, []⟩⟩) := by
        simp only [Parser.call, Parser.Parse, Parser.parseByte, hc1, hc2, if_true,
          Parser.packetReady, Parser.State]
        simp [SyncStateReady]
      refine ⟨rl, ?_⟩
      rw [hb]
      simp only [Parser.feed, List.length_nil]
      rw [List.map_cons, Parser.run_cons_some (Parser.call_seq s pk rl hseq),
        List.map_cons, Parser.run_cons_some hcodeStep]
      simp [Parser.run]
    · have hne : data ≠ [] := by intro h; simp [h] at h0
      have h7b : data.length ≠ 7 := by omega
      have hcodeStep : Parser.call ⟨PacketSeq.Next s, stateMsgCode, some ⟨s, 0, []⟩, rl⟩
            (ParserCall.parse ((c &&& 0x8f) ||| (((data.length <<< 4) % 256) &&& 0x70)))
          = some (⟨PacketSeq.Next s, stateMsgData,
                    some ⟨s, c &&& 0x8f, List.replicate data.length 0⟩, 0⟩, midResult) := by
        simp [Parser.call, Parser.Parse, Parser.parseByte, hc1, hc2, h0, h7b, midResult,
          Parser.State, parseState.toNat, SyncStateReady, SyncStateReceiving]
      have hdata := Parser.feed_data (PacketSeq.Next s) s (c &&& 0x8f) data
        (List.replicate data.length 0) 0 hne (by simp) (by simpa using hlen)
      refine ⟨data.length, ?_⟩
      rw [hb]
      simp only [Parser.feed] at hdata ⊢
      rw [List.map_cons, Parser.run_cons_some (Parser.call_seq s pk rl hseq),
        List.map_cons, Parser.run_cons_some hcodeStep, hdata]
      have hrep : data.length + 1 + 1 - 1 = (data.length - 1) + 1 + 1 := by omega
      simp [hrep, List.replicate_succ]

theorem filterMap_midResult (n : Nat) :
    (List.replicate n midResult).filterMap (fun r => r.Packet) = [] := by
  induction n with
  | zero => rfl
  | succ n _ => simp [List.replicate_succ, midResult]

end L0


namespace L0
open parseState

set_option maxRecDepth 1000000 in
/-- The bytes of a packet with 128 data bytes give no packet: the parser
answers the length byte `0x80` with a resync and drops what follows. -/
theorem feed_long_data_refused :
    ∃ p2 rs, Parser.feed ⟨1, stateMsgSeq, none, 0⟩
        (Packet.Bytes ⟨1, 2, List.replicate 128 0⟩) = some (p2, rs) ∧
      rs.filterMap (fun r => r.Packet) = [] :=
  ⟨_, _, rfl, by decide⟩

/-- C13, as stated, fails. With code byte `0x12` (bit 4 set) and data `[5]`
the packet that comes back has code `0x02`: bits 4-6 of the code are not
sent. With 128 data bytes no packet comes back at all: the length byte
`0x80` is refused. -/
theorem roundtrip_fails_on_code_bits_and_long_data :
    (∃ p2 rs, Parser.feed ⟨1, stateMsgSeq, none, 0⟩ (Packet.Bytes ⟨1, 0x12, [5]⟩) =
        some (p2, rs) ∧
      rs.filterMap (fun r => r.Packet) = [⟨1, 0x02, [5]⟩] ∧
      (⟨1, 0x02, [5]⟩ : Packet) ≠ ⟨1, 0x12, [5]⟩) ∧
    (∃ p2 rs, Parser.feed ⟨1, stateMsgSeq, none, 0⟩
        (Packet.Bytes ⟨1, 2, List.replicate 128 0⟩) = some (p2, rs) ∧
      rs.filterMap (fun r => r.Packet) = []) :=
  ⟨⟨_, _, rfl, by decide, by decide⟩, feed_long_data_refused⟩

/-- C13, amended: for a packet `P` with a valid `Seq`, any `Code` byte and at
most 127 data bytes, feeding `P.Bytes` to a parser that is Ready and expects
`P.Seq` yields exactly one packet; it has the `Seq` and `Data` of `P` and the
code `P.Code & 0x8F`, so it equals `P` when bits 4-6 of `P.Code` are clear. -/
theorem roundtrip_masks_code (P : Packet) (p : Parser)
    (hseq : PacketSeq.IsValid P.Seq = true) (hcode : P.Code < 256)
    (hlen : P.Data.length ≤ 127)
    (hready : p.State = SyncStateReady) (hpeer : p.peerSeq = P.Seq) :
    ∃ p2 rs, p.feed P.Bytes = some (p2, rs) ∧
      rs.filterMap (fun r => r.Packet) = [⟨P.Seq, P.Code &&& 0x8f, P.Data⟩] ∧
      (P.Code &&& 0x70 = 0 → rs.filterMap (fun r => r.Packet) = [P]) := by
  obtain ⟨s, c, data⟩ := P
  obtain ⟨q, st, pk, rl⟩ := p
  simp only at hseq hcode hlen hpeer
  have hst : st = stateMsgSeq := (Parser.State_ready_iff _).1 hready
  subst hst; subst hpeer
  obtain ⟨rl2, hfeed⟩ := Parser.feed_bytes q c data pk rl hseq hcode hlen
  have hone : (List.replicate ((Packet.Bytes ⟨q, c, data⟩).length - 1) midResult ++
      [(⟨0, SyncStateReady, some ⟨q, c &&& 0x8f, data⟩⟩ : ParseResult)]).filterMap
        (fun r => r.Packet) = [⟨q, c &&& 0x8f, data⟩] := by
    rw [List.filterMap_append, filterMap_midResult]
    rfl
  refine ⟨_, _, hfeed, hone, fun hbits => ?_⟩
  rw [hone]
  have hmask : c &&& 0x8f = c := (code_long c hcode).1.symm.trans (bits_long c hcode hbits).1
  rw [hmask]

/-- C13, amended, at the packet `{Seq 1, Code 0x82, Data [1..7]}` of
`packet_test.go` and at a packet with code `0x12`. -/
theorem roundtrip_masks_code_witness :
    (∃ p2 rs, Parser.feed ⟨1, stateMsgSeq, none, 0⟩
        (Packet.Bytes ⟨1, 0x82, [1, 2, 3, 4, 5, 6, 7]⟩) = some (p2, rs) ∧
      rs.filterMap (fun r => r.Packet) = [⟨1, 0x82 &&& 0x8f, [1, 2, 3, 4, 5, 6, 7]⟩] ∧
      ((0x82 : Nat) &&& 0x70 = 0 →
        rs.filterMap (fun r => r.Packet) = [⟨1, 0x82, [1, 2, 3, 4, 5, 6, 7]⟩])) ∧
    (0x82 : Nat) &&& 0x70 = 0 :=
  ⟨roundtrip_masks_code ⟨1, 0x82, [1, 2, 3, 4, 5, 6, 7]⟩ ⟨1, stateMsgSeq, none, 0⟩
    (by decide) (by decide) (by decide) (by decide) rfl, by decide⟩

end L0


/-! ## L0 parser: resync, handshake, timeout -/

namespace L0
open parseState

/-- C14: in each violation case `Parse` answers `SYNC_REQ` with no packet and
state Syncing, and the parser is in `stateSyncAck` with its other fields as
they were: a sequence byte that is 0 or at least `0xF0` in `stateSyncReqSeq`
or `stateSyncAckSeq`; a byte in `stateMsgSeq` that is neither the expected
peer sequence nor `SYNC_REQ` nor `SYNC_ACK`; a byte in `stateMsgAckSeq` other
than the expected peer sequence; a length byte of `0x80` or more in
`stateMsgLen`. -/
theorem parse_violation_resyncs (p : Parser) (b : Nat)
    (hv : ((p.state = stateSyncReqSeq ∨ p.state = stateSyncAckSeq) ∧ (b = 0 ∨ b ≥ 0xf0)) ∨
      (p.state = stateMsgSeq ∧ b ≠ p.peerSeq ∧ b ≠ syncREQ ∧ b ≠ syncACK) ∨
      (p.state = stateMsgAckSeq ∧ b ≠ p.peerSeq) ∨
      (p.state = stateMsgLen ∧ b ≥ 0x80)) :
    p.Parse b = some (⟨p.peerSeq, stateSyncAck, p.packet, p.recvLen⟩,
      ⟨syncREQ, SyncStateSyncing, none⟩) := by
  obtain ⟨q, st, pk, rl⟩ := p
  simp only at hv
  rcases hv with ⟨hst, hb⟩ | ⟨hst, h1, h2, h3⟩ | ⟨hst, h1⟩ | ⟨hst, hb⟩
  · have hinv : PacketSeq.IsValid b = false := by
      simp only [PacketSeq.IsValid, Bool.and_eq_false_iff, decide_eq_false_iff_not]
      omega
    rcases hst with rfl | rfl <;>
      simp [Parser.Parse, Parser.parseByte, hinv, Parser.resync, Parser.State]
  · subst hst
    simp [Parser.Parse, Parser.parseByte, h1, h2, h3, Parser.resync, Parser.State]
  · subst hst
    simp [Parser.Parse, Parser.parseByte, h1, Parser.resync, Parser.State]
  · subst hst
    have hb2 : 128 ≤ b := hb
    simp [Parser.Parse, Parser.parseByte, hb2, Parser.resync, Parser.State]

/-- C14 on cases of `parser_test.go`: 'invalid seq' (byte 1 where sequence 2
is expected), 'invalid data len' (the length byte `0x80`) and 'handle req in
sync with invalid seq' (`SYNC_REQ` as the sequence byte). -/
theorem parse_violation_resyncs_witness :
    Parser.Parse ⟨2, stateMsgSeq, none, 0⟩ 1 =
      some (⟨2, stateSyncAck, none, 0⟩, ⟨0xff, 0, none⟩) ∧
    Parser.Parse ⟨2, stateMsgLen, some ⟨1, 0, []⟩, 0⟩ 0x80 =
      some (⟨2, stateSyncAck, some ⟨1, 0, []⟩, 0⟩, ⟨0xff, 0, none⟩) ∧
    Parser.Parse ⟨0, stateSyncReqSeq, none, 0⟩ 0xff =
      some (⟨0, stateSyncAck, none, 0⟩, ⟨0xff, 0, none⟩) :=
  ⟨parse_violation_resyncs ⟨2, stateMsgSeq, none, 0⟩ 1
      (Or.inr (Or.inl ⟨rfl, by decide, by decide, by decide⟩)),
    parse_violation_resyncs ⟨2, stateMsgLen, some ⟨1, 0, []⟩, 0⟩ 0x80
      (Or.inr (Or.inr (Or.inr ⟨rfl, by decide⟩))),
    parse_violation_resyncs ⟨0, stateSyncReqSeq, none, 0⟩ 0xff
      (Or.inl ⟨Or.inl rfl, Or.inr (by decide)⟩)⟩

end L0


namespace L0
open parseState

theorem Parser.feed_two (p p1 p2 : Parser) (a b : Nat) (r1 r2 : ParseResult)
    (h1 : p.Parse a = some (p1, r1)) (h2 : p1.Parse b = some (p2, r2)) :
    p.feed [a, b] = some (p2, [r1, r2]) := by
  simp [Parser.feed, Parser.run, Parser.call, h1, h2]

theorem PacketSeq.valid_not_sync (s : Nat) (h : PacketSeq.IsValid s = true) :
    s ≠ syncREQ ∧ s ≠ syncACK := by
  simp only [PacketSeq.IsValid, Bool.and_eq_true, decide_eq_true_eq] at h
  simp only [syncREQ, syncACK]
  omega

/-- C15: in `stateSyncAck` a byte other than `SYNC_REQ` and `SYNC_ACK` is
discarded: no sync command, state Syncing, no packet, the parser unchanged.
`SYNC_REQ` and then a valid sequence byte `s` leave the parser Ready expecting
`s`, and the second byte is answered with `SYNC_ACK`; `SYNC_ACK` and then a
valid `s` leave it Ready expecting `s` with no sync command. No packet is
returned on the way. -/
theorem syncAck_handshake (p : Parser) (hst : p.state = stateSyncAck) :
    (∀ b, b ≠ syncREQ → b ≠ syncACK → p.Parse b = some (p, ⟨0, SyncStateSyncing, none⟩)) ∧
    (∀ s, PacketSeq.IsValid s = true →
      p.feed [syncREQ, s] = some (⟨s, stateMsgSeq, p.packet, p.recvLen⟩,
        [⟨0, SyncStateSyncing ||| SyncStateReceiving, none⟩,
         ⟨syncACK, SyncStateReady, none⟩])) ∧
    (∀ s, PacketSeq.IsValid s = true →
      p.feed [syncACK, s] = some (⟨s, stateMsgSeq, p.packet, p.recvLen⟩,
        [⟨0, SyncStateSyncing ||| SyncStateReceiving, none⟩,
         ⟨0, SyncStateReady, none⟩])) := by
  obtain ⟨q, st, pk, rl⟩ := p
  simp only at hst
  subst hst
  refine ⟨?_, ?_, ?_⟩
  · intro b h1 h2
    simp [Parser.Parse, Parser.parseByte, h1, h2, Parser.State]
  · intro s hs
    apply Parser.feed_two _ ⟨q, stateSyncReqSeq, pk, rl⟩
    · simp [Parser.Parse, Parser.parseByte, Parser.State, parseState.toNat]
    · simp [Parser.Parse, Parser.parseByte, hs, Parser.State]
  · intro s hs
    apply Parser.feed_two _ ⟨q, stateSyncAckSeq, pk, rl⟩
    · simp [Parser.Parse, Parser.parseByte, Parser.State, parseState.toNat, syncREQ, syncACK]
    · simp [Parser.Parse, Parser.parseByte, hs, Parser.State]

/-- C15 on the zero-value parser with bytes of `parser_test.go`: `0x80` is
skipped; `SYNC_REQ, 1` and `SYNC_ACK, 1` make it Ready expecting 1. -/
theorem syncAck_handshake_witness :
    Parser.Parse Parser.zero 0x80 = some (Parser.zero, ⟨0, 0, none⟩) ∧
    Parser.feed Parser.zero [0xff, 1] =
      some (⟨1, stateMsgSeq, none, 0⟩, [⟨0, 2, none⟩, ⟨0xfe, 1, none⟩]) ∧
    Parser.feed Parser.zero [0xfe, 1] =
      some (⟨1, stateMsgSeq, none, 0⟩, [⟨0, 2, none⟩, ⟨0, 1, none⟩]) :=
  ⟨(syncAck_handshake Parser.zero rfl).1 0x80 (by decide) (by decide),
    (syncAck_handshake Parser.zero rfl).2.1 1 (by decide),
    (syncAck_handshake Parser.zero rfl).2.2 1 (by decide)⟩

/-- C16: in `stateMsgSeq`, expecting `p.peerSeq`, the sync bytes start the
handshake sub-flows and no packet is returned: `SYNC_REQ` and then a valid
sequence byte `s` are answered with `SYNC_ACK` on the second byte and leave
the parser Ready expecting `s`; `SYNC_ACK` and then the byte `p.peerSeq` give
no sync command and leave the parser as it was, Ready and expecting
`p.peerSeq`, so that a following byte that is neither `p.peerSeq` nor a sync
byte is a violation. -/
theorem ready_sync_subflows (p : Parser) (hst : p.state = stateMsgSeq) :
    (∀ s, PacketSeq.IsValid s = true →
      p.feed [syncREQ, s] = some (⟨s, stateMsgSeq, p.packet, p.recvLen⟩,
        [⟨0, SyncStateSyncing ||| SyncStateReceiving, none⟩,
         ⟨syncACK, SyncStateReady, none⟩])) ∧
    p.feed [syncACK, p.peerSeq] = some (p,
        [⟨0, SyncStateReady ||| SyncStateReceiving, none⟩, ⟨0, SyncStateReady, none⟩]) ∧
    (∀ b, b ≠ p.peerSeq → b ≠ syncREQ → b ≠ syncACK →
      ∃ p2 rs, p.feed [syncACK, p.peerSeq] = some (p2, rs) ∧
        p2.Parse b = some (⟨p.peerSeq, stateSyncAck, p.packet, p.recvLen⟩,
          ⟨syncREQ, SyncStateSyncing, none⟩)) := by
  obtain ⟨q, st, pk, rl⟩ := p
  simp only at hst
  subst hst
  have hack : Parser.feed ⟨q, stateMsgSeq, pk, rl⟩ [syncACK, q] =
      some (⟨q, stateMsgSeq, pk, rl⟩,
        [⟨0, SyncStateReady ||| SyncStateReceiving, none⟩, ⟨0, SyncStateReady, none⟩]) := by
    apply Parser.feed_two _ ⟨q, stateMsgAckSeq, pk, rl⟩
    · simp [Parser.Parse, Parser.parseByte, Parser.State, parseState.toNat, syncREQ, syncACK]
    · simp [Parser.Parse, Parser.parseByte, Parser.State]
  refine ⟨?_, hack, ?_⟩
  · intro s hs
    apply Parser.feed_two _ ⟨q, stateSyncReqSeq, pk, rl⟩
    · simp [Parser.Parse, Parser.parseByte, Parser.State, parseState.toNat]
    · simp [Parser.Parse, Parser.parseByte, hs, Parser.State]
  · intro b h1 h2 h3
    refine ⟨_, _, hack, ?_⟩
    simp [Parser.Parse, Parser.parseByte, h1, h2, h3, Parser.resync, Parser.State]

/-- C16 on the cases 'handle req after sync', 'handle ack after sync' and
'ack invalid seq after sync' of `parser_test.go`, on a parser that expects
sequence 1. -/
theorem ready_sync_subflows_witness :
    Parser.feed ⟨1, stateMsgSeq, none, 0⟩ [0xff, 1] =
      some (⟨1, stateMsgSeq, none, 0⟩, [⟨0, 2, none⟩, ⟨0xfe, 1, none⟩]) ∧
    Parser.feed ⟨1, stateMsgSeq, none, 0⟩ [0xfe, 1] =
      some (⟨1, stateMsgSeq, none, 0⟩, [⟨0, 3, none⟩, ⟨0, 1, none⟩]) ∧
    (∃ p2 rs, Parser.feed ⟨1, stateMsgSeq, none, 0⟩ [0xfe, 1] = some (p2, rs) ∧
      p2.Parse 2 = some (⟨1, stateSyncAck, none, 0⟩, ⟨0xff, 0, none⟩)) :=
  ⟨(ready_sync_subflows ⟨1, stateMsgSeq, none, 0⟩ rfl).1 1 (by decide),
    (ready_sync_subflows ⟨1, stateMsgSeq, none, 0⟩ rfl).2.1,
    (ready_sync_subflows ⟨1, stateMsgSeq, none, 0⟩ rfl).2.2 2
      (by decide) (by decide) (by decide)⟩

end L0


namespace L0
open parseState

/-- C17: `Timeout` in `stateMsgSeq` returns no sync command, state Ready and
no packet and leaves the parser, its expected peer sequence included, as it
was; `Timeout` in any other state, and `Reset` in any state, return
`SYNC_REQ`, state Syncing and no packet and put the parser in
`stateSyncAck` (`Reset` also drops the pending packet). -/
theorem timeout_and_reset (p : Parser) :
    (p.state = stateMsgSeq → p.Timeout = (p, ⟨0, SyncStateReady, none⟩)) ∧
    (p.state ≠ stateMsgSeq →
      p.Timeout = (⟨p.peerSeq, stateSyncAck, p.packet, p.recvLen⟩,
        ⟨syncREQ, SyncStateSyncing, none⟩)) ∧
    p.Reset = (⟨p.peerSeq, stateSyncAck, none, p.recvLen⟩,
      ⟨syncREQ, SyncStateSyncing, none⟩) := by
  obtain ⟨q, st, pk, rl⟩ := p
  refine ⟨?_, ?_, ?_⟩
  · intro h
    simp only at h
    subst h
    simp [Parser.Timeout, Parser.State]
  · intro h
    simp only at h
    simp [Parser.Timeout, h, Parser.resync, Parser.State]
  · simp [Parser.Reset, Parser.resync, Parser.State]

/-- C17 on a Ready parser, on a parser in the middle of a packet and on the
zero-value parser of the 'sync timeout' case of `parser_test.go`. -/
theorem timeout_and_reset_witness :
    Parser.Timeout ⟨5, stateMsgSeq, none, 0⟩ =
      (⟨5, stateMsgSeq, none, 0⟩, ⟨0, 1, none⟩) ∧
    Parser.Timeout ⟨5, stateMsgData, some ⟨4, 2, [9, 0]⟩, 1⟩ =
      (⟨5, stateSyncAck, some ⟨4, 2, [9, 0]⟩, 1⟩, ⟨0xff, 0, none⟩) ∧
    Parser.Timeout Parser.zero = (Parser.zero, ⟨0xff, 0, none⟩) ∧
    Parser.Reset ⟨5, stateMsgData, some ⟨4, 2, [9, 0]⟩, 1⟩ =
      (⟨5, stateSyncAck, none, 1⟩, ⟨0xff, 0, none⟩) :=
  ⟨(timeout_and_reset ⟨5, stateMsgSeq, none, 0⟩).1 rfl,
    (timeout_and_reset ⟨5, stateMsgData, some ⟨4, 2, [9, 0]⟩, 1⟩).2.1 (by decide),
    (timeout_and_reset Parser.zero).2.1 (by decide),
    (timeout_and_reset ⟨5, stateMsgData, some ⟨4, 2, [9, 0]⟩, 1⟩).2.2⟩

/-- C18: for a byte `s`, `IsValid` holds exactly when `1 ≤ s ≤ 0xEF`; `Next`
is `s + 1` when that is a valid sequence and 1 otherwise; `Next` is never 0
and never `0xF0` or more. -/
theorem packetSeq_valid_and_next (s : Nat) (hs : s < 256) :
    (PacketSeq.IsValid s = true ↔ 1 ≤ s ∧ s ≤ 0xef) ∧
    (PacketSeq.IsValid (s + 1) = true → PacketSeq.Next s = s + 1) ∧
    (PacketSeq.IsValid (s + 1) = false → PacketSeq.Next s = 1) ∧
    PacketSeq.Next s ≠ 0 ∧ PacketSeq.Next s < 0xf0 := by
  refine ⟨?_, ?_, ?_, ?_, ?_⟩
  · simp only [PacketSeq.IsValid, Bool.and_eq_true, decide_eq_true_eq]
    omega
  · intro h
    simp only [PacketSeq.IsValid, Bool.and_eq_true, decide_eq_true_eq] at h
    have hmod : (s + 1) % 256 = s + 1 := Nat.mod_eq_of_lt (by omega)
    have hno : ¬ (s + 1 = 0 ∨ s + 1 ≥ 0xf0) := by omega
    simp only [PacketSeq.Next, hmod, hno, if_false]
  · intro h
    simp only [PacketSeq.IsValid, Bool.and_eq_false_iff, decide_eq_false_iff_not] at h
    have hge : s + 1 ≥ 0xf0 := by omega
    have hyes : (s + 1) % 256 = 0 ∨ (s + 1) % 256 ≥ 0xf0 := by omega
    simp only [PacketSeq.Next, hyes, if_true]
  · have := PacketSeq.next_valid s
    simp only [PacketSeq.IsValid, Bool.and_eq_true, decide_eq_true_eq] at this
    omega
  · have := PacketSeq.next_valid s
    simp only [PacketSeq.IsValid, Bool.and_eq_true, decide_eq_true_eq] at this
    exact this.2

/-- C18 at the bytes `0xEE`, `0xEF` and `0xFF` of `packet_test.go`. -/
theorem packetSeq_valid_and_next_witness :
    (PacketSeq.IsValid 0xee = true ∧ PacketSeq.Next 0xee = 0xef) ∧
    (PacketSeq.IsValid 0xef = true ∧ PacketSeq.Next 0xef = 1) ∧
    (PacketSeq.IsValid 0xff = false ∧ PacketSeq.Next 0xff = 1) ∧
    (PacketSeq.IsValid 0 = false ∧ PacketSeq.Next 0 = 1) :=
  ⟨⟨by decide, (packetSeq_valid_and_next 0xee (by decide)).2.1 (by decide)⟩,
    ⟨by decide, (packetSeq_valid_and_next 0xef (by decide)).2.2.1 (by decide)⟩,
    ⟨by decide, (packetSeq_valid_and_next 0xff (by decide)).2.2.1 (by decide)⟩,
    ⟨by decide, (packetSeq_valid_and_next 0 (by decide)).2.1 (by decide)⟩⟩

end L0


/-! ## L0 packet: `WriteTo` against `Bytes` -/

namespace L0

/-- On a writer that accepts all bytes `WriteTo` writes what `Bytes` returns
when the packet has fewer than 256 data bytes. -/
theorem Packet.writeTo_bytes (P : Packet) (w : Writer) (hw : w.room = none)
    (hlen : P.Data.length < 256) :
    P.WriteTo w = (⟨w.written ++ P.Bytes, none⟩, P.Bytes.length, none) := by
  obtain ⟨written, room⟩ := w
  simp only at hw
  subst hw
  have hmod : P.Data.length % 256 = P.Data.length := Nat.mod_eq_of_lt hlen
  by_cases h7 : P.Data.length < 7
  · have hnot : ¬ (P.Data.length ≥ 7) := by omega
    by_cases h0 : P.Data.length > 0
    · simp [Packet.WriteTo, Packet.Bytes, Writer.Write, hmod, h7, hnot, h0]
      omega
    · have hnil : P.Data = [] := List.length_eq_zero.mp (by omega)
      simp [Packet.WriteTo, Packet.Bytes, Writer.Write, hnil]
  · have hge : P.Data.length ≥ 7 := by omega
    have h0 : P.Data.length > 0 := by omega
    simp [Packet.WriteTo, Packet.Bytes, Writer.Write, hmod, h7, hge, h0]
    omega

set_option maxRecDepth 1000000 in
theorem longPacket_writeTo :
    longPacket.WriteTo openWriter =
      (⟨[1, 0x72, 7, 0, 0, 0, 0, 0, 0, 0], none⟩, 10, none) := by
  decide

set_option maxRecDepth 1000000 in
theorem longPacket_bytes :
    longPacket.Bytes = [1, 0x72, 7] ++ List.replicate 263 0 := by
  decide

/-- C19 fails on a packet with 263 data bytes: `byte(len(p.Data))` is 7, so
`WriteTo` writes the three header bytes and `p.Data[:7]` and reports 10,
where `Bytes` returns the header followed by all 263 data bytes, 266 bytes. -/
theorem writeTo_differs_from_bytes :
    longPacket.WriteTo openWriter =
      (⟨[1, 0x72, 7, 0, 0, 0, 0, 0, 0, 0], none⟩, 10, none) ∧
    longPacket.Bytes = [1, 0x72, 7] ++ List.replicate 263 0 ∧
    longPacket.Bytes.length = 266 ∧
    (longPacket.WriteTo openWriter).1.written ≠ longPacket.Bytes ∧
    (longPacket.WriteTo openWriter).2.1 ≠ longPacket.Bytes.length := by
  have hlen : longPacket.Bytes.length = 266 := by
    rw [longPacket_bytes, List.length_append, List.length_replicate]
    rfl
  refine ⟨longPacket_writeTo, longPacket_bytes, hlen, ?_, ?_⟩
  · intro h
    have h2 := congrArg List.length h
    rw [hlen, longPacket_writeTo] at h2
    simp at h2
  · rw [hlen, longPacket_writeTo]
    decide

end L0

/-! ## L0 client: decoding the reply -/

namespace L0

/-- C20: when `HandlePacket` gets a reply packet (not an event) whose first
data byte `seq` is valid and is the request sequence of the pending command
`cmd`, the first such one, the last send it makes is the result of `cmd`, and
that result is decoded from the packet: with `Code & 1` set it is the error
`CommandError{Code: Code & 0x7E}` with code 0 and no data; otherwise it has a
nil error, the code `Code & 0x7E` and as data the data bytes after the
first. -/
theorem reply_result_decoded (c : Client) (pkt : Packet) (seq : Nat) (rest : List Nat)
    (ahead behind : List Command) (cmd : Command)
    (hev : pkt.Code &&& 0x80 = 0)
    (hdata : pkt.Data = seq :: rest)
    (hvalid : PacketSeq.IsValid seq = true)
    (hcmds : c.cmds = ahead ++ cmd :: behind)
    (hfirst : ∀ x ∈ ahead, x.requestSeq ≠ seq)
    (hseq : cmd.requestSeq = seq) :
    ∃ r, (c.HandlePacket pkt).2.getLast? = some (Delivery.result cmd r) ∧
      (pkt.Code &&& 1 ≠ 0 →
        r = ⟨some (Error.CommandError (pkt.Code &&& 0x7e)), 0, []⟩) ∧
      (pkt.Code &&& 1 = 0 → r = ⟨none, pkt.Code &&& 0x7e, rest⟩) := by
  have hsearch := Client.search_spec seq ahead behind cmd hfirst hseq
  refine ⟨replyResult pkt, ?_, ?_, ?_⟩
  · simp only [Client.HandlePacket, hev, ne_eq, not_true_eq_false, if_false, hdata, hvalid,
      hcmds, hsearch]
    simp
  · intro h
    unfold replyResult
    rw [if_pos h]
  · intro h
    unfold replyResult
    rw [if_neg (not_not.2 h), hdata]
    rfl

/-- C20 on the 'simple command' case of `client_test.go` (command 1 pending,
the packet `1, 0x10, 1` arrives) and on an error reply with code `0x05`. -/
theorem reply_result_decoded_witness :
    (∃ r, (Client.HandlePacket ⟨⟨openWriter, 2, 1⟩, [⟨1, 10⟩]⟩ ⟨1, 0, [1]⟩).2.getLast? =
        some (Delivery.result ⟨1, 10⟩ r) ∧
      ((0 : Nat) &&& 1 ≠ 0 → r = ⟨some (Error.CommandError (0 &&& 0x7e)), 0, []⟩) ∧
      ((0 : Nat) &&& 1 = 0 → r = ⟨none, 0 &&& 0x7e, []⟩)) ∧
    (∃ r, (Client.HandlePacket ⟨⟨openWriter, 2, 1⟩, [⟨1, 10⟩]⟩ ⟨1, 5, [1, 9]⟩).2.getLast? =
        some (Delivery.result ⟨1, 10⟩ r) ∧
      ((5 : Nat) &&& 1 ≠ 0 → r = ⟨some (Error.CommandError (5 &&& 0x7e)), 0, []⟩) ∧
      ((5 : Nat) &&& 1 = 0 → r = ⟨none, 5 &&& 0x7e, [9]⟩)) :=
  ⟨reply_result_decoded ⟨⟨openWriter, 2, 1⟩, [⟨1, 10⟩]⟩ ⟨1, 0, [1]⟩ 1 [] [] [] ⟨1, 10⟩
      (by decide) rfl (by decide) rfl (by simp) rfl,
    reply_result_decoded ⟨⟨openWriter, 2, 1⟩, [⟨1, 10⟩]⟩ ⟨1, 5, [1, 9]⟩ 1 [9] [] [] ⟨1, 10⟩
      (by decide) rfl (by decide) rfl (by simp) rfl⟩

end L0


/-! ## L0 client: events; L0 FIFO: `Send` -/

namespace L0

/-- C21: `HandlePacket` with a packet whose `Code` has bit 7 set makes one
send, the packet itself on the event channel, sends no command result and
leaves the client, its pending list included, as it was, whatever the data
bytes of the packet and whatever commands are pending. -/
theorem handlePacket_event_only (c : Client) (pkt : Packet) (hev : pkt.Code &&& 0x80 ≠ 0) :
    c.HandlePacket pkt = (c, [Delivery.event pkt]) ∧
    (c.HandlePacket pkt).1.cmds = c.cmds ∧
    ∀ cmd r, Delivery.result cmd r ∉ (c.HandlePacket pkt).2 := by
  have h : c.HandlePacket pkt = (c, [Delivery.event pkt]) := by
    unfold Client.HandlePacket
    rw [if_pos hev]
  rw [h]
  refine ⟨rfl, rfl, ?_⟩
  intro cmd r hmem
  simp at hmem

/-- C21 on the 'event and command' case of `client_test.go` (command 1
pending, the event `1, 0x91, 2` arrives as code `0x81` with data `[2]`), and
on an event whose first data byte is the sequence of the pending command. -/
theorem handlePacket_event_only_witness :
    Client.HandlePacket ⟨readyFIFO, [⟨1, 10⟩]⟩ ⟨1, 0x81, [2]⟩ =
      (⟨readyFIFO, [⟨1, 10⟩]⟩, [Delivery.event ⟨1, 0x81, [2]⟩]) ∧
    Client.HandlePacket ⟨readyFIFO, [⟨1, 10⟩]⟩ ⟨2, 0x81, [1]⟩ =
      (⟨readyFIFO, [⟨1, 10⟩]⟩, [Delivery.event ⟨2, 0x81, [1]⟩]) :=
  ⟨(handlePacket_event_only ⟨readyFIFO, [⟨1, 10⟩]⟩ ⟨1, 0x81, [2]⟩ (by decide)).1,
    (handlePacket_event_only ⟨readyFIFO, [⟨1, 10⟩]⟩ ⟨2, 0x81, [1]⟩ (by decide)).1⟩

theorem Writer.write_err (w : Writer) (p : List Nat) :
    (w.Write p).2.2 = none ∨ (w.Write p).2.2 = some Error.io := by
  unfold Writer.Write
  split
  · exact Or.inl rfl
  · split
    · exact Or.inl rfl
    · exact Or.inr rfl

theorem Packet.writeTo_err (P : Packet) (w : Writer) :
    (P.WriteTo w).2.2 = none ∨ (P.WriteTo w).2.2 = some Error.io := by
  unfold Packet.WriteTo
  simp only
  split
  · next w1 n e heq =>
    have h2 := congrArg (fun x => x.2.2) heq
    simp only at h2
    show some e = none ∨ some e = some Error.io
    rw [← h2]
    exact Writer.write_err _ _
  · split
    · exact Writer.write_err _ _
    · exact Or.inl rfl

end L0


namespace L0

theorem FIFO.send_notReady (f : FIFO) (pkt : Packet) (h : f.state &&& SyncStateReady = 0) :
    f.Send pkt = (f, pkt, some Error.ErrNotReady) := by
  unfold FIFO.Send
  rw [if_pos h]

theorem FIFO.send_ready (f : FIFO) (pkt : Packet) (h : f.state &&& SyncStateReady ≠ 0) :
    f.Send pkt =
      (⟨((⟨f.seq, pkt.Code, pkt.Data⟩ : Packet).WriteTo f.ReadWriter).1,
          if ((⟨f.seq, pkt.Code, pkt.Data⟩ : Packet).WriteTo f.ReadWriter).2.2 = none
            then PacketSeq.Next f.seq else f.seq,
          f.state⟩,
        ⟨f.seq, pkt.Code, pkt.Data⟩,
        ((⟨f.seq, pkt.Code, pkt.Data⟩ : Packet).WriteTo f.ReadWriter).2.2) := by
  unfold FIFO.Send
  rw [if_neg h]
  simp only
  rcases hw : Packet.WriteTo ⟨f.seq, pkt.Code, pkt.Data⟩ f.ReadWriter with ⟨w, n, e⟩
  cases e <;> simp

/-- The sequences stamped on the successful sends of a Ready FIFO. -/
theorem FIFO.sendAll_seqs : ∀ (pkts : List Packet) (f : FIFO),
    f.state &&& SyncStateReady ≠ 0 →
    (sentOk (f.sendAll pkts).2).map (fun p => p.Seq) =
      List.iterate PacketSeq.Next f.seq (sentOk (f.sendAll pkts).2).length := by
  intro pkts
  induction pkts with
  | nil => intro f _; rfl
  | cons pkt pkts ih =>
    intro f hr
    have hs := FIFO.send_ready f pkt hr
    have hstate : (f.Send pkt).1.state &&& SyncStateReady ≠ 0 := by rw [hs]; exact hr
    have ih2 := ih (f.Send pkt).1 hstate
    simp only [FIFO.sendAll, sentOk, List.filter_cons] at ih2 ⊢
    cases he : (f.Send pkt).2.2 with
    | none =>
      have hseq : (f.Send pkt).1.seq = PacketSeq.Next f.seq := by
        rw [hs] at he ⊢
        simp only at he ⊢
        rw [if_pos he]
      have hp : (f.Send pkt).2.1.Seq = f.seq := by rw [hs]
      simp only [Option.isNone_none, if_true, List.map_cons, List.length_cons, List.iterate,
        hp]
      rw [ih2, hseq]
    | some e =>
      have hseq : (f.Send pkt).1.seq = f.seq := by
        rw [hs] at he ⊢
        simp only at he ⊢
        rw [if_neg (by rw [he]; simp)]
      simp only [Option.isNone_some, Bool.false_eq_true, if_false]
      rw [ih2, hseq]

/-- C22: `Send` returns `ErrNotReady` exactly when the state lacks the Ready
bit, and then changes neither the FIFO (nothing written, own sequence kept)
nor the packet. Otherwise the packet is stamped with the own sequence, the
stamped packet is written with `WriteTo`, the error of the write is returned,
and the own sequence becomes `Next` only when the write succeeded. On a Ready
FIFO the packets of successive successful sends carry the sequences
`s, Next(s), Next(Next(s)), ...` from the own sequence `s` on. -/
theorem send_contract (f : FIFO) (pkt : Packet) (pkts : List Packet) :
    ((f.Send pkt).2.2 = some Error.ErrNotReady ↔ f.state &&& SyncStateReady = 0) ∧
    (f.state &&& SyncStateReady = 0 → f.Send pkt = (f, pkt, some Error.ErrNotReady)) ∧
    (f.state &&& SyncStateReady ≠ 0 →
      (f.Send pkt).2.1 = ⟨f.seq, pkt.Code, pkt.Data⟩ ∧
      (f.Send pkt).1.ReadWriter = ((f.Send pkt).2.1.WriteTo f.ReadWriter).1 ∧
      (f.Send pkt).2.2 = ((f.Send pkt).2.1.WriteTo f.ReadWriter).2.2 ∧
      (f.Send pkt).1.state = f.state ∧
      ((f.Send pkt).2.2 = none → (f.Send pkt).1.seq = PacketSeq.Next f.seq) ∧
      ((f.Send pkt).2.2 ≠ none → (f.Send pkt).1.seq = f.seq)) ∧
    (f.state &&& SyncStateReady ≠ 0 →
      (sentOk (f.sendAll pkts).2).map (fun p => p.Seq) =
        List.iterate PacketSeq.Next f.seq (sentOk (f.sendAll pkts).2).length) := by
  refine ⟨?_, FIFO.send_notReady f pkt, ?_, FIFO.sendAll_seqs pkts f⟩
  · constructor
    · intro h
      by_contra hr
      rw [FIFO.send_ready f pkt hr] at h
      simp only at h
      rcases Packet.writeTo_err ⟨f.seq, pkt.Code, pkt.Data⟩ f.ReadWriter with h2 | h2 <;>
        rw [h2] at h <;> simp at h
    · intro h
      rw [FIFO.send_notReady f pkt h]
  · intro hr
    rw [FIFO.send_ready f pkt hr]
    refine ⟨rfl, rfl, rfl, rfl, ?_, ?_⟩
    · intro h
      simp only at h ⊢
      rw [if_pos h]
    · intro h
      simp only at h ⊢
      rw [if_neg h]

/-- C22 on the 'sync and send' case of `fifo_test.go`: three sends from own
sequence 1 write `01 02`, `02 92 03`, `03 72 08 01 .. 08`; and a send on a
FIFO that is not Ready. -/
theorem send_contract_witness :
    (readyFIFO.state &&& SyncStateReady ≠ 0 ∧
      (sentOk (readyFIFO.sendAll
          [⟨0, 0x02, []⟩, ⟨0, 0x82, [3]⟩, ⟨0, 0x02, [1, 2, 3, 4, 5, 6, 7, 8]⟩]).2).map
        (fun p => p.Seq) = [1, 2, 3] ∧
      (readyFIFO.sendAll
          [⟨0, 0x02, []⟩, ⟨0, 0x82, [3]⟩, ⟨0, 0x02, [1, 2, 3, 4, 5, 6, 7, 8]⟩]).1.ReadWriter.written
        = [0x01, 0x02, 0x02, 0x92, 0x03, 0x03, 0x72, 0x08, 1, 2, 3, 4, 5, 6, 7, 8]) ∧
    ((⟨openWriter, 1, SyncStateSyncing⟩ : FIFO).state &&& SyncStateReady = 0 ∧
      FIFO.Send ⟨openWriter, 1, SyncStateSyncing⟩ ⟨0, 2, [3]⟩ =
        (⟨openWriter, 1, SyncStateSyncing⟩, ⟨0, 2, [3]⟩, some Error.ErrNotReady)) :=
  ⟨⟨by decide,
      ((send_contract readyFIFO ⟨0, 0x02, []⟩
        [⟨0, 0x02, []⟩, ⟨0, 0x82, [3]⟩, ⟨0, 0x02, [1, 2, 3, 4, 5, 6, 7, 8]⟩]).2.2.2
          (by decide)).trans (by decide),
      by decide⟩,
    ⟨by decide,
      (send_contract ⟨openWriter, 1, SyncStateSyncing⟩ ⟨0, 2, [3]⟩ []).2.1 (by decide)⟩⟩

end L0


/-! ## The loop: posted messages and the store of the next iteration -/

namespace Framework

theorem postAll_eq : ∀ (ms : List Message) (l : Loop) (h2 : Heap) (l2 : messageList),
    AddMessages l.heap l.messages ms = some (h2, l2) →
    l.postAll ms = some ⟨l.controllers, h2, l2⟩ := by
  intro ms
  induction ms with
  | nil =>
    intro l h2 l2 hadd
    simp only [AddMessages, Option.some.injEq, Prod.mk.injEq] at hadd
    obtain ⟨rfl, rfl⟩ := hadd
    rfl
  | cons m ms ih =>
    intro l h2 l2 hadd
    simp only [AddMessages, Heap.alloc_addr] at hadd
    cases happ : messageList.append (l.heap.alloc m).1 l.messages l.heap.size with
    | none => simp [happ] at hadd
    | some x =>
      obtain ⟨h1, l1⟩ := x
      simp only [happ] at hadd
      have := ih ⟨l.controllers, h1, l1⟩ h2 l2 hadd
      simp only [Loop.postAll, Loop.PostMessage, Heap.alloc_addr, happ]
      exact this

theorem AbsIter.doCall_posted (a : AbsIter) (c : Call) :
    (a.doCall c).pending = a.pending ++ c.posted ∧ (a.doCall c).log = a.log := by
  cases c <;> simp [AbsIter.doCall, Call.posted]

theorem AbsIter.doCalls_posted (cs : List Call) : ∀ a : AbsIter,
    (a.doCalls cs).pending = a.pending ++ cs.flatMap Call.posted ∧
      (a.doCalls cs).log = a.log := by
  induction cs with
  | nil => intro a; simp [AbsIter.doCalls]
  | cons c cs ih =>
    intro a
    obtain ⟨h1, h2⟩ := ih (a.doCall c)
    obtain ⟨h3, h4⟩ := a.doCall_posted c
    simp only [AbsIter.doCalls, List.flatMap_cons]
    exact ⟨by rw [h1, h3, List.append_assoc], by rw [h2, h4]⟩

theorem postedIn_append (prog : Program) (l1 l2 : List (Nat × Nat)) :
    postedIn prog (l1 ++ l2) = postedIn prog l1 ++ postedIn prog l2 := by
  simp [postedIn, List.flatMap_append]

theorem AbsIter.runControllers_posted (prog : Program) (ctls : List Nat) : ∀ a : AbsIter,
    a.pending = postedIn prog a.log →
    (a.runControllers prog ctls).pending = postedIn prog (a.runControllers prog ctls).log := by
  induction ctls with
  | nil => intro a h; exact h
  | cons ctl ctls ih =>
    intro a h
    simp only [AbsIter.runControllers]
    apply ih
    obtain ⟨h1, h2⟩ := AbsIter.doCalls_posted (prog ctl a.priorityLevel).1
      ⟨a.controllers, a.pending, a.store, a.priorityLevel, a.log ++ [(ctl, a.priorityLevel)],
        a.peak⟩
    rw [h1, h2, postedIn_append, h]
    simp [postedIn]

theorem AbsIter.runLevel_posted (prog : Program) (a : AbsIter)
    (h : a.pending = postedIn prog a.log) :
    (a.runLevel prog).pending = postedIn prog (a.runLevel prog).log := by
  simp only [AbsIter.runLevel]
  apply AbsIter.runControllers_posted
  simp only [AbsIter.takePost]
  apply AbsIter.runControllers_posted
  apply AbsIter.runControllers_posted
  simpa [AbsIter.takePre] using h

theorem AbsIter.runLevels_posted (prog : Program) (n : Nat) : ∀ (i : Nat) (a : AbsIter),
    a.pending = postedIn prog a.log →
    (AbsIter.runLevels prog n i a).pending = postedIn prog (AbsIter.runLevels prog n i a).log := by
  induction n with
  | zero => intro i a h; exact h
  | succ n ih =>
    intro i a h
    simp only [AbsIter.runLevels]
    apply ih
    apply AbsIter.runLevel_posted
    exact h

/-- On lists: at the end of an iteration the pending list holds the messages
posted by the `Control` invocations of the iteration, in order. -/
theorem AbsIter.runIteration_posted (prog : Program) (cs : Nat → controllerList)
    (store : List Message) :
    (AbsIter.runIteration prog cs store).pending =
      postedIn prog (AbsIter.runIteration prog cs store).log :=
  AbsIter.runLevels_posted prog PriorityLevels 0 _ rfl

end Framework


namespace Framework

/-- C23: when the pending list of the loop holds the items `ps` and the
messages `ms` are then posted with `PostMessage`, the posts return and the
iteration that starts next has as its store the earlier messages followed by
`ms`, in posting order, while the pending list of the loop is empty. The
iteration returns; what the loop's pending list holds then is the messages
posted by the `Control` invocations of this iteration, in the order they were
posted; their items are not items of this iteration's store, and they are the
store of the iteration after it, which again leaves the pending list
empty. -/
theorem posted_messages_next_store (prog : Program) (hp : prog.Ok) (l : Loop)
    (ps : List Nat) (ms : List Message) (fuel : Nat)
    (hl : IsList l.heap l.messages ps)
    (hfuel : (AbsIter.runIteration prog l.controllers (l.heap.msgs ps ++ ms)).peak ≤ fuel) :
    ∃ l1 xs t2 ys ps2,
      l.postAll ms = some l1 ∧
      IsList l1.beginIteration.loop.heap l1.beginIteration.messages xs ∧
      l1.beginIteration.loop.heap.msgs xs = l.heap.msgs ps ++ ms ∧
      l1.beginIteration.loop.messages.head = none ∧
      l1.runIteration prog fuel = Res.ok t2 ∧
      IsList t2.loop.heap t2.messages ys ∧
      IsList t2.loop.heap t2.loop.messages ps2 ∧
      (∀ x ∈ ps2, x ∉ ys) ∧
      t2.loop.heap.msgs ps2 = postedIn prog t2.log ∧
      IsList t2.loop.beginIteration.loop.heap t2.loop.beginIteration.messages ps2 ∧
      t2.loop.beginIteration.loop.messages.head = none := by
  obtain ⟨h1, l1, hadd, hlist, _, hmsg, _, hnew⟩ :=
    addMessages_spec ms l.heap l.messages ps hl
  have hpost := postAll_eq ms l h1 l1 hadd
  have hmsgs : h1.msgs (ps ++ List.range' l.heap.size ms.length) = l.heap.msgs ps ++ ms := by
    simp only [Heap.msgs, List.map_append, hnew]
    congr 1
    exact List.map_congr_left (fun x hx => hmsg x (hl.item_lt x hx))
  have hfuel2 : (AbsIter.runIteration prog (⟨l.controllers, h1, l1⟩ : Loop).controllers
      ((⟨l.controllers, h1, l1⟩ : Loop).heap.msgs
        (ps ++ List.range' l.heap.size ms.length))).peak ≤ fuel := by
    show (AbsIter.runIteration prog l.controllers
      (h1.msgs (ps ++ List.range' l.heap.size ms.length))).peak ≤ fuel
    rw [hmsgs]
    exact hfuel
  obtain ⟨t2, hrun, hR⟩ := runIteration_sim prog hp fuel ⟨l.controllers, h1, l1⟩
    (ps ++ List.range' l.heap.size ms.length) hlist hfuel2
  obtain ⟨_, _, hlog, ys, ps2, hys, _, hps2, hmp, hdis⟩ := hR
  refine ⟨⟨l.controllers, h1, l1⟩, ps ++ List.range' l.heap.size ms.length, t2, ys, ps2,
    hpost, ⟨hlist.1, hlist.2.1, hlist.2.2⟩, hmsgs, rfl, hrun, hys, hps2,
    fun x hx hy => hdis x hy hx, ?_, ⟨hps2.1, hps2.2.1, hps2.2.2⟩, rfl⟩
  rw [hmp, hlog]
  exact AbsIter.runIteration_posted prog _ _

theorem postingProg_ok : postingProg.Ok := by
  intro ctl lvl c hc
  simp only [postingProg] at hc
  split_ifs at hc <;> simp at hc
  · rcases hc with rfl | rfl <;> simp [Call.Ok]
  · subst hc; simp [Call.Ok, takesAll]
  · subst hc; simp [Call.Ok]

/-- C23 on `freshLoop`: the messages 10 and 20 are posted, then an iteration
runs in which controller 1 posts 41 and 42 and controller 3 posts 43; the
next store holds 41, 42, 43. -/
theorem posted_messages_next_store_witness :
    (AbsIter.runIteration postingProg freshLoop.controllers
        (freshLoop.heap.msgs [] ++ [10, 20])).pending = [41, 42, 43] ∧
    ∃ l1 xs t2 ys ps2,
      freshLoop.postAll [10, 20] = some l1 ∧
      IsList l1.beginIteration.loop.heap l1.beginIteration.messages xs ∧
      l1.beginIteration.loop.heap.msgs xs = freshLoop.heap.msgs [] ++ [10, 20] ∧
      l1.beginIteration.loop.messages.head = none ∧
      l1.runIteration postingProg 2 = Res.ok t2 ∧
      IsList t2.loop.heap t2.messages ys ∧
      IsList t2.loop.heap t2.loop.messages ps2 ∧
      (∀ x ∈ ps2, x ∉ ys) ∧
      t2.loop.heap.msgs ps2 = postedIn postingProg t2.log ∧
      IsList t2.loop.beginIteration.loop.heap t2.loop.beginIteration.messages ps2 ∧
      t2.loop.beginIteration.loop.messages.head = none :=
  ⟨by decide,
    posted_messages_next_store postingProg postingProg_ok freshLoop [] [10, 20] 2
      ⟨rfl, List.nodup_nil, fun h => absurd rfl h⟩ (by decide)⟩

end Framework


/-! ## L1 connection: `DoCommand` -/

namespace L1

theorem nextSeq_ne_zero (seq : Nat) : nextSeq seq ≠ 0 ∧ nextSeq seq < 2 ^ 32 := by
  unfold nextSeq
  split_ifs with h
  · rw [h]
    decide
  · exact ⟨h, Nat.mod_lt _ (by decide)⟩

/-- C24: on a connection `c` reached from `Init` by any operations,
`DoCommand` at time `now` gives the command the sequence after `c.seq`: one
more modulo `2^32`, and 1 where that is 0, so never 0. When the send succeeds
the returned future, a new object with that sequence and the deadline
`now + Expiration`, is put at the tail of the pending list and into the map
under its sequence, other map entries stay, and nothing is sent to it. When
the send fails with `e` the future is sent the result with error `e`, list
and map stay as they were, and the future is in neither. -/
theorem doCommand_contract (expiration : Int) (ops : List Op) (c : ControllerConn)
    (now : Int) (hc : c = ((ControllerConn.Init expiration).run ops).1) :
    (nextSeq c.seq = (if (c.seq + 1) % 2 ^ 32 = 0 then 1 else (c.seq + 1) % 2 ^ 32) ∧
      nextSeq c.seq ≠ 0 ∧ nextSeq c.seq < 2 ^ 32) ∧
    (∀ sendErr, (c.DoCommand now sendErr).2.1 = ⟨c.nextId, nextSeq c.seq, now + c.Expiration⟩ ∧
      (c.DoCommand now sendErr).1.seq = nextSeq c.seq ∧
      (c.DoCommand now sendErr).2.1 ∉ c.commands ∧
      (∀ s, c.seqMap s ≠ some (c.DoCommand now sendErr).2.1)) ∧
    ((c.DoCommand now none).1.commands = c.commands ++ [(c.DoCommand now none).2.1] ∧
      (c.DoCommand now none).1.seqMap (nextSeq c.seq) = some (c.DoCommand now none).2.1 ∧
      (∀ s, s ≠ nextSeq c.seq → (c.DoCommand now none).1.seqMap s = c.seqMap s) ∧
      (c.DoCommand now none).2.2 = []) ∧
    (∀ e, (c.DoCommand now (some e)).2.2 =
        [Effect.send (c.DoCommand now (some e)).2.1.id ⟨none, some (Error.send e)⟩] ∧
      (c.DoCommand now (some e)).1.commands = c.commands ∧
      (c.DoCommand now (some e)).1.seqMap = c.seqMap ∧
      (c.DoCommand now (some e)).2.1 ∉ (c.DoCommand now (some e)).1.commands ∧
      (∀ s, (c.DoCommand now (some e)).1.seqMap s ≠ some (c.DoCommand now (some e)).2.1)) := by
  obtain ⟨⟨hM, _, hB, _, _⟩, _⟩ :=
    conn_run_inv ops (ControllerConn.Init expiration) [] (sound_init expiration)
  rw [← hc] at hM hB
  have hfresh : (⟨c.nextId, nextSeq c.seq, now + c.Expiration⟩ : commandFuture) ∉ c.commands :=
    fun h => Nat.lt_irrefl _ (hB _ h)
  have hnot : ∀ s, c.seqMap s ≠ some ⟨c.nextId, nextSeq c.seq, now + c.Expiration⟩ :=
    fun s h => hfresh (hM s _ h).1
  refine ⟨⟨?_, nextSeq_ne_zero c.seq⟩, ?_, ?_, ?_⟩
  · unfold nextSeq
    split_ifs with h
    · rw [h]
      rfl
    · rfl
  · intro sendErr
    cases sendErr <;> exact ⟨rfl, rfl, hfresh, hnot⟩
  · refine ⟨rfl, ?_, ?_, rfl⟩
    · simp [ControllerConn.DoCommand, mapStore]
    · intro s hs
      simp [ControllerConn.DoCommand, mapStore, hs]
  · intro e
    exact ⟨rfl, rfl, rfl, hfresh, hnot⟩

/-- C24 on the connection after `sampleOps` (sequence 4, future 3 pending):
a command that is sent gets sequence 5 and is registered; one that is not
sent is resolved with the send error. -/
theorem doCommand_contract_witness :
    ((((ControllerConn.Init 1000000000).run sampleOps).1.DoCommand 7000000000 none).1.commands =
      [⟨3, 4, 7000000000⟩, ⟨4, 5, 8000000000⟩]) ∧
    ((((ControllerConn.Init 1000000000).run sampleOps).1.DoCommand 7000000000 none).1.seqMap 5 =
      some ⟨4, 5, 8000000000⟩) ∧
    ((((ControllerConn.Init 1000000000).run sampleOps).1.DoCommand 7000000000 (some 9)).2.2 =
      [Effect.send 4 ⟨none, some (Error.send 9)⟩]) ∧
    (∀ s, (((ControllerConn.Init 1000000000).run sampleOps).1.DoCommand 7000000000
        (some 9)).1.seqMap s ≠
      some (((ControllerConn.Init 1000000000).run sampleOps).1.DoCommand 7000000000
        (some 9)).2.1) :=
  ⟨by decide, by decide, by decide,
    ((doCommand_contract 1000000000 sampleOps _ 7000000000 rfl).2.2.2 9).2.2.2.2⟩

end L1


/-! ## L1 messages: the type-id masks -/

namespace L1

/-- C25, as stated, fails: `TypeIDMaskID` and `TypeIDMaskReply` have bit 15
in common, and `TypeIDMaskID` is bits 0-15, not bits 0-14. -/
theorem typeID_masks_overlap :
    TypeIDMaskID &&& TypeIDMaskReply = 0x8000 ∧
    TypeIDMaskID &&& TypeIDMaskReply ≠ 0 ∧
    TypeIDMaskID ≠ 2 ^ 15 - 1 := by
  decide

/-- C25, amended: `TypeIDMaskKind` is bit 31, `TypeIDMaskGroup` is bits
16-30 and `TypeIDMaskID` is bits 0-15; these three are pairwise disjoint and
together cover all 32 bits. `TypeIDMaskReply` is bit 15: it lies inside
`TypeIDMaskID` and is disjoint from the kind and group masks. -/
theorem typeID_masks_layout :
    TypeIDMaskKind = 2 ^ 31 ∧
    TypeIDMaskGroup = (2 ^ 15 - 1) <<< 16 ∧
    TypeIDMaskID = 2 ^ 16 - 1 ∧
    TypeIDMaskReply = 2 ^ 15 ∧
    TypeIDMaskKind &&& TypeIDMaskGroup = 0 ∧
    TypeIDMaskKind &&& TypeIDMaskID = 0 ∧
    TypeIDMaskGroup &&& TypeIDMaskID = 0 ∧
    TypeIDMaskKind ||| TypeIDMaskGroup ||| TypeIDMaskID = 2 ^ 32 - 1 ∧
    TypeIDMaskReply &&& TypeIDMaskID = TypeIDMaskReply ∧
    TypeIDMaskReply &&& TypeIDMaskKind = 0 ∧
    TypeIDMaskReply &&& TypeIDMaskGroup = 0 := by
  refine ⟨?_, ?_, ?_, ?_, ?_, ?_, ?_, ?_, ?_, ?_, ?_⟩ <;> decide

end L1


/-! ## MQTT: topic matching -/

namespace Mqtt

theorem matchLoop_extend (T E : List String) (n : Nat) : ∀ (ps : List String) (i : Nat),
    matchLoop T n i ps = some true → matchLoop (T ++ E) n i ps = some true := by
  intro ps
  induction ps with
  | nil => intro i _; rfl
  | cons token rest ih =>
    intro i h
    simp only [matchLoop] at h ⊢
    split_ifs at h ⊢ with h1 h2
    · exact ih _ h
    · rfl
    · cases hT : T[i]? with
      | none => simp [hT] at h
      | some t =>
        have hi : i < T.length := by
          by_contra hge
          rw [List.getElem?_eq_none (by omega)] at hT
          exact absurd hT (by simp)
        have hTE : (T ++ E)[i]? = some t := by
          rw [List.getElem?_append_left hi]
          exact hT
        simp only [hT] at h
        simp only [hTE]
        split_ifs at h ⊢ with h3
        · exact absurd h (by simp)
        · exact ih _ h

/-- What `MatchTopic` accepts it also accepts with more segments at the end
of the topic: the segments of the topic past those of the pattern are never
looked at. -/
theorem matchTokens_extend (T P E : List String) (h : matchTokens T P = some true) :
    matchTokens (T ++ E) P = some true := by
  unfold matchTokens at h ⊢
  split_ifs at h with h1
  · exact absurd h (by simp)
  · have h2 : ¬ P.length > (T ++ E).length := by
      simp only [List.length_append]
      omega
    rw [if_neg h2]
    exact matchLoop_extend T E P.length P 0 h

/-- C26 fails on topics with more segments than the pattern: the pattern
`a/b`, which has no `#`, is matched by the topic `a/b/c`, and `a/+` by
`a/b/c`, where `+` is to accept one segment only; the topics `a/b` and `a/x`
are matched as the claim says. -/
theorem matchTopic_accepts_longer_topic :
    MatchTopic "a/b/c" "a/b" = some true ∧
    MatchTopic "a/b/c" "a/+" = some true ∧
    MatchTopic "a/b" "a/b" = some true ∧
    MatchTopic "a/x" "a/+" = some true ∧
    Split "a/b/c" = ["a", "b", "c"] ∧ Split "a/b" = ["a", "b"] := by
  decide

end Mqtt


/-! ## Stream transport: length-prefixed packets -/

namespace Stream

theorem fromLe32_le32 (n : Nat) (h : n < 2 ^ 32) :
    fromLe32 (n % 256) (n / 256 % 256) (n / 65536 % 256) (n / 16777216 % 256) = n := by
  unfold fromLe32
  have h2 : n < 4294967296 := h
  omega

theorem writePacket_eq (s pkt : List Nat) (h : pkt.length < 2 ^ 32) :
    WritePacket s pkt = s ++ le32 pkt.length ++ pkt := by
  unfold WritePacket
  simp only [Nat.mod_eq_of_lt h, List.take_length]

theorem readPacket_written (pkt more : List Nat) (h : pkt.length < 2 ^ 32) :
    ReadPacket (le32 pkt.length ++ pkt ++ more) = (more, pkt, none) := by
  simp only [le32, List.cons_append, List.nil_append, ReadPacket, fromLe32_le32 _ h, readFull]
  simp

theorem writeAll_append (pkts : List (List Nat)) : ∀ s : List Nat,
    writeAll s pkts = s ++ writeAll [] pkts := by
  induction pkts with
  | nil => intro s; simp [writeAll]
  | cons pkt pkts ih =>
    intro s
    simp only [writeAll]
    rw [ih (WritePacket s pkt), ih (WritePacket [] pkt)]
    simp [WritePacket, List.append_assoc]

theorem readN_writeAll (pkts : List (List Nat)) (h : ∀ pkt ∈ pkts, pkt.length < 2 ^ 32) :
    ∀ more : List Nat,
      readN pkts.length (writeAll [] pkts ++ more) = (pkts, more, none) := by
  induction pkts with
  | nil => intro more; rfl
  | cons pkt pkts ih =>
    intro more
    have hp := h pkt (List.mem_cons_self _ _)
    have ih2 := ih (fun q hq => h q (List.mem_cons_of_mem _ hq)) more
    simp only [writeAll, List.length_cons, readN]
    rw [writeAll_append, writePacket_eq [] pkt hp, List.nil_append, List.append_assoc,
      readPacket_written pkt _ hp]
    simp only [ih2]

/-- C27: for a packet shorter than `2^32` bytes `WritePacket` adds to the
stream the four bytes of the packet length, least significant first, and
then the packet; `ReadPacket` on what was written (whatever follows it)
returns that packet without error and leaves what follows; and packets
written one after another, each shorter than `2^32` bytes, are read back by
as many `ReadPacket` calls one by one in the order written, with nothing
left. -/
theorem stream_roundtrip (s pkt more : List Nat) (pkts : List (List Nat))
    (h : pkt.length < 2 ^ 32) (hs : ∀ q ∈ pkts, q.length < 2 ^ 32) :
    WritePacket s pkt = s ++ [pkt.length % 256, pkt.length / 256 % 256,
        pkt.length / 65536 % 256, pkt.length / 16777216 % 256] ++ pkt ∧
    ReadPacket (WritePacket [] pkt ++ more) = (more, pkt, none) ∧
    readN pkts.length (writeAll [] pkts) = (pkts, [], none) := by
  refine ⟨writePacket_eq s pkt h, ?_, ?_⟩
  · rw [writePacket_eq [] pkt h, List.nil_append]
    exact readPacket_written pkt more h
  · have := readN_writeAll pkts hs []
    rwa [List.append_nil] at this

/-- C27 on the packets `[7, 8, 9]` and `[]` and a packet of 300 bytes. -/
theorem stream_roundtrip_witness :
    WritePacket [] [7, 8, 9] = [] ++ [3, 0, 0, 0] ++ [7, 8, 9] ∧
    ReadPacket (WritePacket [] [7, 8, 9] ++ [1]) = ([1], [7, 8, 9], none) ∧
    readN 3 (writeAll [] [[7, 8, 9], [], List.replicate 300 5]) =
      ([[7, 8, 9], [], List.replicate 300 5], [], none) :=
  stream_roundtrip [] [7, 8, 9] [1] [[7, 8, 9], [], List.replicate 300 5] (by decide)
    (by
      intro q hq
      simp only [List.mem_cons, List.mem_singleton, List.not_mem_nil, or_false] at hq
      rcases hq with rfl | rfl | rfl
      · decide
      · decide
      · rw [List.length_replicate]
        decide)

end Stream


/-! ## L0 parser: no panic -/

namespace L0
open parseState

/-- C28: after any sequence `cs` of `Reset`, `Parse(b)` and `Timeout` calls
on a zero-value parser no call has panicked (there is a result for each
call); in the state reached, when the internal state is `stateMsgCode`,
`stateMsgLen` or `stateMsgData` a pending packet exists, and in
`stateMsgData` the count of received bytes is below the length of the data
buffer, which is between 1 and 127; and `parseByte` on any further byte
returns without a nil dereference or an index out of range. -/
theorem parser_never_panics (cs : List ParserCall) :
    ∃ (p : Parser) (rs : List ParseResult),
      Parser.zero.run cs = some (p, rs) ∧ rs.length = cs.length ∧
      (p.state = stateMsgCode ∨ p.state = stateMsgLen ∨ p.state = stateMsgData →
        p.packet.isSome = true) ∧
      (p.state = stateMsgData →
        ∃ pk, p.packet = some pk ∧ p.recvLen < pk.Data.length ∧
          1 ≤ pk.Data.length ∧ pk.Data.length ≤ 127) ∧
      ∀ b, ∃ p2 s pkt, p.parseByte b = some (p2, s, pkt) := by
  obtain ⟨p, rs, hrun, hinv, hlen⟩ := Parser.run_inv cs Parser.zero Parser.inv_zero
  refine ⟨p, rs, hrun, hlen, ?_, ?_, ?_⟩
  · intro hst
    unfold Parser.Inv at hinv
    rcases hst with h | h | h
    · rw [h] at hinv
      exact hinv
    · rw [h] at hinv
      exact hinv
    · rw [h] at hinv
      obtain ⟨pk, hpk, _⟩ := hinv
      rw [hpk]
      rfl
  · intro hst
    unfold Parser.Inv at hinv
    rw [hst] at hinv
    exact hinv
  · intro b
    obtain ⟨p2, s, pkt, h, _⟩ := Parser.parseByte_inv p b hinv
    exact ⟨p2, s, pkt, h⟩

end L0

/-! ## Message store: termination of `ProcessMessages` -/

namespace Framework

/-- The loop of `ProcessMessages` with `fuel` rounds is its first `fuel`
rounds, followed by the test whether the loop has ended. -/
theorem passLoop_rounds {σ : Type} (proc : Processor σ) : ∀ (fuel : Nat) (s : PassState σ),
    passLoop proc fuel s =
      match passRounds proc fuel s with
      | none => Res.panic
      | some s1 =>
        match s1.msgs.head with
        | none => Res.ok s1
        | some _ => Res.outOfFuel := by
  intro fuel
  induction fuel with
  | zero =>
    intro s
    simp only [passLoop, passRounds]
  | succ fuel ih =>
    intro s
    simp only [passLoop, passRounds]
    cases hh : s.msgs.head with
    | none => simp [hh]
    | some item =>
      simp only
      cases hr : passRound proc s item with
      | none => rfl
      | some s1 => exact ih s1

theorem stop_at_first_repeats :
    (passRounds (stopsAt 10) 5 (passStart store3.1 store3.2 ())).map (fun s => s.calls) =
      some [10, 20, 30, 20, 30] := by
  simp [passRounds, passStart, passRound, stopsAt, AddMessages, messageList.append,
    messageList.concat, messageList.splice, messageList.zero, store3, Heap.setNext]

/-- C29 fails on the store 10, 20, 30 with a processor that calls
`StopProcessing` at message 10: no number of rounds lets `ProcessMessages`
return, and within five rounds of its loop the processor has been invoked on
the messages 20 and 30 twice each. -/
theorem processMessages_stop_never_returns :
    (∀ fuel, ProcessMessages (stopsAt 10) fuel store3.1 store3.2 () = Res.outOfFuel) ∧
    (passRounds (stopsAt 10) 5 (passStart store3.1 store3.2 ())).map (fun s => s.calls) =
      some [10, 20, 30, 20, 30] := by
  refine ⟨fun fuel => ?_, stop_at_first_repeats⟩
  exact stop_at_first_diverges fuel

end Framework


/-! ## Simulation: the speed during an acceleration -/

namespace Nav

theorem newDriveState_slowing :
    newDriveState (some moving2) origin 0 0 1 =
      some ⟨origin, 0, 0, 0, 2, 2, 2000000000, -1⟩ := by
  simp [newDriveState, moving2, origin]
  norm_num

theorem estimate_slowing_speed :
    (driveState.estimate ⟨origin, 0, 0, 0, 2, 2, 2000000000, -1⟩ 1000000000).2.1.currentSpeed
      = 3 := by
  simp [driveState.estimate, seconds]
  norm_num

theorem estimate_slowing_pose :
    (driveState.estimate ⟨origin, 0, 0, 0, 2, 2, 2000000000, -1⟩ 1000000000).1.X = 3 / 2 := by
  simp [driveState.estimate, seconds, Pose2D.advance, origin]
  norm_num

theorem newDriveState_speeding :
    newDriveState none origin 0 2 1 = some ⟨origin, 0, 0, 2, 0, 0, 2000000000, 1⟩ := by
  simp [newDriveState, origin]
  norm_num

theorem estimate_speeding_speed :
    (driveState.estimate ⟨origin, 0, 0, 2, 0, 0, 2000000000, 1⟩ 1000000000).2.1.currentSpeed
      = 1 := by
  simp [driveState.estimate, seconds]

/-- C30 fails when slowing down. In the case 'reduce speed before accel ends'
of `drive_test.go` (speed 2, a `Drive` to speed 0 with acceleration 1,
`estimate` after one second, the acceleration ending after two) the position
is 1.5 as the test expects, but the current speed recorded is 3: it has moved
away from the desired speed 0 and is not between 0 and 2, where the claim
gives `2 - 1 * 1 = 1`. When speeding up (from 0 to 2 with acceleration 1) the
speed after one second is 1, as the claim says. -/
theorem estimate_speed_wrong_when_slowing :
    (∃ s, newDriveState (some moving2) origin 0 0 1 = some s ∧
      s.accelStartSpeed = 2 ∧ s.desiredSpeed = 0 ∧ (1000000000 : Int) < s.accelEndTime ∧
      (s.estimate 1000000000).1.X = 3 / 2 ∧
      (s.estimate 1000000000).2.1.currentSpeed = 3 ∧
      ¬ ((s.estimate 1000000000).2.1.currentSpeed ≤ s.accelStartSpeed)) ∧
    (∃ s, newDriveState none origin 0 2 1 = some s ∧
      (s.estimate 1000000000).2.1.currentSpeed = 1) := by
  refine ⟨⟨_, newDriveState_slowing, rfl, rfl, by decide, estimate_slowing_pose,
    estimate_slowing_speed, ?_⟩, ⟨_, newDriveState_speeding, estimate_speeding_speed⟩⟩
  rw [estimate_slowing_speed]
  norm_num

end Nav
